import Mathlib

/-! A doubly-linked list container (`src/list.h`), embedded in Lean.

The C++ class `List<T>` keeps raw pointers `first`, `last` and a counter
`size_`, and its nodes live on the free store.  The embedding makes the free
store explicit: a heap is a list of cells, an address is an index into it, a
pointer is `Option Nat` (`none` is `nullptr`), `new` appends a cell and
`delete` empties one.  Dereferencing a null or dangling pointer is undefined
behaviour in C++; here it is the fault `invalid_access`.  Loops and recursions
that follow `next` links carry a fuel argument; the public operations supply
more fuel than the heap has cells, which is enough for every walk that does
not run in a cycle (a walk that does run in a cycle never ends in C++ and ends
here with the fault `no_fuel`).

`size_` is a `size_t`.  It counts live nodes, each of which occupies its own
storage, so it stays far below `2^64`; it is modelled as a natural number.
-/

namespace CppList

/-- A `Node*`: `none` is `nullptr`, `some a` is the address `a`. -/
abbrev Ptr := Option Nat

/-- The source's `struct Node`. -/
structure Node (T : Type) where
  data : T
  next : Ptr
  prev : Ptr
deriving DecidableEq

/-- The free store: cell `a` holds the node at address `a`, or `none` once it
has been deleted.  Addresses past the end have never been handed out. -/
abbrev Heap (T : Type) := List (Option (Node T))

/-- The members of a `List<T>` object together with the free store. -/
structure State (T : Type) where
  heap : Heap T
  first : Ptr
  last : Ptr
  size_ : Nat
deriving DecidableEq

/-- The ways a call can fail to return normally.  `out_of_range` is the
exception `std::out_of_range`, with the state of the object at the throw. -/
inductive Fault (σ : Type) where
  | out_of_range (s : σ)
  | invalid_access
  | no_fuel
deriving DecidableEq

variable {T σ : Type}

/-- The node stored at an address, if the address is live. -/
def Heap.read (h : Heap T) (a : Nat) : Option (Node T) :=
  h[a]?.getD none

/-- The read `p->...`. -/
def load (h : Heap T) : Ptr → Except (Fault σ) (Node T)
  | none => .error .invalid_access
  | some a =>
    match h.read a with
    | none => .error .invalid_access
    | some n => .ok n

/-- The assignment `p->next = v`. -/
def setNext (h : Heap T) (p : Ptr) (v : Ptr) : Except (Fault σ) (Heap T) :=
  match p with
  | none => .error .invalid_access
  | some a =>
    match h.read a with
    | none => .error .invalid_access
    | some n => .ok (h.set a (some { n with next := v }))

/-- The assignment `p->prev = v`. -/
def setPrev (h : Heap T) (p : Ptr) (v : Ptr) : Except (Fault σ) (Heap T) :=
  match p with
  | none => .error .invalid_access
  | some a =>
    match h.read a with
    | none => .error .invalid_access
    | some n => .ok (h.set a (some { n with prev := v }))

/-- The expression `new Node(x)`: a fresh cell with both links null. -/
def alloc (h : Heap T) (x : T) : Heap T × Ptr :=
  (h ++ [some { data := x, next := none, prev := none }], some h.length)

/-- The statement `delete p`. -/
def free (h : Heap T) : Ptr → Except (Fault σ) (Heap T)
  | none => .ok h
  | some a =>
    match h.read a with
    | none => .error .invalid_access
    | some _ => .ok (h.set a none)

/-- The constructor `List()`, on a given free store. -/
def List_ (h : Heap T) : State T :=
  { heap := h, first := none, last := none, size_ := 0 }

/-- The accessor `size()`. -/
def size (s : State T) : Nat := s.size_

/-- The private `get_middle`, its `while` loop. -/
def get_middle_loop : Nat → Heap T → Ptr → Ptr → Except (Fault σ) Ptr
  | 0, _, _, _ => .error .no_fuel
  | fuel + 1, h, slow, fast =>
    match fast with
    | none => .ok slow
    | some _ => do
      let fn ← load h fast
      match fn.next with
      | none => .ok slow
      | some _ => do
        let sn ← load h slow
        let fn ← load h fast
        let fnn ← load h fn.next
        get_middle_loop fuel h sn.next fnn.next

/-- The private `get_middle`. -/
def get_middle (fuel : Nat) (h : Heap T) (head : Ptr) : Except (Fault σ) Ptr :=
  match head with
  | none => .ok head
  | some _ => do
    let hn ← load h head
    get_middle_loop fuel h head hn.next

/-- The private `merge`. -/
def merge (compare : T → T → Bool) :
    Nat → Heap T → Ptr → Ptr → Except (Fault σ) (Heap T × Ptr)
  | 0, _, _, _ => .error .no_fuel
  | fuel + 1, h, left, right =>
    match left with
    | none => .ok (h, right)
    | some _ =>
      match right with
      | none => .ok (h, left)
      | some _ => do
        let ln ← load h left
        let rn ← load h right
        if compare ln.data rn.data then
          let ln ← load h left
          let (h1, m) ← merge compare fuel h ln.next right
          let h2 ← setNext h1 left m
          let ln ← load h2 left
          let h3 ← setPrev h2 ln.next left
          let h4 ← setPrev h3 left none
          .ok (h4, left)
        else
          let rn ← load h right
          let (h1, m) ← merge compare fuel h left rn.next
          let h2 ← setNext h1 right m
          let rn ← load h2 right
          let h3 ← setPrev h2 rn.next right
          let h4 ← setPrev h3 right none
          .ok (h4, right)

/-- The private `merge_sort(Node*& head, compare)`; the reference parameter
`head` is returned next to the heap. -/
def merge_sort_rec (compare : T → T → Bool) :
    Nat → Heap T → Ptr → Except (Fault σ) (Heap T × Ptr)
  | 0, _, _ => .error .no_fuel
  | fuel + 1, h, head =>
    match head with
    | none => .ok (h, head)
    | some _ => do
      let hn ← load h head
      match hn.next with
      | none => .ok (h, head)
      | some _ => do
        let middle ← get_middle (h.length + 1) h head
        let mn ← load h middle
        let half := mn.next
        let h1 ← setNext h middle none
        let (h2, head2) ← merge_sort_rec compare fuel h1 head
        let (h3, half3) ← merge_sort_rec compare fuel h2 half
        merge compare (h3.length + 1) h3 head2 half3

/-- The loop of `clear`. -/
def clear_loop : Nat → Heap T → Ptr → Except (Fault σ) (Heap T × Ptr)
  | 0, _, _ => .error .no_fuel
  | fuel + 1, h, first =>
    match first with
    | none => .ok (h, first)
    | some _ => do
      let tmp := first
      let fn ← load h first
      let h1 ← free h tmp
      clear_loop fuel h1 fn.next

/-- The member `clear`. -/
def clear (s : State T) : Except (Fault (State T)) (State T) := do
  let (h, first) ← clear_loop (s.heap.length + 1) s.heap s.first
  .ok { heap := h, first := first, last := none, size_ := 0 }

/-- The member `push_back`. -/
def push_back (other : T) (s : State T) : Except (Fault (State T)) (State T) :=
  match s.first with
  | none =>
    let (h1, p) := alloc s.heap other
    .ok { heap := h1, first := p, last := s.last, size_ := s.size_ + 1 }
  | some _ => do
    let (h1, p) := alloc s.heap other
    let h2 ← setNext h1 s.last p
    let ln ← load h2 s.last
    let h3 ← setPrev h2 ln.next s.last
    let ln ← load h3 s.last
    .ok { heap := h3, first := s.first, last := ln.next, size_ := s.size_ + 1 }

/-- The `while` loop of `insert_if`, with its two exits. -/
def insert_if_loop (new_element : T) (compare : T → T → Bool) (s : State T) :
    Nat → Nat → Ptr → Except (Fault (State T)) (Nat × State T)
  | 0, _, _ => .error .no_fuel
  | fuel + 1, index, current =>
    match current with
    | none => do
      let s1 ← push_back new_element s
      .ok (s1.size_ - 1, s1)
    | some _ => do
      let cn ← load s.heap current
      if compare new_element cn.data then
        let (h1, new_node) := alloc s.heap new_element
        let h2 ← setNext h1 new_node current
        let cn ← load h2 current
        let h3 ← setPrev h2 new_node cn.prev
        let cn ← load h3 current
        let (h4, first4) ←
          match cn.prev with
          | some _ => do
            let h ← setNext h3 cn.prev new_node
            pure (h, s.first)
          | none => pure (h3, new_node)
        let h5 ← setPrev h4 current new_node
        .ok (index, { heap := h5, first := first4, last := s.last, size_ := s.size_ + 1 })
      else
        insert_if_loop new_element compare s fuel (index + 1) cn.next

/-- The member `insert_if`. -/
def insert_if (new_element : T) (compare : T → T → Bool) (s : State T) :
    Except (Fault (State T)) (Nat × State T) :=
  insert_if_loop new_element compare s (s.heap.length + 1) 0 s.first

/-- The loop `for (i = 0; i < index; ++i) current = current->next`. -/
def advance (h : Heap T) : Nat → Ptr → Except (Fault σ) Ptr
  | 0, current => .ok current
  | i + 1, current => do
    let cn ← load h current
    advance h i cn.next

/-- The member `insert`. -/
def insert (other : T) (index : Nat) (s : State T) : Except (Fault (State T)) (State T) :=
  if index > s.size_ then .error (.out_of_range s)
  else
    let (h0, new_node) := alloc s.heap other
    if index = 0 then do
      let h1 ← setNext h0 new_node s.first
      let h2 ←
        match s.first with
        | some _ => setPrev h1 s.first new_node
        | none => pure h1
      let last2 := if s.size_ = 0 then new_node else s.last
      .ok { heap := h2, first := new_node, last := last2, size_ := s.size_ + 1 }
    else if index = s.size_ then do
      let h1 ← setPrev h0 new_node s.last
      let h2 ←
        match s.last with
        | some _ => setNext h1 s.last new_node
        | none => pure h1
      .ok { heap := h2, first := s.first, last := new_node, size_ := s.size_ + 1 }
    else do
      let current ← advance h0 index s.first
      let h1 ← setNext h0 new_node current
      let cn ← load h1 current
      let h2 ← setPrev h1 new_node cn.prev
      let cn ← load h2 current
      let h3 ←
        match cn.prev with
        | some _ => setNext h2 cn.prev new_node
        | none => pure h2
      let h4 ← setPrev h3 current new_node
      .ok { heap := h4, first := s.first, last := s.last, size_ := s.size_ + 1 }

/-- The member `remove`. -/
def remove (index : Nat) (s : State T) : Except (Fault (State T)) (State T) :=
  if index ≥ s.size_ then .error (.out_of_range s)
  else do
    let current ← advance s.heap index s.first
    let cn ← load s.heap current
    let (h1, first1) ←
      match cn.prev with
      | some _ => do
        let h ← setNext s.heap cn.prev cn.next
        pure (h, s.first)
      | none => pure (s.heap, cn.next)
    let cn ← load h1 current
    let (h2, last2) ←
      match cn.next with
      | some _ => do
        let h ← setPrev h1 cn.next cn.prev
        pure (h, s.last)
      | none => pure (h1, cn.prev)
    let h3 ← free h2 current
    .ok { heap := h3, first := first1, last := last2, size_ := s.size_ - 1 }

/-- The member `operator[]` (the const and the non-const overload have the
same body). -/
def subscript (index : Nat) (s : State T) : Except (Fault (State T)) T :=
  if index ≥ s.size_ then .error (.out_of_range s)
  else do
    let current ← advance s.heap index s.first
    let cn ← load s.heap current
    .ok cn.data

/-- The loop `while (last && last->next) last = last->next` of the public
`merge_sort`. -/
def find_last : Nat → Heap T → Ptr → Except (Fault σ) Ptr
  | 0, _, _ => .error .no_fuel
  | fuel + 1, h, last =>
    match last with
    | none => .ok last
    | some _ => do
      let ln ← load h last
      match ln.next with
      | none => .ok last
      | some _ => find_last fuel h ln.next

/-- The public member `merge_sort(compare)`. -/
def merge_sort (compare : T → T → Bool) (s : State T) : Except (Fault (State T)) (State T) := do
  let (h1, first1) ← merge_sort_rec compare (s.heap.length + 1) s.heap s.first
  let last1 ← find_last (h1.length + 1) h1 first1
  .ok { heap := h1, first := first1, last := last1, size_ := s.size_ }

/-- The class `Iterator`: its member `current`. -/
structure Iterator where
  current : Ptr
deriving DecidableEq

/-- The class `ReverseIterator`: its member `current`. -/
structure ReverseIterator where
  current : Ptr
deriving DecidableEq

/-- The member `Iterator::operator*`. -/
def Iterator.deref (h : Heap T) (it : Iterator) : Except (Fault Iterator) T := do
  let cn ← load h it.current
  .ok cn.data

/-- The member `Iterator::operator++`. -/
def Iterator.incr (h : Heap T) (it : Iterator) : Except (Fault Iterator) Iterator :=
  match it.current with
  | some _ => do
    let cn ← load h it.current
    .ok { current := cn.next }
  | none => .error (.out_of_range it)

/-- The member `begin`. -/
def begin_ (s : State T) : Iterator := { current := s.first }

/-- The member `end`. -/
def end_ (_s : State T) : Iterator := { current := none }

/-- The member `ReverseIterator::operator*`. -/
def ReverseIterator.deref (h : Heap T) (it : ReverseIterator) :
    Except (Fault ReverseIterator) T := do
  let cn ← load h it.current
  .ok cn.data

/-- The member `ReverseIterator::operator++`. -/
def ReverseIterator.incr (h : Heap T) (it : ReverseIterator) :
    Except (Fault ReverseIterator) ReverseIterator :=
  match it.current with
  | some _ => do
    let cn ← load h it.current
    .ok { current := cn.prev }
  | none => .error (.out_of_range it)

/-- The member `rbegin`. -/
def rbegin (s : State T) : ReverseIterator := { current := s.last }

/-- The member `rend`. -/
def rend (_s : State T) : ReverseIterator := { current := none }

/-! ## Vocabulary of the statements -/

/-- A chain of nodes: starting at pointer `p`, following `next` links visits
exactly the nodes `ns` (address and stored value, in order) and then reaches
the pointer `q`. -/
def Seg (h : Heap T) : Ptr → List (Nat × T) → Ptr → Prop
  | p, [], q => p = q
  | p, (a, x) :: ns, q =>
    p = some a ∧ ∃ n, h.read a = some n ∧ n.data = x ∧ Seg h n.next ns q

/-- A finite forward chain from `p`: it ends at `nullptr`. -/
def Fwd (h : Heap T) (p : Ptr) (ns : List (Nat × T)) : Prop := Seg h p ns none

/-- Backward links along a chain: the first node's `prev` is `q` and every
later node's `prev` is the node before it. -/
def Back (h : Heap T) : Ptr → List (Nat × T) → Prop
  | _, [] => True
  | q, (a, _) :: ns => (∃ n, h.read a = some n ∧ n.prev = q) ∧ Back h (some a) ns

/-- Backward links of every node of a chain but the first. -/
def BackInt (h : Heap T) : List (Nat × T) → Prop
  | [] => True
  | (a, _) :: ns => Back h (some a) ns

/-- The addresses of a chain. -/
def addrs (ns : List (Nat × T)) : List Nat := ns.map Prod.fst

/-- The values of a chain, in forward order. -/
def vals (ns : List (Nat × T)) : List T := ns.map Prod.snd

/-- A well-formed sequence with nodes `ns`: the forward chain from `first` is
`ns` and ends at null, `first` has no predecessor and `node.next.prev == node`
along the chain, `last` is the last node of the chain (null when there is
none), and `size_` is the number of nodes. -/
structure WF (s : State T) (ns : List (Nat × T)) : Prop where
  fwd : Fwd s.heap s.first ns
  back : Back s.heap none ns
  last : s.last = (addrs ns).getLast?
  size : s.size_ = ns.length

/-- A strict ordering predicate: irreflexive and transitive. -/
structure StrictOrder (compare : T → T → Bool) : Prop where
  irrefl : ∀ a, compare a a = false
  trans : ∀ a b c, compare a b = true → compare b c = true → compare a c = true

/-- The comparison of two nodes by their stored values. -/
def byVal (compare : T → T → Bool) (a b : Nat × T) : Bool := compare a.2 b.2

/-- The order in which `merge` links the nodes of a left and a right chain:
the left head goes first when `lt left right` holds, the right head otherwise. -/
def mergeList {α : Type} (lt : α → α → Bool) : List α → List α → List α
  | [], r => r
  | a :: l, [] => a :: l
  | a :: l, b :: r =>
    if lt a b then a :: mergeList lt l (b :: r) else b :: mergeList lt (a :: l) r
termination_by l r => l.length + r.length

/-- The order in which the private `merge_sort` leaves the nodes of a chain:
a chain of at most one node stays, a longer one is cut after position
`(length - 1) / 2` (where `get_middle` stops) and the sorted halves are merged. -/
def sortList {α : Type} (lt : α → α → Bool) : Nat → List α → List α
  | 0, l => l
  | fuel + 1, l =>
    if l.length ≤ 1 then l
    else
      mergeList lt (sortList lt fuel (l.take ((l.length - 1) / 2 + 1)))
        (sortList lt fuel (l.drop ((l.length - 1) / 2 + 1)))

/-- No adjacent pair `(a, b)` of the list has `lt b a`. -/
def Adj {α : Type} (lt : α → α → Bool) : List α → Prop
  | [] => True
  | [_] => True
  | a :: b :: l => lt b a = false ∧ Adj lt (b :: l)

/-- Sortedness as the specification states it: no adjacent pair `(a, b)` in
forward order has `compare b a`. -/
def SortedBy (compare : T → T → Bool) (xs : List T) : Prop := Adj compare xs

/-- The pointer that leads into a chain: its first node, or `q` when the chain
is empty. -/
def headPtr (ns : List (Nat × T)) (q : Ptr) : Ptr :=
  match ns with
  | [] => q
  | (a, _) :: _ => some a

/-- The pointer that leads back out of a chain: its last node, or `q` when the
chain is empty. -/
def prevOf (q : Ptr) (ns : List (Nat × T)) : Ptr :=
  match ns.getLast? with
  | none => q
  | some (a, _) => some a

/-- Three nodes holding 3, 1, 2 in forward order, as `insert(3, 0)`,
`insert(1, 1)`, `insert(2, 2)` leave them. -/
def ex312 : State Nat :=
  { heap := [some ⟨3, some 1, none⟩, some ⟨1, some 2, some 0⟩, some ⟨2, none, some 1⟩],
    first := some 0, last := some 2, size_ := 3 }

/-- The ascending comparison on natural numbers. -/
def ltNat (a b : Nat) : Bool := decide (a < b)

/-- A strict weak ordering: a strict ordering whose "not before" relation is
transitive (so that being equal-ranked is an equivalence). -/
structure StrictWeakOrder (compare : T → T → Bool) extends StrictOrder compare : Prop where
  negtrans : ∀ a b c, compare a b = false → compare b c = false → compare a c = false

/-- Two nodes holding `(1, 10)` and `(1, 20)` in forward order. -/
def exTie : State (Nat × Nat) :=
  { heap := [some ⟨(1, 10), some 1, none⟩, some ⟨(1, 20), none, some 0⟩],
    first := some 0, last := some 1, size_ := 2 }

/-- The ascending comparison of pairs by their first component. -/
def ltKey (a b : Nat × Nat) : Bool := decide (a.1 < b.1)

/-- The first-fit position of `insert_if`: the length of the longest prefix of
`xs` whose elements `e` all have `compare x e = false`. -/
def firstFit (compare : T → T → Bool) (x : T) (xs : List T) : Nat :=
  (xs.takeWhile (fun e => !compare x e)).length

/-- Three nodes holding 1, 3, 5 in forward order, well-formed. -/
def ex135 : State Nat :=
  { heap := [some ⟨1, some 1, none⟩, some ⟨3, some 2, some 0⟩, some ⟨5, none, some 1⟩],
    first := some 0, last := some 2, size_ := 3 }

/-- The call does not end by throwing `std::out_of_range`. -/
def NoRaise {α : Type} (r : Except (Fault σ) α) : Prop :=
  ∀ s, r ≠ .error (.out_of_range s)

/-- The comparison `operator==` of two forward iterators. -/
def Iterator.eq (a b : Iterator) : Bool := decide (a.current = b.current)

/-- The comparison `operator==` of two reverse iterators. -/
def ReverseIterator.eq (a b : ReverseIterator) : Bool := decide (a.current = b.current)

/-- The traversal a caller writes with the forward iterator,
`for (it = begin(); !(it == end()); ++it)`, reading `*it` at every position. -/
def read_forward_loop (h : Heap T) (stop : Iterator) :
    Nat → Iterator → Except (Fault Iterator) (List T)
  | 0, _ => .error .no_fuel
  | fuel + 1, it =>
    if it.eq stop then .ok []
    else do
      let x ← it.deref h
      let it2 ← it.incr h
      let rest ← read_forward_loop h stop fuel it2
      .ok (x :: rest)

/-- Forward traversal from `begin()` to `end()`. -/
def read_forward (s : State T) : Except (Fault Iterator) (List T) :=
  read_forward_loop s.heap (end_ s) (s.heap.length + 1) (begin_ s)

/-- The traversal a caller writes with the reverse iterator,
`for (it = rbegin(); !(it == rend()); ++it)`, reading `*it` at every position. -/
def read_reverse_loop (h : Heap T) (stop : ReverseIterator) :
    Nat → ReverseIterator → Except (Fault ReverseIterator) (List T)
  | 0, _ => .error .no_fuel
  | fuel + 1, it =>
    if it.eq stop then .ok []
    else do
      let x ← it.deref h
      let it2 ← it.incr h
      let rest ← read_reverse_loop h stop fuel it2
      .ok (x :: rest)

/-- Reverse traversal from `rbegin()` to `rend()`. -/
def read_reverse (s : State T) : Except (Fault ReverseIterator) (List T) :=
  read_reverse_loop s.heap (rend s) (s.heap.length + 1) (rbegin s)

/-- A call of one of the four members that change `size()`. -/
inductive Op (T : Type) where
  | push_back (v : T)
  | insert (v : T) (index : Nat)
  | insert_if (v : T) (compare : T → T → Bool)
  | remove (index : Nat)

/-- The call an `Op` stands for (the index `insert_if` returns is dropped). -/
def Op.call : Op T → State T → Except (Fault (State T)) (State T)
  | .push_back v, s => CppList.push_back v s
  | .insert v i, s => CppList.insert v i s
  | .insert_if v c, s => do
    let (_, s2) ← CppList.insert_if v c s
    .ok s2
  | .remove i, s => CppList.remove i s

/-- Whether the call is an insertion call (`push_back`, `insert`, `insert_if`). -/
def Op.isInsertion : Op T → Bool
  | .remove _ => false
  | _ => true

/-- A caller's run of calls, one after the other.  A call that throws
`out_of_range` is caught and the run goes on from the state at the throw; a
call with undefined behaviour ends the run without a result.  The result is the
final state, the number of insertion calls that succeeded and the number of
`remove` calls that succeeded. -/
def runCalls : List (Op T) → State T → Option (State T × Nat × Nat)
  | [], s => some (s, 0, 0)
  | op :: ops, s =>
    match op.call s with
    | .ok s2 =>
      match runCalls ops s2 with
      | some (s3, ins, rem) =>
        if op.isInsertion then some (s3, ins + 1, rem) else some (s3, ins, rem + 1)
      | none => none
    | .error (.out_of_range s2) => runCalls ops s2
    | .error _ => none

/-- Every normal return of the call satisfies `P`. -/
def OnReturn {α : Type} (P : α → Prop) (r : Except (Fault σ) α) : Prop :=
  ∀ a, r = .ok a → P a

/-! ## The free store -/

@[simp] theorem bind_ok {ε α β : Type} (a : α) (f : α → Except ε β) :
    (Except.ok a >>= f) = f a := rfl

@[simp] theorem bind_error {ε α β : Type} (e : ε) (f : α → Except ε β) :
    (Except.error e >>= f) = Except.error e := rfl

@[simp] theorem pure_eq_ok {ε α : Type} (a : α) : (pure a : Except ε α) = Except.ok a := rfl

theorem read_lt {h : Heap T} {a : Nat} {n : Node T} (hr : h.read a = some n) :
    a < h.length := by
  by_contra hlt
  have : h[a]? = none := List.getElem?_eq_none (by omega)
  simp [Heap.read, this] at hr

theorem read_set_same {h : Heap T} {a : Nat} (v : Option (Node T)) (hlt : a < h.length) :
    Heap.read (h.set a v) a = v := by
  simp [Heap.read, List.getElem?_set, hlt]

theorem read_set_other {h : Heap T} {a b : Nat} (v : Option (Node T)) (hne : b ≠ a) :
    Heap.read (h.set a v) b = h.read b := by
  simp [Heap.read, List.getElem?_set, Ne.symm hne]

theorem read_append_old {h : Heap T} {a : Nat} (l : Heap T) (hlt : a < h.length) :
    Heap.read (h ++ l) a = h.read a := by
  simp [Heap.read, List.getElem?_append_left hlt]

theorem read_append_new (h : Heap T) (v : Option (Node T)) :
    Heap.read (h ++ [v]) h.length = v := by
  simp [Heap.read]

theorem read_ge {h : Heap T} {a : Nat} (hge : h.length ≤ a) : h.read a = none := by
  cases hr : h.read a with
  | none => rfl
  | some n => have := read_lt hr; omega

theorem load_ok {h : Heap T} {a : Nat} {n : Node T} (hr : h.read a = some n) :
    (load h (some a) : Except (Fault σ) (Node T)) = .ok n := by
  simp [load, hr]

/-- What `p->next = v` does on a live node. -/
theorem setNext_ok {h : Heap T} {a : Nat} {n : Node T} (v : Ptr) (hr : h.read a = some n) :
    ∃ h2, (setNext h (some a) v : Except (Fault σ) (Heap T)) = .ok h2 ∧
      h2.length = h.length ∧
      h2.read a = some { n with next := v } ∧
      ∀ b, b ≠ a → h2.read b = h.read b := by
  refine ⟨h.set a (some { n with next := v }), by simp [setNext, hr], by simp, ?_, ?_⟩
  · exact read_set_same _ (read_lt hr)
  · intro b hb; exact read_set_other _ hb

/-- What `p->prev = v` does on a live node. -/
theorem setPrev_ok {h : Heap T} {a : Nat} {n : Node T} (v : Ptr) (hr : h.read a = some n) :
    ∃ h2, (setPrev h (some a) v : Except (Fault σ) (Heap T)) = .ok h2 ∧
      h2.length = h.length ∧
      h2.read a = some { n with prev := v } ∧
      ∀ b, b ≠ a → h2.read b = h.read b := by
  refine ⟨h.set a (some { n with prev := v }), by simp [setPrev, hr], by simp, ?_, ?_⟩
  · exact read_set_same _ (read_lt hr)
  · intro b hb; exact read_set_other _ hb

/-- What `delete p` does on a live node. -/
theorem free_ok {h : Heap T} {a : Nat} {n : Node T} (hr : h.read a = some n) :
    ∃ h2, (free h (some a) : Except (Fault σ) (Heap T)) = .ok h2 ∧
      h2.length = h.length ∧
      h2.read a = none ∧
      ∀ b, b ≠ a → h2.read b = h.read b := by
  refine ⟨h.set a none, by simp [free, hr], by simp, ?_, ?_⟩
  · exact read_set_same _ (read_lt hr)
  · intro b hb; exact read_set_other _ hb

/-- What `new Node(x)` does. -/
theorem alloc_ok (h : Heap T) (x : T) :
    ∃ h2, alloc h x = (h2, some h.length) ∧
      h2.length = h.length + 1 ∧
      h2.read h.length = some { data := x, next := none, prev := none } ∧
      ∀ b, b ≠ h.length → h2.read b = h.read b := by
  refine ⟨_, rfl, by simp, read_append_new h _, ?_⟩
  intro b hb
  rcases Nat.lt_or_ge b h.length with hlt | hge
  · exact read_append_old _ hlt
  · rw [read_ge hge, read_ge]
    simp; omega

/-! ## Chains -/

theorem Seg.frame_seg {h h2 : Heap T} {ns : List (Nat × T)} :
    ∀ {p q : Ptr}, Seg h p ns q →
      (∀ a ∈ addrs ns, ∀ n, h.read a = some n →
        ∃ n2, h2.read a = some n2 ∧ n2.data = n.data ∧ n2.next = n.next) →
      Seg h2 p ns q := by
  induction ns with
  | nil => intro p q hs _; exact hs
  | cons ax ns ih =>
    obtain ⟨a, x⟩ := ax
    intro p q hs hf
    obtain ⟨hp, n, hr, hd, hrest⟩ := hs
    obtain ⟨n2, hr2, hd2, hn2⟩ := hf a (by simp [addrs]) n hr
    refine ⟨hp, n2, hr2, hd2.trans hd, ?_⟩
    rw [hn2]
    exact ih hrest (fun b hb m hm => hf b (by simp [addrs] at hb ⊢; exact Or.inr hb) m hm)

theorem Back.frame_back {h h2 : Heap T} {ns : List (Nat × T)} :
    ∀ {q : Ptr}, Back h q ns →
      (∀ a ∈ addrs ns, ∀ n, h.read a = some n →
        ∃ n2, h2.read a = some n2 ∧ n2.prev = n.prev) →
      Back h2 q ns := by
  induction ns with
  | nil => intro q _ _; trivial
  | cons ax ns ih =>
    obtain ⟨a, x⟩ := ax
    intro q hb hf
    obtain ⟨⟨n, hr, hp⟩, hrest⟩ := hb
    obtain ⟨n2, hr2, hp2⟩ := hf a (by simp [addrs]) n hr
    exact ⟨⟨n2, hr2, hp2.trans hp⟩,
      ih hrest (fun b hb m hm => hf b (by simp [addrs] at hb ⊢; exact Or.inr hb) m hm)⟩

theorem Seg.append_seg {h : Heap T} {l1 l2 : List (Nat × T)} :
    ∀ {p q : Ptr}, Seg h p (l1 ++ l2) q ↔ ∃ m, Seg h p l1 m ∧ Seg h m l2 q := by
  induction l1 with
  | nil =>
    intro p q
    constructor
    · intro hs; exact ⟨p, rfl, hs⟩
    · rintro ⟨m, hm, hs⟩
      have : p = m := hm
      subst this; exact hs
  | cons ax l1 ih =>
    obtain ⟨a, x⟩ := ax
    intro p q
    constructor
    · rintro ⟨hp, n, hr, hd, hrest⟩
      obtain ⟨m, h1, h2⟩ := ih.mp hrest
      exact ⟨m, ⟨hp, n, hr, hd, h1⟩, h2⟩
    · rintro ⟨m, ⟨hp, n, hr, hd, h1⟩, h2⟩
      exact ⟨hp, n, hr, hd, ih.mpr ⟨m, h1, h2⟩⟩

theorem Seg.live {h : Heap T} {ns : List (Nat × T)} :
    ∀ {p q : Ptr}, Seg h p ns q → ∀ a ∈ addrs ns, ∃ n, h.read a = some n := by
  induction ns with
  | nil => intro p q _ a ha; simp [addrs] at ha
  | cons ax ns ih =>
    obtain ⟨b, x⟩ := ax
    intro p q hs a ha
    obtain ⟨_, n, hr, _, hrest⟩ := hs
    simp only [addrs, List.map_cons, List.mem_cons] at ha
    rcases ha with rfl | ha
    · exact ⟨n, hr⟩
    · exact ih hrest a ha

theorem Seg.data {h : Heap T} {ns : List (Nat × T)} :
    ∀ {p q : Ptr}, Seg h p ns q → ∀ a x, (a, x) ∈ ns → ∃ n, h.read a = some n ∧ n.data = x := by
  induction ns with
  | nil => intro p q _ a x ha; simp at ha
  | cons by_ ns ih =>
    obtain ⟨b, y⟩ := by_
    intro p q hs a x ha
    obtain ⟨_, n, hr, hd, hrest⟩ := hs
    simp only [List.mem_cons, Prod.mk.injEq] at ha
    rcases ha with ⟨rfl, rfl⟩ | ha
    · exact ⟨n, hr, hd⟩
    · exact ih hrest a x ha

/-- A forward chain is determined by its first pointer. -/
theorem Fwd.unique {h : Heap T} {l1 : List (Nat × T)} :
    ∀ {l2 : List (Nat × T)} {p : Ptr}, Fwd h p l1 → Fwd h p l2 → l1 = l2 := by
  induction l1 with
  | nil =>
    intro l2 p h1 h2
    have hp : p = none := h1
    subst hp
    cases l2 with
    | nil => rfl
    | cons by_ l2 => exact absurd h2.1 (by simp)
  | cons ax l1 ih =>
    obtain ⟨a, x⟩ := ax
    intro l2 p h1 h2
    obtain ⟨hp, n, hr, hd, hrest⟩ := h1
    subst hp
    cases l2 with
    | nil => exact absurd (show some a = none from h2) (by simp)
    | cons by_ l2 =>
      obtain ⟨b, y⟩ := by_
      obtain ⟨hp2, n2, hr2, hd2, hrest2⟩ := h2
      have hab : a = b := by simpa using hp2
      subst hab
      rw [hr] at hr2
      have hn : n = n2 := by simpa using hr2
      subst hn
      rw [ih hrest hrest2, ← hd, ← hd2]

/-- A finite forward chain never visits a node twice. -/
theorem Fwd.nodup {h : Heap T} {ns : List (Nat × T)} :
    ∀ {p : Ptr}, Fwd h p ns → (addrs ns).Nodup := by
  induction ns with
  | nil => intro p _; simp [addrs]
  | cons ax ns ih =>
    obtain ⟨a, x⟩ := ax
    intro p hf
    have hf0 := hf
    obtain ⟨hp, n, hr, hd, hrest⟩ := hf
    subst hp
    have hnd := ih hrest
    simp only [addrs, List.map_cons, List.nodup_cons]
    refine ⟨?_, hnd⟩
    intro hmem
    obtain ⟨⟨a2, y⟩, hy, hay⟩ := List.mem_map.mp hmem
    simp only at hay
    subst hay
    obtain ⟨l1, l2, hsplit⟩ := List.append_of_mem hy
    rw [hsplit] at hrest
    obtain ⟨m, _, hm2⟩ := Seg.append_seg.mp hrest
    have hm : m = some a2 := hm2.1
    subst hm
    have heq := Fwd.unique hm2 hf0
    have hlen := congrArg List.length heq
    rw [hsplit] at hlen
    simp at hlen
    omega

/-- A finite forward chain has no more nodes than the heap has cells. -/
theorem Fwd.length_le {h : Heap T} {ns : List (Nat × T)} {p : Ptr} (hf : Fwd h p ns) :
    ns.length ≤ h.length := by
  have hsub : addrs ns ⊆ List.range h.length := by
    intro a ha
    obtain ⟨n, hr⟩ := Seg.live hf a ha
    exact List.mem_range.mpr (read_lt hr)
  have := (List.subperm_of_subset hf.nodup hsub).length_le
  simpa [addrs] using this

theorem advance_seg {h : Heap T} {l1 : List (Nat × T)} :
    ∀ {p m : Ptr}, Seg h p l1 m →
      (advance h l1.length p : Except (Fault σ) Ptr) = .ok m := by
  induction l1 with
  | nil => intro p m hs; have : p = m := hs; subst this; rfl
  | cons ax l1 ih =>
    obtain ⟨a, x⟩ := ax
    intro p m hs
    obtain ⟨hp, n, hr, _, hrest⟩ := hs
    subst hp
    simp only [List.length_cons, advance, load_ok hr, bind_ok]
    exact ih hrest

/-! ## The order produced by merging and sorting -/

section Pure
variable {α : Type} (lt : α → α → Bool)

theorem mergeList_nil_right (l : List α) : mergeList lt l [] = l := by
  cases l <;> simp [mergeList]

theorem mergeList_perm : ∀ (n : Nat) (l r : List α), l.length + r.length ≤ n →
    (mergeList lt l r).Perm (l ++ r) := by
  intro n
  induction n with
  | zero =>
    intro l r hn
    have hl : l = [] := List.length_eq_zero.mp (by omega)
    have hr : r = [] := List.length_eq_zero.mp (by omega)
    subst hl hr
    simp [mergeList]
  | succ n ih =>
    intro l r hn
    cases l with
    | nil => simp [mergeList]
    | cons a l =>
      cases r with
      | nil => simp [mergeList]
      | cons b r =>
        simp only [mergeList]
        split
        · exact (ih l (b :: r) (by simp at hn ⊢; omega)).cons a
        · have h1 := (ih (a :: l) r (by simp at hn ⊢; omega)).cons b
          exact h1.trans (List.perm_middle.symm)

theorem mergeList_perm_append (l r : List α) : (mergeList lt l r).Perm (l ++ r) :=
  mergeList_perm lt _ l r (Nat.le_refl _)

theorem mergeList_ne_nil_right (l : List α) {r : List α} (hr : r ≠ []) :
    mergeList lt l r ≠ [] := by
  intro h
  have := (mergeList_perm_append lt l r).length_eq
  rw [h] at this
  cases r with
  | nil => exact hr rfl
  | cons b r => simp at this; omega

theorem mergeList_ne_nil_left {l : List α} (r : List α) (hl : l ≠ []) :
    mergeList lt l r ≠ [] := by
  intro h
  have := (mergeList_perm_append lt l r).length_eq
  rw [h] at this
  cases l with
  | nil => exact hl rfl
  | cons b r => simp at this

theorem sortList_perm : ∀ (fuel : Nat) (l : List α), (sortList lt fuel l).Perm l := by
  intro fuel
  induction fuel with
  | zero => intro l; simp [sortList]
  | succ fuel ih =>
    intro l
    simp only [sortList]
    split
    · exact List.Perm.refl _
    · refine (mergeList_perm_append lt _ _).trans ?_
      refine ((ih _).append (ih _)).trans ?_
      rw [List.take_append_drop]

theorem sortList_short (fuel : Nat) {l : List α} (hl : l.length ≤ 1) :
    sortList lt fuel l = l := by
  cases fuel <;> simp [sortList, hl]

theorem Adj.tail {a : α} {l : List α} (h : Adj lt (a :: l)) : Adj lt l := by
  cases l with
  | nil => trivial
  | cons b l => exact h.2

theorem Adj.cons_of_head {a : α} {l : List α} (h : Adj lt l)
    (hh : ∀ b ∈ l.head?, lt b a = false) : Adj lt (a :: l) := by
  cases l with
  | nil => trivial
  | cons b l => exact ⟨hh b (by simp), h⟩

theorem mergeList_head (l r : List α) :
    ∀ c ∈ (mergeList lt l r).head?, c ∈ l.head? ∨ c ∈ r.head? := by
  intro c hc
  cases l with
  | nil => right; simpa [mergeList] using hc
  | cons a l =>
    cases r with
    | nil => left; simpa [mergeList] using hc
    | cons b r =>
      simp only [mergeList] at hc
      split at hc
      · left; simpa using hc
      · right; simpa using hc

/-- Merging keeps adjacent order, for any asymmetric comparison. -/
theorem mergeList_adj (hasym : ∀ a b, lt a b = true → lt b a = false) :
    ∀ (n : Nat) (l r : List α), l.length + r.length ≤ n → Adj lt l → Adj lt r →
      Adj lt (mergeList lt l r) := by
  intro n
  induction n with
  | zero =>
    intro l r hn _ _
    have hl : l = [] := List.length_eq_zero.mp (by omega)
    have hr : r = [] := List.length_eq_zero.mp (by omega)
    subst hl hr
    simp [mergeList, Adj]
  | succ n ih =>
    intro l r hn hl hr
    cases l with
    | nil => simpa [mergeList] using hr
    | cons a l =>
      cases r with
      | nil => simpa [mergeList] using hl
      | cons b r =>
        simp only [mergeList]
        split
        · rename_i hab
          refine Adj.cons_of_head lt (ih l (b :: r) (by simp at hn ⊢; omega) (hl.tail lt) hr) ?_
          intro c hc
          rcases mergeList_head lt _ _ c hc with h1 | h1
          · cases l with
            | nil => simp at h1
            | cons a2 l =>
              have : a2 = c := by simpa using h1
              subst this; exact hl.1
          · have : b = c := by simpa using h1
            subst this; exact hasym _ _ hab
        · rename_i hab
          refine Adj.cons_of_head lt (ih (a :: l) r (by simp at hn ⊢; omega) hl (hr.tail lt)) ?_
          intro c hc
          rcases mergeList_head lt _ _ c hc with h1 | h1
          · have : a = c := by simpa using h1
            subst this; simpa using hab
          · cases r with
            | nil => simp at h1
            | cons b2 r =>
              have : b2 = c := by simpa using h1
              subst this; exact hr.1

theorem sortList_adj (hasym : ∀ a b, lt a b = true → lt b a = false) :
    ∀ (fuel : Nat) (l : List α), l.length ≤ fuel → Adj lt (sortList lt fuel l) := by
  intro fuel
  induction fuel with
  | zero =>
    intro l hl
    have : l = [] := List.length_eq_zero.mp (by omega)
    subst this; simp [sortList, Adj]
  | succ fuel ih =>
    intro l hl
    simp only [sortList]
    split
    · rename_i h1
      match l, h1 with
      | [], _ => trivial
      | [_], _ => trivial
      | _ :: _ :: _, h1 => simp at h1
    · rename_i h1
      refine mergeList_adj lt hasym _ _ _ (Nat.le_refl _) (ih _ ?_) (ih _ ?_)
      · rw [List.length_take]; omega
      · rw [List.length_drop]; omega

theorem mergeList_sublist_left : ∀ (n : Nat) (l r : List α), l.length + r.length ≤ n →
    l.Sublist (mergeList lt l r) := by
  intro n
  induction n with
  | zero =>
    intro l r hn
    have hl : l = [] := List.length_eq_zero.mp (by omega)
    subst hl; simp
  | succ n ih =>
    intro l r hn
    cases l with
    | nil => simp
    | cons a l =>
      cases r with
      | nil => simp [mergeList]
      | cons b r =>
        simp only [mergeList]
        split
        · exact (ih l (b :: r) (by simp at hn ⊢; omega)).cons₂ a
        · exact (ih (a :: l) r (by simp at hn ⊢; omega)).cons b

theorem mergeList_sublist_right : ∀ (n : Nat) (l r : List α), l.length + r.length ≤ n →
    r.Sublist (mergeList lt l r) := by
  intro n
  induction n with
  | zero =>
    intro l r hn
    have hr : r = [] := List.length_eq_zero.mp (by omega)
    subst hr; simp
  | succ n ih =>
    intro l r hn
    cases l with
    | nil => simp [mergeList]
    | cons a l =>
      cases r with
      | nil => simp
      | cons b r =>
        simp only [mergeList]
        split
        · exact (ih l (b :: r) (by simp at hn ⊢; omega)).cons a
        · exact (ih (a :: l) r (by simp at hn ⊢; omega)).cons₂ b

theorem mem_mergeList {l r : List α} {z : α} : z ∈ mergeList lt l r ↔ z ∈ l ∨ z ∈ r := by
  rw [(mergeList_perm_append lt l r).mem_iff, List.mem_append]

/-- Merging keeps the order of all pairs, for a strict weak ordering. -/
theorem mergeList_pairwise (hasym : ∀ a b, lt a b = true → lt b a = false)
    (htrans : ∀ a b c, lt a b = true → lt b c = true → lt a c = true)
    (hneg : ∀ a b c, lt a b = false → lt b c = false → lt a c = false) :
    ∀ (n : Nat) (l r : List α), l.length + r.length ≤ n →
      l.Pairwise (fun a b => lt b a = false) → r.Pairwise (fun a b => lt b a = false) →
      (mergeList lt l r).Pairwise (fun a b => lt b a = false) := by
  intro n
  induction n with
  | zero =>
    intro l r hn _ _
    have hl : l = [] := List.length_eq_zero.mp (by omega)
    have hr : r = [] := List.length_eq_zero.mp (by omega)
    subst hl hr
    simp [mergeList]
  | succ n ih =>
    intro l r hn hl hr
    cases l with
    | nil => simpa [mergeList] using hr
    | cons a l =>
      cases r with
      | nil => simpa [mergeList] using hl
      | cons b r =>
        have hl2 := List.pairwise_cons.mp hl
        have hr2 := List.pairwise_cons.mp hr
        simp only [mergeList]
        split
        · rename_i hab
          refine List.pairwise_cons.mpr ⟨?_, ih l (b :: r) (by simp at hn ⊢; omega) hl2.2 hr⟩
          intro z hz
          rcases (mem_mergeList lt).mp hz with hz | hz
          · exact hl2.1 z hz
          · rcases List.mem_cons.mp hz with rfl | hz
            · exact hasym _ _ hab
            · cases hza : lt z a with
              | false => rfl
              | true =>
                have := htrans z a b hza hab
                rw [hr2.1 z hz] at this
                exact absurd this (by simp)
        · rename_i hab
          have hab2 : lt a b = false := by simpa using hab
          refine List.pairwise_cons.mpr ⟨?_, ih (a :: l) r (by simp at hn ⊢; omega) hl hr2.2⟩
          intro z hz
          rcases (mem_mergeList lt).mp hz with hz | hz
          · rcases List.mem_cons.mp hz with rfl | hz
            · exact hab2
            · exact hneg z a b (hl2.1 z hz) hab2
          · exact hr2.1 z hz

theorem sortList_pairwise (hasym : ∀ a b, lt a b = true → lt b a = false)
    (htrans : ∀ a b c, lt a b = true → lt b c = true → lt a c = true)
    (hneg : ∀ a b c, lt a b = false → lt b c = false → lt a c = false) :
    ∀ (fuel : Nat) (l : List α), l.length ≤ fuel →
      (sortList lt fuel l).Pairwise (fun a b => lt b a = false) := by
  intro fuel
  induction fuel with
  | zero =>
    intro l hl
    have : l = [] := List.length_eq_zero.mp (by omega)
    subst this; simp [sortList]
  | succ fuel ih =>
    intro l hl
    simp only [sortList]
    split
    · rename_i h1
      match l, h1 with
      | [], _ => simp
      | [_], _ => simp
      | _ :: _ :: _, h1 => simp at h1
    · rename_i h1
      refine mergeList_pairwise lt hasym htrans hneg _ _ _ (Nat.le_refl _) (ih _ ?_) (ih _ ?_)
      · rw [List.length_take]; omega
      · rw [List.length_drop]; omega

/-- In a merge, a node of the right chain comes out before every node of the
left chain that does not go strictly before it. -/
theorem mergeList_cross
    (hneg : ∀ a b c, lt a b = false → lt b c = false → lt a c = false) :
    ∀ (n : Nat) (l r : List α), l.length + r.length ≤ n →
      r.Pairwise (fun a b => lt b a = false) →
      ∀ x y, x ∈ l → y ∈ r → lt x y = false → [y, x].Sublist (mergeList lt l r) := by
  intro n
  induction n with
  | zero =>
    intro l r hn _ x y hx _ _
    have hl : l = [] := List.length_eq_zero.mp (by omega)
    subst hl; simp at hx
  | succ n ih =>
    intro l r hn hr x y hx hy hxy
    cases l with
    | nil => simp at hx
    | cons a l =>
      cases r with
      | nil => simp at hy
      | cons b r =>
        have hr2 := List.pairwise_cons.mp hr
        simp only [mergeList]
        split
        · rename_i hab
          have hxl : x ∈ l := by
            rcases List.mem_cons.mp hx with rfl | hx
            · exfalso
              rcases List.mem_cons.mp hy with rfl | hy
              · rw [hxy] at hab; exact absurd hab (by simp)
              · have := hneg x y b hxy (hr2.1 y hy)
                rw [this] at hab; exact absurd hab (by simp)
            · exact hx
          exact (ih l (b :: r) (by simp at hn ⊢; omega) hr x y hxl hy hxy).cons a
        · rcases List.mem_cons.mp hy with rfl | hy
          · refine List.Sublist.cons₂ y (List.singleton_sublist.mpr ?_)
            exact (mem_mergeList lt).mpr (Or.inl hx)
          · exact (ih (a :: l) r (by simp at hn ⊢; omega) hr2.2 x y hx hy hxy).cons b

/-- The order `sortList` reverses equal-ranked elements, for a strict weak
ordering. -/
theorem sortList_ties_reversed (hasym : ∀ a b, lt a b = true → lt b a = false)
    (htrans : ∀ a b c, lt a b = true → lt b c = true → lt a c = true)
    (hneg : ∀ a b c, lt a b = false → lt b c = false → lt a c = false) :
    ∀ (fuel : Nat) (l : List α), l.length ≤ fuel →
      ∀ x y, [x, y].Sublist l → lt x y = false → lt y x = false →
        [y, x].Sublist (sortList lt fuel l) := by
  intro fuel
  induction fuel with
  | zero =>
    intro l hl x y hsub _ _
    have := hsub.length_le
    simp at this; omega
  | succ fuel ih =>
    intro l hl x y hsub hxy hyx
    simp only [sortList]
    split
    · rename_i h1
      have := hsub.length_le
      simp at this; omega
    · rename_i h1
      have hlt : (List.take ((l.length - 1) / 2 + 1) l).length ≤ fuel := by
        rw [List.length_take]; omega
      have hld : (List.drop ((l.length - 1) / 2 + 1) l).length ≤ fuel := by
        rw [List.length_drop]; omega
      rw [← List.take_append_drop ((l.length - 1) / 2 + 1) l] at hsub
      obtain ⟨l1, l2, hsplit, hs1, hs2⟩ := List.sublist_append_iff.mp hsub
      rcases List.cons_eq_append_iff.mp hsplit with ⟨h1e, h2e⟩ | ⟨l1', h1e, h2e⟩
      · subst h1e h2e
        exact (ih _ hld x y hs2 hxy hyx).trans (mergeList_sublist_right lt _ _ _ (Nat.le_refl _))
      · rcases List.cons_eq_append_iff.mp h2e with ⟨h3e, h4e⟩ | ⟨l1'', h3e, h4e⟩
        · subst h3e h4e h1e
          have hx : x ∈ sortList lt fuel (List.take ((l.length - 1) / 2 + 1) l) :=
            (sortList_perm lt fuel _).mem_iff.mpr (List.singleton_sublist.mp hs1)
          have hy : y ∈ sortList lt fuel (List.drop ((l.length - 1) / 2 + 1) l) :=
            (sortList_perm lt fuel _).mem_iff.mpr (List.singleton_sublist.mp hs2)
          exact mergeList_cross lt hneg _ _ _ (Nat.le_refl _)
            (sortList_pairwise lt hasym htrans hneg fuel _ hld) x y hx hy hxy
        · have hnil : l1'' = [] ∧ l2 = [] := by
            have := congrArg List.length h4e
            simp at this
            exact ⟨List.length_eq_zero.mp (by omega), List.length_eq_zero.mp (by omega)⟩
          obtain ⟨h5e, h6e⟩ := hnil
          subst h5e h6e h3e h1e
          exact (ih _ hlt x y hs1 hxy hyx).trans (mergeList_sublist_left lt _ _ _ (Nat.le_refl _))

end Pure

theorem adj_byVal_sortedBy (compare : T → T → Bool) :
    ∀ (ns : List (Nat × T)), Adj (byVal compare) ns ↔ SortedBy compare (vals ns)
  | [] => Iff.rfl
  | [_] => Iff.rfl
  | a :: b :: l => by
    have ih := adj_byVal_sortedBy compare (b :: l)
    simp only [SortedBy, vals, List.map_cons] at ih ⊢
    exact and_congr Iff.rfl ih

theorem StrictOrder.asymm {compare : T → T → Bool} (hso : StrictOrder compare) :
    ∀ a b, compare a b = true → compare b a = false := by
  intro a b hab
  cases hba : compare b a with
  | false => rfl
  | true =>
    have := hso.trans a b a hab hba
    rw [hso.irrefl a] at this
    exact absurd this (by simp)

/-! ## Chains and backward links under splitting -/

@[simp] theorem prevOf_nil (q : Ptr) : prevOf q ([] : List (Nat × T)) = q := rfl

@[simp] theorem prevOf_snoc (q : Ptr) (l : List (Nat × T)) (b : Nat) (z : T) :
    prevOf q (l ++ [(b, z)]) = some b := by
  simp [prevOf]

theorem eq_nil_or_snoc (l : List (Nat × T)) :
    l = [] ∨ ∃ l0 b z, l = l0 ++ [(b, z)] := by
  rcases List.eq_nil_or_concat l with h | ⟨l0, ⟨b, z⟩, h⟩
  · exact Or.inl h
  · exact Or.inr ⟨l0, b, z, by rw [h, List.concat_eq_append]⟩

theorem prevOf_eq_getLast {l : List (Nat × T)} (hne : l ≠ []) (q : Ptr) :
    prevOf q l = (addrs l).getLast? := by
  rcases eq_nil_or_snoc l with h | ⟨l1, b, z, h⟩
  · exact absurd h hne
  · subst h; simp [addrs]

theorem Seg.head_eq {h : Heap T} {p q : Ptr} {ns : List (Nat × T)} (hs : Seg h p ns q) :
    p = headPtr ns q := by
  cases ns with
  | nil => exact hs
  | cons ax ns => exact hs.1

theorem Seg.snoc {h : Heap T} {p q : Ptr} {l : List (Nat × T)} {b : Nat} {z : T} :
    Seg h p (l ++ [(b, z)]) q ↔
      Seg h p l (some b) ∧ ∃ n, h.read b = some n ∧ n.data = z ∧ n.next = q := by
  rw [Seg.append_seg]
  constructor
  · rintro ⟨m, h1, hm, n, hr, hd, hq⟩
    subst hm
    exact ⟨h1, n, hr, hd, hq⟩
  · rintro ⟨h1, n, hr, hd, hq⟩
    exact ⟨some b, h1, rfl, n, hr, hd, hq⟩

theorem Back.append_back {h : Heap T} {l1 l2 : List (Nat × T)} :
    ∀ {q : Ptr}, Back h q (l1 ++ l2) ↔ Back h q l1 ∧ Back h (prevOf q l1) l2 := by
  induction l1 with
  | nil => intro q; simp [Back]
  | cons ax l1 ih =>
    obtain ⟨a, x⟩ := ax
    intro q
    have hp : prevOf q ((a, x) :: l1) = prevOf (some a) l1 := by
      rcases eq_nil_or_snoc l1 with h | ⟨l0, b, z, h⟩
      · subst h; simp [prevOf]
      · subst h
        rw [← List.cons_append, prevOf_snoc, prevOf_snoc]
    rw [List.cons_append]
    simp only [Back]
    rw [ih, hp, and_assoc]

theorem addrs_append (l1 l2 : List (Nat × T)) : addrs (l1 ++ l2) = addrs l1 ++ addrs l2 := by
  simp [addrs]

theorem addrs_cons (a : Nat) (x : T) (l : List (Nat × T)) : addrs ((a, x) :: l) = a :: addrs l :=
  rfl

/-- Every node of a well-formed sequence is a live cell, so a fresh address is
not among them. -/
theorem Seg.fresh {h : Heap T} {p q : Ptr} {ns : List (Nat × T)} (hs : Seg h p ns q) :
    h.length ∉ addrs ns := by
  intro hmem
  obtain ⟨n, hr⟩ := hs.live _ hmem
  have := read_lt hr
  omega

theorem headPtr_of_ne_nil {l : List (Nat × T)} (hne : l ≠ []) (q q2 : Ptr) :
    headPtr l q = headPtr l q2 := by
  cases l with
  | nil => exact absurd rfl hne
  | cons ax l => rfl

/-- The assignments that splice a fresh node `nw` in front of the node `c` of a
well-linked chain (the `else` branch of `insert`, the found branch of
`insert_if`). -/
theorem splice_before {h0 : Heap T} {first : Ptr} {l1 l2 : List (Nat × T)} {c : Nat} {y : T}
    {nw : Nat} {v : T}
    (hf : Fwd h0 first (l1 ++ (c, y) :: l2)) (hb : Back h0 none (l1 ++ (c, y) :: l2))
    (hnw : h0.read nw = some ⟨v, none, none⟩) (hfresh : nw ∉ addrs (l1 ++ (c, y) :: l2)) :
    ∃ h1 h2 h3 h4 nc,
      (setNext h0 (some nw) (some c) : Except (Fault σ) _) = .ok h1 ∧
      (load h1 (some c) : Except (Fault σ) _) = .ok nc ∧ nc.prev = prevOf none l1 ∧
      (setPrev h1 (some nw) (prevOf none l1) : Except (Fault σ) _) = .ok h2 ∧
      (load h2 (some c) : Except (Fault σ) _) = .ok nc ∧
      (∀ b, prevOf none l1 = some b →
        (setNext h2 (some b) (some nw) : Except (Fault σ) _) = .ok h3) ∧
      (prevOf none l1 = none → h3 = h2) ∧
      (setPrev h3 (some c) (some nw) : Except (Fault σ) _) = .ok h4 ∧
      Fwd h4 (headPtr l1 (some nw)) (l1 ++ (nw, v) :: (c, y) :: l2) ∧
      Back h4 none (l1 ++ (nw, v) :: (c, y) :: l2) ∧
      h4.length = h0.length ∧
      ∀ d, d ∉ addrs (l1 ++ (c, y) :: l2) → d ≠ nw → h4.read d = h0.read d := by
  have hnd := hf.nodup
  obtain ⟨m, hs1, hs2⟩ := Seg.append_seg.mp hf
  obtain ⟨hm, nc, hrc, hdc, hrest⟩ := hs2
  subst hm
  obtain ⟨hb1, hb2⟩ := Back.append_back.mp hb
  obtain ⟨⟨nc2, hrc2, hprev⟩, hb3⟩ := hb2
  rw [hrc] at hrc2
  have hnc : nc = nc2 := by simpa using hrc2
  subst hnc
  rw [addrs_append, addrs_cons] at hnd hfresh
  have hndp := List.nodup_append.mp hnd
  have hc_l1 : c ∉ addrs l1 := fun hmem => hndp.2.2 hmem (by simp)
  have hc_l2 : c ∉ addrs l2 := (List.nodup_cons.mp hndp.2.1).1
  have hnw_l1 : nw ∉ addrs l1 := fun hmem => hfresh (List.mem_append.mpr (Or.inl hmem))
  have hnw_l2 : nw ∉ addrs l2 := fun hmem =>
    hfresh (List.mem_append.mpr (Or.inr (List.mem_cons.mpr (Or.inr hmem))))
  have hcnw : c ≠ nw := fun e =>
    hfresh (List.mem_append.mpr (Or.inr (List.mem_cons.mpr (Or.inl e.symm))))
  obtain ⟨h1, e1, len1, r1nw, f1⟩ := setNext_ok (σ := σ) (some c) hnw
  have r1c : h1.read c = some nc := by rw [f1 c hcnw]; exact hrc
  obtain ⟨h2, e2, len2, r2nw, f2⟩ := setPrev_ok (σ := σ) (prevOf none l1) r1nw
  have r2c : h2.read c = some nc := by rw [f2 c hcnw]; exact r1c
  rcases eq_nil_or_snoc l1 with hl1 | ⟨l0, b, z, hl1⟩
  · -- `c` is the head: the fresh node becomes the head
    subst hl1
    obtain ⟨h4, e4, len4, r4c, f4⟩ := setPrev_ok (σ := σ) (some nw) r2c
    have r4nw : h4.read nw = some ⟨v, some c, none⟩ := by
      rw [f4 nw (Ne.symm hcnw)]; exact r2nw
    have hfr : ∀ d, d ≠ c → d ≠ nw → h4.read d = h0.read d := by
      intro d hdc2 hdnw; rw [f4 d hdc2, f2 d hdnw, f1 d hdnw]
    refine ⟨h1, h2, h2, h4, nc, e1, load_ok r1c, hprev, e2, load_ok r2c, ?_, fun _ => rfl, e4,
      ?_, ?_, by omega, ?_⟩
    · intro b hb; simp at hb
    · refine ⟨rfl, _, r4nw, rfl, rfl, _, r4c, hdc, ?_⟩
      refine Seg.frame_seg hrest (fun d hd n hn => ⟨n, ?_, rfl, rfl⟩)
      rw [hfr d (fun e => hc_l2 (e ▸ hd)) (fun e => hnw_l2 (e ▸ hd))]; exact hn
    · refine ⟨⟨_, r4nw, rfl⟩, ⟨_, r4c, rfl⟩, ?_⟩
      refine Back.frame_back hb3 (fun d hd n hn => ⟨n, ?_, rfl⟩)
      rw [hfr d (fun e => hc_l2 (e ▸ hd)) (fun e => hnw_l2 (e ▸ hd))]; exact hn
    · intro d hd hdnw
      refine hfr d ?_ hdnw
      intro e; apply hd; simp [addrs, e]
  · -- `c` has the predecessor `b`
    subst hl1
    rw [prevOf_snoc] at hprev e2 r2nw
    obtain ⟨hs0, nb, hrb, hdb, hnb⟩ := Seg.snoc.mp hs1
    have hb_l0 : b ∉ addrs l0 := by
      have := hndp.1
      rw [addrs_append, addrs_cons] at this
      intro hmem
      exact (List.nodup_append.mp this).2.2 hmem (by simp)
    have hbc : b ≠ c := by
      intro e; apply hc_l1; rw [addrs_append, addrs_cons]; simp [e]
    have hbnw : b ≠ nw := by
      intro e; apply hnw_l1; rw [addrs_append, addrs_cons]; simp [e]
    have r2b : h2.read b = some nb := by rw [f2 b hbnw, f1 b hbnw]; exact hrb
    obtain ⟨h3, e3, len3, r3b, f3⟩ := setNext_ok (σ := σ) (some nw) r2b
    have r3c : h3.read c = some nc := by rw [f3 c (Ne.symm hbc)]; exact r2c
    obtain ⟨h4, e4, len4, r4c, f4⟩ := setPrev_ok (σ := σ) (some nw) r3c
    have r4nw : h4.read nw = some ⟨v, some c, some b⟩ := by
      rw [f4 nw (Ne.symm hcnw), f3 nw (Ne.symm hbnw)]; exact r2nw
    have r4b : h4.read b = some { nb with next := some nw } := by
      rw [f4 b hbc]; exact r3b
    have hfr : ∀ d, d ≠ c → d ≠ nw → d ≠ b → h4.read d = h0.read d := by
      intro d hdc2 hdnw hdb2; rw [f4 d hdc2, f3 d hdb2, f2 d hdnw, f1 d hdnw]
    have hl0 : ∀ d ∈ addrs l0, d ≠ c ∧ d ≠ nw ∧ d ≠ b := by
      intro d hd
      refine ⟨?_, ?_, ?_⟩
      · intro e; apply hc_l1; rw [addrs_append]; exact List.mem_append.mpr (Or.inl (e ▸ hd))
      · intro e; apply hnw_l1; rw [addrs_append]; exact List.mem_append.mpr (Or.inl (e ▸ hd))
      · intro e; exact hb_l0 (e ▸ hd)
    have hl2 : ∀ d ∈ addrs l2, d ≠ c ∧ d ≠ nw ∧ d ≠ b := by
      intro d hd
      refine ⟨fun e => hc_l2 (e ▸ hd), fun e => hnw_l2 (e ▸ hd), ?_⟩
      intro e
      subst e
      exact hndp.2.2 (show d ∈ addrs (l0 ++ [(d, z)]) by rw [addrs_append, addrs_cons]; simp)
        (List.mem_cons.mpr (Or.inr hd))
    refine ⟨h1, h2, h3, h4, nc, e1, load_ok r1c, ?_, ?_, load_ok r2c, ?_, ?_, e4,
      ?_, ?_, by omega, ?_⟩
    · rw [prevOf_snoc]; exact hprev
    · rw [prevOf_snoc]; exact e2
    · intro b2 hb2
      rw [prevOf_snoc] at hb2
      have : b = b2 := by simpa using hb2
      subst this; exact e3
    · intro hb2; rw [prevOf_snoc] at hb2; exact absurd hb2 (by simp)
    · rw [headPtr_of_ne_nil (by simp) (some nw) (some c), ← hs1.head_eq]
      refine Seg.append_seg.mpr ⟨some nw, Seg.snoc.mpr ⟨?_, _, r4b, hdb, rfl⟩,
        rfl, _, r4nw, rfl, rfl, _, r4c, hdc, ?_⟩
      · refine Seg.frame_seg hs0 (fun d hd n hn => ⟨n, ?_, rfl, rfl⟩)
        rw [hfr d (hl0 d hd).1 (hl0 d hd).2.1 (hl0 d hd).2.2]; exact hn
      · refine Seg.frame_seg hrest (fun d hd n hn => ⟨n, ?_, rfl, rfl⟩)
        rw [hfr d (hl2 d hd).1 (hl2 d hd).2.1 (hl2 d hd).2.2]; exact hn
    · refine Back.append_back.mpr ⟨?_, ?_⟩
      · refine Back.frame_back hb1 (fun d hd n hn => ?_)
        rw [addrs_append, addrs_cons] at hd
        rcases List.mem_append.mp hd with hd | hd
        · refine ⟨n, ?_, rfl⟩
          rw [hfr d (hl0 d hd).1 (hl0 d hd).2.1 (hl0 d hd).2.2]; exact hn
        · have hdb2 : d = b := by simpa [addrs] using hd
          subst hdb2
          rw [hrb] at hn
          have : nb = n := by simpa using hn
          subst this
          exact ⟨_, r4b, rfl⟩
      · rw [prevOf_snoc]
        refine ⟨⟨_, r4nw, rfl⟩, ⟨_, r4c, rfl⟩, ?_⟩
        refine Back.frame_back hb3 (fun d hd n hn => ⟨n, ?_, rfl⟩)
        rw [hfr d (hl2 d hd).1 (hl2 d hd).2.1 (hl2 d hd).2.2]; exact hn
    · intro d hd hdnw
      simp only [addrs, List.map_append, List.map_cons, List.map_nil, List.mem_append,
        List.mem_cons, List.mem_nil_iff, List.mem_singleton, or_false, not_or] at hd
      exact hfr d hd.2.1 hdnw hd.1.2

/-! ## The private `merge` -/

theorem Back.int {h : Heap T} {q : Ptr} {ns : List (Nat × T)} (hb : Back h q ns) :
    BackInt h ns := by
  cases ns with
  | nil => trivial
  | cons ax ns => exact hb.2

theorem mem_addrs_of_perm {l1 l2 : List (Nat × T)} (hp : l1.Perm l2) (a : Nat) :
    a ∈ addrs l1 ↔ a ∈ addrs l2 :=
  (hp.map Prod.fst).mem_iff

/-- The three assignments after the recursive call of `merge`: the chosen node
`a` is put in front of the merged rest `cs`. -/
theorem link_head {h1 : Heap T} {a : Nat} {na : Node T} {m : Ptr} {cs : List (Nat × T)}
    (hra : h1.read a = some na) (hf : Fwd h1 m cs) (hb : BackInt h1 cs) (hne : cs ≠ [])
    (hna : a ∉ addrs cs) :
    ∃ h2 h3 h4 n2, (setNext h1 (some a) m : Except (Fault σ) _) = .ok h2 ∧
      (load h2 (some a) : Except (Fault σ) _) = .ok n2 ∧ n2.next = m ∧
      (setPrev h2 m (some a) : Except (Fault σ) _) = .ok h3 ∧
      (setPrev h3 (some a) none : Except (Fault σ) _) = .ok h4 ∧
      Fwd h4 (some a) ((a, na.data) :: cs) ∧ Back h4 none ((a, na.data) :: cs) ∧
      h4.length = h1.length ∧ ∀ d, d ≠ a → d ∉ addrs cs → h4.read d = h1.read d := by
  obtain ⟨h2, e2, len2, r2a, f2⟩ := setNext_ok (σ := σ) m hra
  cases cs with
  | nil => exact absurd rfl hne
  | cons cz cs =>
    obtain ⟨c, z⟩ := cz
    have hnd := hf.nodup
    obtain ⟨hm, nc, hrc, hdc, hrest⟩ := hf
    subst hm
    have hca : c ≠ a := by
      intro e; apply hna; simp [addrs, e]
    have r2c : h2.read c = some nc := by rw [f2 c hca]; exact hrc
    obtain ⟨h3, e3, len3, r3c, f3⟩ := setPrev_ok (σ := σ) (some a) r2c
    have r3a : h3.read a = some { na with next := some c } := by
      rw [f3 a (Ne.symm hca)]; exact r2a
    obtain ⟨h4, e4, len4, r4a, f4⟩ := setPrev_ok (σ := σ) none r3a
    have r4c : h4.read c = some { nc with prev := some a } := by
      rw [f4 c hca]; exact r3c
    have hfr : ∀ d, d ≠ a → d ≠ c → h4.read d = h1.read d := by
      intro d hda hdc; rw [f4 d hda, f3 d hdc, f2 d hda]
    simp only [addrs, List.map_cons, List.nodup_cons] at hnd
    have hrest_ne : ∀ d ∈ addrs cs, d ≠ a ∧ d ≠ c := by
      intro d hd
      constructor
      · intro e; apply hna; subst e; simp only [addrs, List.map_cons, List.mem_cons]; exact Or.inr hd
      · intro e; subst e; exact hnd.1 hd
    refine ⟨h2, h3, h4, _, e2, load_ok r2a, rfl, e3, e4, ?_, ?_, by omega, ?_⟩
    · refine ⟨rfl, _, r4a, rfl, rfl, _, r4c, hdc, ?_⟩
      refine Seg.frame_seg hrest (fun d hd n hn => ⟨n, ?_, rfl, rfl⟩)
      rw [hfr d (hrest_ne d hd).1 (hrest_ne d hd).2]; exact hn
    · refine ⟨⟨_, r4a, rfl⟩, ⟨_, r4c, rfl⟩, ?_⟩
      have hb2 : Back h1 (some c) cs := hb
      refine Back.frame_back hb2 (fun d hd n hn => ⟨n, ?_, rfl⟩)
      rw [hfr d (hrest_ne d hd).1 (hrest_ne d hd).2]; exact hn
    · intro d hda hdn
      refine hfr d hda ?_
      intro e; apply hdn; simp [addrs, e]

/-- The private `merge` on two disjoint finite chains links their nodes in the
order `mergeList`, sets the backward links to match, and touches no other
cell. -/
theorem merge_spec (compare : T → T → Bool) :
    ∀ (fuel : Nat) (h : Heap T) (p q : Ptr) (as bs : List (Nat × T)),
      Fwd h p as → Fwd h q bs → (∀ a ∈ addrs as, a ∉ addrs bs) →
      BackInt h as → BackInt h bs → as.length + bs.length < fuel →
      ∃ h2 r, (merge compare fuel h p q : Except (Fault σ) _) = .ok (h2, r) ∧
        Fwd h2 r (mergeList (byVal compare) as bs) ∧
        BackInt h2 (mergeList (byVal compare) as bs) ∧
        h2.length = h.length ∧
        (∀ a, a ∉ addrs as → a ∉ addrs bs → h2.read a = h.read a) ∧
        (as ≠ [] → bs ≠ [] → Back h2 none (mergeList (byVal compare) as bs)) := by
  intro fuel
  induction fuel with
  | zero => intro h p q as bs _ _ _ _ _ hlen; omega
  | succ fuel ih =>
    intro h p q as bs hfa hfb hdisj hba hbb hlen
    cases as with
    | nil =>
      have hp : p = none := hfa
      subst hp
      refine ⟨h, q, by simp [merge], ?_, ?_, rfl, fun _ _ _ => rfl, fun hn _ => absurd rfl hn⟩
      · simpa [mergeList] using hfb
      · simpa [mergeList] using hbb
    | cons ax as =>
      obtain ⟨a, x⟩ := ax
      cases bs with
      | nil =>
        have hq : q = none := hfb
        have hp : p = some a := hfa.1
        subst hp hq
        refine ⟨h, some a, by simp [merge], ?_, ?_, rfl, fun _ _ _ => rfl,
          fun _ hn => absurd rfl hn⟩
        · simpa [mergeList] using hfa
        · simpa [mergeList] using hba
      | cons by_ bs =>
        obtain ⟨b, y⟩ := by_
        have hnda := hfa.nodup
        have hndb := hfb.nodup
        have hfa0 := hfa
        have hfb0 := hfb
        obtain ⟨hp, na, hra, hda, hresta⟩ := hfa
        obtain ⟨hq, nb, hrb, hdb, hrestb⟩ := hfb
        subst hp hq
        simp only [addrs, List.map_cons, List.nodup_cons] at hnda hndb
        have hab : a ≠ b := by
          intro e; exact hdisj a (by simp [addrs]) (by simp [addrs, e])
        simp only [merge, load_ok hra, load_ok hrb, bind_ok, hda, hdb]
        by_cases hc : compare x y = true
        · -- the left head goes first
          have hdisj2 : ∀ d ∈ addrs as, d ∉ addrs ((b, y) :: bs) := by
            intro d hd
            exact hdisj d (by simp only [addrs, List.map_cons, List.mem_cons]; exact Or.inr hd)
          obtain ⟨h1, m, e1, hf1, hb1, len1, fr1, _⟩ :=
            ih h na.next (some b) as ((b, y) :: bs) hresta hfb0 hdisj2 hba.int hbb
              (by simp at hlen ⊢; omega)
          have hperm := mergeList_perm_append (byVal compare) as ((b, y) :: bs)
          have hna_cs : a ∉ addrs (mergeList (byVal compare) as ((b, y) :: bs)) := by
            rw [mem_addrs_of_perm hperm]
            simp only [addrs, List.map_append, List.mem_append, not_or]
            exact ⟨hnda.1, hdisj a (by simp [addrs])⟩
          have hra1 : h1.read a = some na := by
            rw [fr1 a hnda.1 (hdisj a (by simp [addrs]))]; exact hra
          obtain ⟨h2, h3, h4, n2, e2, e3, hn2, e4, e5, hf4, hb4, len4, fr4⟩ :=
            link_head (σ := σ) hra1 hf1 hb1 (mergeList_ne_nil_right _ _ (by simp)) hna_cs
          simp only [hc, if_true, e1, bind_ok, e2, e3, hn2, e4, e5]
          rw [hda] at hf4 hb4
          refine ⟨h4, some a, ?_, ?_, ?_, by omega, ?_, fun _ _ => ?_⟩
          · rfl
          · simpa [mergeList, byVal, hc] using hf4
          · simpa [mergeList, byVal, hc] using hb4.int
          · intro d hd1 hd2
            simp only [addrs, List.map_cons, List.mem_cons, not_or] at hd1
            rw [fr4 d hd1.1 ?_, fr1 d hd1.2 hd2]
            rw [mem_addrs_of_perm hperm]
            simp only [addrs, List.map_append, List.mem_append, not_or]
            exact ⟨hd1.2, hd2⟩
          · simpa [mergeList, byVal, hc] using hb4
        · -- the right head goes first
          have hdisj2 : ∀ d ∈ addrs ((a, x) :: as), d ∉ addrs bs := by
            intro d hd hd2
            exact hdisj d hd (by simp only [addrs, List.map_cons, List.mem_cons]; exact Or.inr hd2)
          obtain ⟨h1, m, e1, hf1, hb1, len1, fr1, _⟩ :=
            ih h (some a) nb.next ((a, x) :: as) bs hfa0 hrestb hdisj2 hba hbb.int
              (by simp at hlen ⊢; omega)
          have hperm := mergeList_perm_append (byVal compare) ((a, x) :: as) bs
          have hb_as : b ∉ addrs ((a, x) :: as) := by
            intro hmem; exact hdisj b hmem (by simp [addrs])
          have hnb_cs : b ∉ addrs (mergeList (byVal compare) ((a, x) :: as) bs) := by
            rw [mem_addrs_of_perm hperm]
            simp only [addrs, List.map_append, List.mem_append, not_or]
            exact ⟨hb_as, hndb.1⟩
          have hrb1 : h1.read b = some nb := by
            rw [fr1 b hb_as hndb.1]; exact hrb
          obtain ⟨h2, h3, h4, n2, e2, e3, hn2, e4, e5, hf4, hb4, len4, fr4⟩ :=
            link_head (σ := σ) hrb1 hf1 hb1 (mergeList_ne_nil_left _ _ (by simp)) hnb_cs
          simp only [hc, e1, bind_ok, e2, e3, hn2, e4, e5]
          rw [hdb] at hf4 hb4
          refine ⟨h4, some b, ?_, ?_, ?_, by omega, ?_, fun _ _ => ?_⟩
          · rfl
          · simpa [mergeList, byVal, hc] using hf4
          · simpa [mergeList, byVal, hc] using hb4.int
          · intro d hd1 hd2
            simp only [addrs, List.map_cons, List.mem_cons, not_or] at hd2
            rw [fr4 d hd2.1 ?_, fr1 d hd1 hd2.2]
            rw [mem_addrs_of_perm hperm]
            simp only [addrs, List.map_append, List.mem_append, not_or]
            exact ⟨hd1, hd2.2⟩
          · simpa [mergeList, byVal, hc] using hb4

/-! ## The private `get_middle` and `merge_sort` -/

theorem get_middle_loop_spec {h : Heap T} :
    ∀ (fuel : Nat) (l1 l2 : List (Nat × T)) (slow fast : Ptr),
      Fwd h slow l1 → Fwd h fast l2 → l2.length / 2 < l1.length → l2.length / 2 < fuel →
      (get_middle_loop fuel h slow fast : Except (Fault σ) Ptr) =
        .ok ((addrs l1)[l2.length / 2]?) := by
  intro fuel
  induction fuel with
  | zero => intro l1 l2 slow fast _ _ _ hlt; omega
  | succ fuel ih =>
    intro l1 l2 slow fast hs hf hl hfuel
    cases l1 with
    | nil => simp at hl
    | cons sx l1 =>
      obtain ⟨sa, sx⟩ := sx
      obtain ⟨hslow, sn, hrs, _, hrests⟩ := hs
      subst hslow
      cases l2 with
      | nil =>
        have : fast = none := hf
        subst this
        simp [get_middle_loop, addrs]
      | cons fx l2 =>
        obtain ⟨fa, fx⟩ := fx
        obtain ⟨hfast, fn, hrf, _, hrestf⟩ := hf
        subst hfast
        cases l2 with
        | nil =>
          have : fn.next = none := hrestf
          simp [get_middle_loop, load_ok hrf, this, addrs]
        | cons gx l2 =>
          obtain ⟨ga, gx⟩ := gx
          obtain ⟨hg, gn, hrg, _, hrestg⟩ := hrestf
          simp only [List.length_cons] at hl hfuel
          have hdiv : (l2.length + 1 + 1) / 2 = l2.length / 2 + 1 := by omega
          rw [hdiv] at hl hfuel
          simp only [get_middle_loop, load_ok hrf, bind_ok, hg, load_ok hrs, load_ok hrg]
          rw [ih l1 l2 sn.next gn.next hrests hrestg (by omega) (by omega)]
          simp only [List.length_cons, hdiv, addrs, List.map_cons, List.getElem?_cons_succ]

/-- The private `get_middle` on a chain of `n ≥ 1` nodes returns the node at
position `(n - 1) / 2`. -/
theorem get_middle_spec {h : Heap T} {p : Ptr} {ns : List (Nat × T)} (hf : Fwd h p ns)
    (hne : ns ≠ []) (fuel : Nat) (hfuel : ns.length ≤ fuel) :
    (get_middle fuel h p : Except (Fault σ) Ptr) = .ok ((addrs ns)[(ns.length - 1) / 2]?) := by
  cases ns with
  | nil => exact absurd rfl hne
  | cons ax ns =>
    obtain ⟨a, x⟩ := ax
    have hf0 := hf
    obtain ⟨hp, n, hr, _, hrest⟩ := hf
    subst hp
    simp only [get_middle, load_ok hr, bind_ok]
    rw [get_middle_loop_spec fuel ((a, x) :: ns) ns (some a) n.next hf0 hrest
      (by simp only [List.length_cons]; omega) (by simp only [List.length_cons] at hfuel; omega)]
    simp

/-- Cutting a chain after its node `c`: the assignment `c->next = nullptr`
leaves the part up to `c` and the part after `c` as two finite chains. -/
theorem Fwd.cut {h h1 : Heap T} {p : Ptr} {l1 l2 : List (Nat × T)} {c : Nat} {y : T}
    {nc : Node T} (hf : Fwd h p (l1 ++ (c, y) :: l2)) (hrc : h.read c = some nc)
    (hr1 : h1.read c = some { nc with next := none })
    (hfr : ∀ b, b ≠ c → h1.read b = h.read b) :
    Fwd h1 p (l1 ++ [(c, y)]) ∧ Fwd h1 nc.next l2 := by
  have hnd := hf.nodup
  obtain ⟨m, hs1, hs2⟩ := Seg.append_seg.mp hf
  obtain ⟨hm, n, hr, hd, hrest⟩ := hs2
  rw [hrc] at hr
  have hn : nc = n := by simpa using hr
  subst hn
  simp only [addrs, List.map_append, List.map_cons] at hnd
  have hnd1 : c ∉ addrs l1 := by
    intro hmem
    have := (List.nodup_append.mp hnd).2.2
    exact this hmem (by simp)
  have hnd2 : c ∉ addrs l2 := by
    have := (List.nodup_append.mp hnd).2.1
    exact (List.nodup_cons.mp this).1
  constructor
  · refine Seg.append_seg.mpr ⟨m, ?_, hm, _, hr1, hd, rfl⟩
    refine Seg.frame_seg hs1 (fun d hdm n hn => ⟨n, ?_, rfl, rfl⟩)
    rw [hfr d (fun e => hnd1 (e ▸ hdm))]; exact hn
  · refine Seg.frame_seg hrest (fun d hdm n hn => ⟨n, ?_, rfl, rfl⟩)
    rw [hfr d (fun e => hnd2 (e ▸ hdm))]; exact hn

theorem Fwd.congr_fwd {h h2 : Heap T} {p : Ptr} {ns : List (Nat × T)} (hf : Fwd h p ns)
    (hfr : ∀ a ∈ addrs ns, h2.read a = h.read a) : Fwd h2 p ns :=
  Seg.frame_seg hf (fun a ha n hn => ⟨n, by rw [hfr a ha]; exact hn, rfl, rfl⟩)

theorem Back.congr_back {h h2 : Heap T} {q : Ptr} {ns : List (Nat × T)} (hb : Back h q ns)
    (hfr : ∀ a ∈ addrs ns, h2.read a = h.read a) : Back h2 q ns :=
  Back.frame_back hb (fun a ha n hn => ⟨n, by rw [hfr a ha]; exact hn, rfl⟩)

theorem BackInt.congr_int {h h2 : Heap T} {ns : List (Nat × T)} (hb : BackInt h ns)
    (hfr : ∀ a ∈ addrs ns, h2.read a = h.read a) : BackInt h2 ns := by
  cases ns with
  | nil => trivial
  | cons ax ns =>
    have hb2 : Back h (some ax.1) ns := hb
    exact Back.congr_back hb2 (fun a ha => hfr a (by
      simp only [addrs, List.map_cons, List.mem_cons]; exact Or.inr ha))

/-- The private `merge_sort` on a finite chain `ns`: it returns, relinks the
nodes of `ns` in the order `sortList`, sets the backward links to match, and
touches no other cell. -/
theorem merge_sort_rec_spec (compare : T → T → Bool) :
    ∀ (fuel : Nat) (h : Heap T) (p : Ptr) (ns : List (Nat × T)),
      Fwd h p ns → ns.length ≤ fuel →
      ∃ h2 r, (merge_sort_rec compare (fuel + 1) h p : Except (Fault σ) _) = .ok (h2, r) ∧
        Fwd h2 r (sortList (byVal compare) (fuel + 1) ns) ∧
        BackInt h2 (sortList (byVal compare) (fuel + 1) ns) ∧
        h2.length = h.length ∧
        (∀ a, a ∉ addrs ns → h2.read a = h.read a) ∧
        (2 ≤ ns.length → Back h2 none (sortList (byVal compare) (fuel + 1) ns)) ∧
        (ns.length ≤ 1 → h2 = h ∧ r = p) := by
  intro fuel
  induction fuel with
  | zero =>
    intro h p ns hf hlen
    have hnil : ns = [] := List.length_eq_zero.mp (by omega)
    subst hnil
    have hp : p = none := hf
    subst hp
    exact ⟨h, none, by simp [merge_sort_rec], by simpa [sortList] using hf,
      by simp [sortList, BackInt], rfl, fun _ _ => rfl, fun h2 => by simp at h2,
      fun _ => ⟨rfl, rfl⟩⟩
  | succ fuel ih =>
    intro h p ns hf hlen
    by_cases hshort : ns.length ≤ 1
    · -- at most one node: nothing happens
      have hsl : sortList (byVal compare) (fuel + 1 + 1) ns = ns := sortList_short _ _ hshort
      rw [hsl]
      have hrun : (merge_sort_rec compare (fuel + 1 + 1) h p : Except (Fault σ) _) = .ok (h, p) := by
        match ns, hf, hshort with
        | [], hf, _ =>
          have hp : p = none := hf
          subst hp; simp [merge_sort_rec]
        | [(a, x)], hf, _ =>
          obtain ⟨hp, n, hr, _, hrest⟩ := hf
          have hn : n.next = none := hrest
          subst hp
          simp [merge_sort_rec, load_ok hr, hn]
        | _ :: _ :: _, _, hs => simp at hs
      refine ⟨h, p, hrun, hf, ?_, rfl, fun _ _ => rfl, fun h2 => by omega, fun _ => ⟨rfl, rfl⟩⟩
      match ns, hshort with
      | [], _ => trivial
      | [(a, x)], _ => trivial
      | _ :: _ :: _, hs => simp at hs
    · -- two nodes or more: cut, sort the halves, merge
      have hlen2 : 2 ≤ ns.length := by omega
      have hhl := hf.length_le
      obtain ⟨k, hk⟩ : ∃ k, k = (ns.length - 1) / 2 := ⟨_, rfl⟩
      have hklt : k + 1 < ns.length := by omega
      have hsplit : ns = ns.take k ++ ns[k] :: ns.drop (k + 1) := by
        rw [List.getElem_cons_drop, List.take_append_drop]
      obtain ⟨l1, hl1⟩ : ∃ l1, l1 = ns.take k := ⟨_, rfl⟩
      obtain ⟨l2, hl2⟩ : ∃ l2, l2 = ns.drop (k + 1) := ⟨_, rfl⟩
      obtain ⟨⟨c, y⟩, hcy⟩ : ∃ cy, cy = ns[k] := ⟨_, rfl⟩
      rw [← hl1, ← hl2, ← hcy] at hsplit
      have hl1len : l1.length = k := by rw [hl1, List.length_take]; omega
      have hl2len : l2.length = ns.length - (k + 1) := by rw [hl2, List.length_drop]
      have htake : ns.take (k + 1) = l1 ++ [(c, y)] := by
        rw [hsplit, List.take_append_eq_append_take, List.take_of_length_le (by omega)]
        simp [hl1len]
      have hdrop : ns.drop (k + 1) = l2 := hl2.symm
      have hmidc : (addrs ns)[k]? = some c := by
        rw [hsplit]
        simp only [addrs, List.map_append, List.map_cons]
        rw [List.getElem?_append_right (by simp [hl1len])]
        simp [hl1len]
      have hf0 := hf
      rw [hsplit] at hf
      have hnd := hf.nodup
      obtain ⟨mc, hs1, hs2⟩ := Seg.append_seg.mp hf
      obtain ⟨hmc, nc, hrc, hdc, hrestc⟩ := hs2
      -- the head and its successor exist
      obtain ⟨a, x, b, y2, rest, hns⟩ : ∃ a x b y2 rest, ns = (a, x) :: (b, y2) :: rest := by
        match ns, hlen2 with
        | (a, x) :: (b, y2) :: rest, _ => exact ⟨a, x, b, y2, rest, rfl⟩
      have hf1 := hf0
      rw [hns] at hf1
      obtain ⟨hp, na, hra, _, hp2, _⟩ := hf1
      subst hp
      obtain ⟨h1, e1, len1, r1c, fr1⟩ := setNext_ok (σ := σ) none hrc
      obtain ⟨hcutL, hcutR⟩ := Fwd.cut hf hrc r1c fr1
      -- the two recursive calls
      have hLlen : (l1 ++ [(c, y)]).length ≤ fuel := by simp [hl1len]; omega
      have hRlen : l2.length ≤ fuel := by omega
      obtain ⟨h2, head2, e2, hf2, hb2, len2, fr2, _, _⟩ :=
        ih h1 (some a) (l1 ++ [(c, y)]) hcutL hLlen
      simp only [addrs, List.map_append, List.map_cons] at hnd
      have hdisjLR : ∀ d, d ∈ addrs (l1 ++ [(c, y)]) → d ∉ addrs l2 := by
        intro d hd hd2
        simp only [addrs, List.map_append, List.map_cons, List.map_nil, List.mem_append,
          List.mem_singleton] at hd
        have hnd' := List.nodup_append.mp hnd
        rcases hd with hd | hd
        · exact hnd'.2.2 hd (by simp only [List.mem_cons]; exact Or.inr hd2)
        · subst hd; exact (List.nodup_cons.mp hnd'.2.1).1 hd2
      have hcutR2 : Fwd h2 nc.next l2 :=
        hcutR.congr_fwd (fun d hd => fr2 d (fun hd1 => hdisjLR d hd1 hd))
      obtain ⟨h3, half3, e3, hf3, hb3, len3, fr3, _, _⟩ :=
        ih h2 nc.next l2 hcutR2 hRlen
      have hpL := sortList_perm (byVal compare) (fuel + 1) (l1 ++ [(c, y)])
      have hpR := sortList_perm (byVal compare) (fuel + 1) l2
      have hdisjS : ∀ d ∈ addrs (sortList (byVal compare) (fuel + 1) (l1 ++ [(c, y)])),
          d ∉ addrs (sortList (byVal compare) (fuel + 1) l2) := by
        intro d hd hd2
        exact hdisjLR d ((mem_addrs_of_perm hpL d).mp hd) ((mem_addrs_of_perm hpR d).mp hd2)
      have hfrL : ∀ d ∈ addrs (sortList (byVal compare) (fuel + 1) (l1 ++ [(c, y)])),
          h3.read d = h2.read d := by
        intro d hd
        exact fr3 d (fun hd2 => hdisjLR d ((mem_addrs_of_perm hpL d).mp hd) hd2)
      have hf2' := hf2.congr_fwd hfrL
      have hb2' := hb2.congr_int hfrL
      have hmlen : (sortList (byVal compare) (fuel + 1) (l1 ++ [(c, y)])).length +
          (sortList (byVal compare) (fuel + 1) l2).length < h3.length + 1 := by
        rw [hpL.length_eq, hpR.length_eq, len3, len2, len1]
        have : (l1 ++ [(c, y)]).length + l2.length = ns.length := by
          rw [congrArg List.length hsplit]; simp; omega
        omega
      obtain ⟨h4, r, e4, hf4, hb4, len4, fr4, hhead4⟩ :=
        merge_spec (σ := σ) compare (h3.length + 1) h3 head2 half3 _ _ hf2' hf3 hdisjS hb2' hb3 hmlen
      have hget : (get_middle (h.length + 1) h (some a) : Except (Fault σ) Ptr) = .ok (some c) := by
        rw [get_middle_spec hf0 (by rw [hns]; simp) (h.length + 1) (by omega), ← hk, hmidc]
      have hsl : sortList (byVal compare) (fuel + 1 + 1) ns =
          mergeList (byVal compare) (sortList (byVal compare) (fuel + 1) (l1 ++ [(c, y)]))
            (sortList (byVal compare) (fuel + 1) l2) := by
        rw [sortList, if_neg hshort, ← hk, htake, hdrop]
      rw [hsl]
      refine ⟨h4, r, ?_, hf4, hb4, by omega, ?_, fun _ => ?_, fun hs => absurd hs hshort⟩
      · rw [merge_sort_rec]
        simp only [load_ok hra, bind_ok, hp2, hget, load_ok hrc, e1, e2, e3, e4]
      · intro d hd
        have hd' : d ∉ addrs (l1 ++ [(c, y)]) ∧ d ∉ addrs l2 ∧ d ≠ c := by
          rw [hsplit] at hd
          simp only [addrs, List.map_append, List.map_cons, List.mem_append, List.mem_cons,
            not_or, List.map_nil, List.not_mem_nil, or_false] at hd ⊢
          exact ⟨⟨hd.1, hd.2.1⟩, hd.2.2, hd.2.1⟩
        rw [fr4 d (fun hm => hd'.1 ((mem_addrs_of_perm hpL d).mp hm))
          (fun hm => hd'.2.1 ((mem_addrs_of_perm hpR d).mp hm)),
          fr3 d hd'.2.1, fr2 d hd'.1, fr1 d hd'.2.2]
      · refine hhead4 ?_ ?_
        · intro e
          have := hpL.length_eq
          rw [e] at this; simp at this
        · intro e
          have := hpR.length_eq
          rw [e] at this
          simp only [List.length_nil] at this
          omega

theorem find_last_spec {h : Heap T} :
    ∀ (fuel : Nat) (ns : List (Nat × T)) (p : Ptr), Fwd h p ns → ns.length < fuel →
      (find_last fuel h p : Except (Fault σ) Ptr) = .ok (addrs ns).getLast? := by
  intro fuel
  induction fuel with
  | zero => intro ns p _ hlt; omega
  | succ fuel ih =>
    intro ns p hf hlt
    cases ns with
    | nil =>
      have : p = none := hf
      subst this; simp [find_last, addrs]
    | cons ax ns =>
      obtain ⟨a, x⟩ := ax
      obtain ⟨hp, n, hr, _, hrest⟩ := hf
      subst hp
      cases ns with
      | nil =>
        have : n.next = none := hrest
        simp [find_last, load_ok hr, this, addrs]
      | cons by_ ns =>
        obtain ⟨b, y⟩ := by_
        have hb : n.next = some b := hrest.1
        simp only [find_last, load_ok hr, bind_ok, hb]
        rw [← hb, ih ((b, y) :: ns) n.next hrest (by simp at hlt ⊢; omega)]
        simp [addrs]

/-- The public `merge_sort` on a sequence whose forward chain `ns` is finite:
it returns, the nodes are relinked in the order `sortList`, the backward links
and `last` are set to match, `size_` and every other cell stay. -/
theorem merge_sort_spec (compare : T → T → Bool) (s : State T) (ns : List (Nat × T))
    (hf : Fwd s.heap s.first ns) :
    ∃ s2, merge_sort compare s = .ok s2 ∧
      Fwd s2.heap s2.first (sortList (byVal compare) (s.heap.length + 1) ns) ∧
      BackInt s2.heap (sortList (byVal compare) (s.heap.length + 1) ns) ∧
      (2 ≤ ns.length → Back s2.heap none (sortList (byVal compare) (s.heap.length + 1) ns)) ∧
      (ns.length ≤ 1 → s2.heap = s.heap ∧ s2.first = s.first) ∧
      s2.last = (addrs (sortList (byVal compare) (s.heap.length + 1) ns)).getLast? ∧
      s2.size_ = s.size_ ∧
      s2.heap.length = s.heap.length ∧
      ∀ a, a ∉ addrs ns → s2.heap.read a = s.heap.read a := by
  have hlen := hf.length_le
  obtain ⟨h2, r, e1, hf2, hb2, len2, fr2, hhead2, hsame2⟩ :=
    merge_sort_rec_spec (σ := State T) compare s.heap.length s.heap s.first ns hf hlen
  have e2 := find_last_spec (σ := State T) (h2.length + 1) _ r hf2
    (by rw [(sortList_perm _ _ _).length_eq]; omega)
  refine ⟨⟨h2, r, (addrs (sortList (byVal compare) (s.heap.length + 1) ns)).getLast?, s.size_⟩,
    ?_, hf2, hb2, hhead2, hsame2, rfl, rfl, len2, fr2⟩
  simp only [merge_sort, e1, bind_ok, e2]

/-- Two disjoint finite chains have together no more nodes than the heap has
cells. -/
theorem Fwd.length_add_le {h : Heap T} {p q : Ptr} {as bs : List (Nat × T)}
    (hfa : Fwd h p as) (hfb : Fwd h q bs) (hdisj : ∀ a ∈ addrs as, a ∉ addrs bs) :
    as.length + bs.length ≤ h.length := by
  have hnd : (addrs as ++ addrs bs).Nodup :=
    List.nodup_append.mpr ⟨hfa.nodup, hfb.nodup, fun a ha hb => hdisj a ha hb⟩
  have hsub : addrs as ++ addrs bs ⊆ List.range h.length := by
    intro a ha
    rcases List.mem_append.mp ha with ha | ha
    · obtain ⟨n, hr⟩ := Seg.live hfa a ha
      exact List.mem_range.mpr (read_lt hr)
    · obtain ⟨n, hr⟩ := Seg.live hfb a ha
      exact List.mem_range.mpr (read_lt hr)
  have := (List.subperm_of_subset hnd hsub).length_le
  simpa [addrs] using this

/-! ## The members `insert`, `remove`, `operator[]` -/

theorem WF.first_eq {s : State T} {ns : List (Nat × T)} (hwf : WF s ns) :
    s.first = headPtr ns none :=
  hwf.fwd.head_eq

theorem getLast_addrs_insert (l1 l2 : List (Nat × T)) (nw c : Nat) (v y : T) :
    (addrs (l1 ++ (nw, v) :: (c, y) :: l2)).getLast? = (addrs (l1 ++ (c, y) :: l2)).getLast? := by
  simp [addrs, List.getLast?_append, List.getLast?_cons_cons]

/-- The member `insert` on a well-formed sequence with `index <= size()`: it
returns, the new node is the fresh cell, and the sequence is well-formed with
the new node in front of the node formerly at `index`. -/
theorem insert_spec (v : T) (i : Nat) (s : State T) (ns : List (Nat × T)) (hwf : WF s ns)
    (hi : i ≤ s.size_) :
    ∃ s2, insert v i s = .ok s2 ∧
      WF s2 (ns.take i ++ (s.heap.length, v) :: ns.drop i) ∧
      s2.heap.length = s.heap.length + 1 ∧
      ∀ d, d ∉ addrs ns → d ≠ s.heap.length → s2.heap.read d = s.heap.read d := by
  obtain ⟨h0, ea, len0, r0, f0⟩ := alloc_ok s.heap v
  have hfresh : s.heap.length ∉ addrs ns := hwf.fwd.fresh
  have hne : ∀ d ∈ addrs ns, d ≠ s.heap.length := fun d hd e => hfresh (e ▸ hd)
  have hf0 : Fwd h0 s.first ns := hwf.fwd.congr_fwd (fun d hd => f0 d (hne d hd))
  have hb0 : Back h0 none ns := hwf.back.congr_back (fun d hd => f0 d (hne d hd))
  have hsz := hwf.size
  simp only [insert, if_neg (Nat.not_lt.mpr hi), ea]
  by_cases h0i : i = 0
  · -- in front of the head
    subst h0i
    simp only [if_true, List.take_zero, List.drop_zero, List.nil_append]
    cases ns with
    | nil =>
      have hfirst : s.first = none := hwf.fwd
      have hsz0 : s.size_ = 0 := hsz
      obtain ⟨h1, e1, len1, r1, f1⟩ := setNext_ok (σ := State T) none r0
      rw [hfirst]
      simp only [e1, bind_ok, pure_eq_ok, hsz0, if_true]
      refine ⟨_, rfl, ⟨⟨rfl, _, r1, rfl, rfl⟩, ⟨⟨_, r1, rfl⟩, trivial⟩, rfl, rfl⟩, by simp; omega, ?_⟩
      intro d _ hd
      show h1.read d = _
      rw [f1 d hd, f0 d hd]
    | cons ax ns =>
      obtain ⟨a, x⟩ := ax
      obtain ⟨hfirst, na, hra, hda, hrest⟩ := hf0
      obtain ⟨⟨na2, hra2, _⟩, hbrest⟩ := hb0
      have hnd := hwf.fwd.nodup
      rw [addrs_cons] at hnd hfresh
      have ha_ns : a ∉ addrs ns := (List.nodup_cons.mp hnd).1
      have hanw : a ≠ s.heap.length := fun e => hfresh (List.mem_cons.mpr (Or.inl e.symm))
      have hsz1 : s.size_ ≠ 0 := by rw [hsz]; simp
      obtain ⟨h1, e1, len1, r1, f1⟩ := setNext_ok (σ := State T) (some a) r0
      have r1a : h1.read a = some na := by rw [f1 a hanw]; exact hra
      obtain ⟨h2, e2, len2, r2a, f2⟩ := setPrev_ok (σ := State T) (some s.heap.length) r1a
      have r2nw : h2.read s.heap.length = some ⟨v, some a, none⟩ := by
        rw [f2 _ (Ne.symm hanw)]; exact r1
      have hfr : ∀ d, d ≠ a → d ≠ s.heap.length → h2.read d = h0.read d := by
        intro d hda2 hdnw; rw [f2 d hda2, f1 d hdnw]
      have hrest_ne : ∀ d ∈ addrs ns, d ≠ a ∧ d ≠ s.heap.length := fun d hd =>
        ⟨fun e => ha_ns (e ▸ hd), fun e => hfresh (List.mem_cons.mpr (Or.inr (e ▸ hd)))⟩
      rw [hfirst]
      simp only [e1, bind_ok, e2, if_neg hsz1]
      refine ⟨_, rfl, ⟨?_, ?_, ?_, ?_⟩, by simp; omega, ?_⟩
      · refine ⟨rfl, _, r2nw, rfl, rfl, _, r2a, hda, ?_⟩
        refine Seg.frame_seg hrest (fun d hd n hn => ⟨n, ?_, rfl, rfl⟩)
        rw [hfr d (hrest_ne d hd).1 (hrest_ne d hd).2]; exact hn
      · refine ⟨⟨_, r2nw, rfl⟩, ⟨_, r2a, rfl⟩, ?_⟩
        refine Back.frame_back hbrest (fun d hd n hn => ⟨n, ?_, rfl⟩)
        rw [hfr d (hrest_ne d hd).1 (hrest_ne d hd).2]; exact hn
      · show s.last = _
        rw [hwf.last]; simp [addrs, List.getLast?_cons_cons]
      · show s.size_ + 1 = _
        rw [hsz]; simp
      · intro d hd hdnw
        show h2.read d = _
        rw [addrs_cons] at hd
        rw [hfr d (fun e => hd (List.mem_cons.mpr (Or.inl e))) hdnw, f0 d hdnw]
  · simp only [if_neg h0i]
    by_cases hie : i = s.size_
    · -- behind the tail
      simp only [if_pos hie]
      have hnn : ns ≠ [] := by
        intro e; rw [e] at hsz; simp at hsz; omega
      rcases eq_nil_or_snoc ns with e | ⟨l0, b, z, e⟩
      · exact absurd e hnn
      · subst e
        have hlast : s.last = some b := by rw [hwf.last]; simp [addrs]
        obtain ⟨hs0, nb, hrb, hdb, hnb⟩ := Seg.snoc.mp hf0
        have hnd := hwf.fwd.nodup
        rw [addrs_append, addrs_cons] at hnd hfresh
        have hb_l0 : b ∉ addrs l0 := fun hmem => (List.nodup_append.mp hnd).2.2 hmem (by simp)
        have hbnw : b ≠ s.heap.length := fun e => hfresh (by simp [e])
        obtain ⟨h1, e1, len1, r1, f1⟩ := setPrev_ok (σ := State T) (some b) r0
        have r1b : h1.read b = some nb := by rw [f1 b hbnw]; exact hrb
        obtain ⟨h2, e2, len2, r2b, f2⟩ := setNext_ok (σ := State T) (some s.heap.length) r1b
        have r2nw : h2.read s.heap.length = some ⟨v, none, some b⟩ := by
          rw [f2 _ (Ne.symm hbnw)]; exact r1
        have hfr : ∀ d, d ≠ b → d ≠ s.heap.length → h2.read d = h0.read d := by
          intro d hdb2 hdnw; rw [f2 d hdb2, f1 d hdnw]
        have hl0 : ∀ d ∈ addrs l0, d ≠ b ∧ d ≠ s.heap.length := fun d hd =>
          ⟨fun e => hb_l0 (e ▸ hd), fun e => hfresh (List.mem_append.mpr (Or.inl (e ▸ hd)))⟩
        have htake : List.take i (l0 ++ [(b, z)]) = l0 ++ [(b, z)] :=
          List.take_of_length_le (by rw [hie, hsz])
        have hdrop : List.drop i (l0 ++ [(b, z)]) = [] :=
          List.drop_of_length_le (by rw [hie, hsz])
        rw [htake, hdrop, hlast]
        simp only [e1, bind_ok, e2]
        refine ⟨_, rfl, ⟨?_, ?_, ?_, ?_⟩, by simp; omega, ?_⟩
        · refine Seg.snoc.mpr ⟨Seg.snoc.mpr ⟨?_, _, r2b, hdb, rfl⟩, _, r2nw, rfl, rfl⟩
          refine Seg.frame_seg hs0 (fun d hd n hn => ⟨n, ?_, rfl, rfl⟩)
          rw [hfr d (hl0 d hd).1 (hl0 d hd).2]; exact hn
        · refine Back.append_back.mpr ⟨?_, ?_⟩
          · refine Back.frame_back hb0 (fun d hd n hn => ?_)
            rw [addrs_append] at hd
            rcases List.mem_append.mp hd with hd | hd
            · refine ⟨n, ?_, rfl⟩
              rw [hfr d (hl0 d hd).1 (hl0 d hd).2]; exact hn
            · have hdb2 : d = b := by simpa [addrs] using hd
              subst hdb2
              rw [hrb] at hn
              have : nb = n := by simpa using hn
              subst this
              exact ⟨_, r2b, rfl⟩
          · rw [prevOf_snoc]
            exact ⟨⟨_, r2nw, rfl⟩, trivial⟩
        · show some s.heap.length = _
          simp [addrs]
        · show s.size_ + 1 = _
          rw [hsz]; simp
        · intro d hd hdnw
          show h2.read d = _
          rw [addrs_append, addrs_cons] at hd
          rw [hfr d (fun e => hd (by simp [e])) hdnw, f0 d hdnw]
    · -- in front of an inner node
      simp only [if_neg hie]
      have hilt : i < ns.length := by rw [← hsz]; omega
      have hsplit : ns = ns.take i ++ ns[i] :: ns.drop (i + 1) := by
        rw [List.getElem_cons_drop, List.take_append_drop]
      have hdropi : ns.drop i = ns[i] :: ns.drop (i + 1) := (List.getElem_cons_drop _ _ hilt).symm
      obtain ⟨l1, hl1⟩ : ∃ l1, l1 = ns.take i := ⟨_, rfl⟩
      obtain ⟨l2, hl2⟩ : ∃ l2, l2 = ns.drop (i + 1) := ⟨_, rfl⟩
      obtain ⟨⟨c, y⟩, hcy⟩ : ∃ cy, cy = ns[i] := ⟨_, rfl⟩
      rw [← hl1, ← hl2, ← hcy] at hsplit
      rw [← hl2, ← hcy] at hdropi
      rw [hdropi, ← hl1]
      have hl1len : l1.length = i := by rw [hl1, List.length_take]; omega
      have hl1ne : l1 ≠ [] := by
        intro e; rw [e] at hl1len; exact h0i hl1len.symm
      obtain ⟨b, hpb⟩ : ∃ b, prevOf none l1 = some b := by
        rcases eq_nil_or_snoc l1 with e | ⟨l0, b, z, e⟩
        · exact absurd e hl1ne
        · exact ⟨b, by rw [e, prevOf_snoc]⟩
      rw [hsplit] at hf0 hb0 hfresh
      obtain ⟨h1, h2, h3, h4, nc, e1, e2, hprev, e3, e4, e5, _, e6, hf4, hb4, len4, fr4⟩ :=
        splice_before (σ := State T) hf0 hb0 r0 hfresh
      obtain ⟨m, hs1, hs2⟩ := Seg.append_seg.mp hf0
      have hm : m = some c := hs2.1
      subst hm
      have hadv : (advance h0 i s.first : Except (Fault (State T)) Ptr) = .ok (some c) := by
        rw [← hl1len]; exact advance_seg hs1
      rw [hpb] at e3 hprev
      simp only [hadv, bind_ok, e1, e2, hprev, e3, e4, e5 b hpb, e6]
      refine ⟨_, rfl, ⟨?_, hb4, ?_, ?_⟩, by simp; omega, ?_⟩
      · have hh : headPtr l1 (some s.heap.length) = s.first := by
          rw [headPtr_of_ne_nil hl1ne (some s.heap.length) (some c)]; exact hs1.head_eq.symm
        rw [hh] at hf4
        exact hf4
      · show s.last = _
        rw [getLast_addrs_insert, ← hsplit]; exact hwf.last
      · show s.size_ + 1 = _
        rw [hsz]
        conv_lhs => rw [hsplit]
        simp only [List.length_append, List.length_cons]
        omega
      · intro d hd hdnw
        show h4.read d = _
        rw [hsplit] at hd
        rw [fr4 d hd hdnw, f0 d hdnw]

theorem split_at_index (ns : List (Nat × T)) (i : Nat) (hi : i < ns.length) :
    ∃ l1 c y l2, ns = l1 ++ (c, y) :: l2 ∧ l1.length = i ∧ l1 = ns.take i ∧
      l2 = ns.drop (i + 1) ∧ ns[i]? = some (c, y) := by
  refine ⟨ns.take i, ns[i].1, ns[i].2, ns.drop (i + 1), ?_, ?_, rfl, rfl, ?_⟩
  · rw [Prod.mk.eta, List.getElem_cons_drop, List.take_append_drop]
  · rw [List.length_take]; omega
  · rw [Prod.mk.eta]; exact List.getElem?_eq_getElem hi

theorem prevOf_none_eq_getLast (l : List (Nat × T)) : prevOf none l = (addrs l).getLast? := by
  rcases eq_nil_or_snoc l with h | ⟨l1, b, z, h⟩
  · subst h; rfl
  · subst h; simp [addrs]

/-- The member `operator[]` on a well-formed sequence returns the value at the
index. -/
theorem subscript_spec (j : Nat) (s : State T) (ns : List (Nat × T)) (hwf : WF s ns) (x : T)
    (hx : (vals ns)[j]? = some x) : subscript j s = .ok x := by
  have hj : j < ns.length := by
    have := (List.getElem?_eq_some.mp hx).1
    simpa [vals] using this
  obtain ⟨l1, c, y, l2, hsplit, hl1len, _, _, hget⟩ := split_at_index ns j hj
  have hxy : y = x := by
    simp only [vals, List.getElem?_map, hget, Option.map_some'] at hx
    simpa using hx
  subst hxy
  have hf := hwf.fwd
  rw [hsplit] at hf
  obtain ⟨m, hs1, hs2⟩ := Seg.append_seg.mp hf
  obtain ⟨hm, nc, hrc, hdc, _⟩ := hs2
  subst hm
  have hadv : (advance s.heap j s.first : Except (Fault (State T)) Ptr) = .ok (some c) := by
    rw [← hl1len]; exact advance_seg hs1
  simp only [subscript, if_neg (Nat.not_le.mpr (hwf.size ▸ hj)), hadv, bind_ok, load_ok hrc, hdc]

/-- The first half of `remove`: the predecessor of the removed node, if there
is one, is linked to its successor `q`; otherwise `first` becomes `q`. -/
theorem unlink_prev {h : Heap T} {first : Ptr} {l1 : List (Nat × T)} {c : Nat} (q : Ptr)
    (hs1 : Seg h first l1 (some c)) (hnd : (addrs l1).Nodup) :
    ∃ h1 first1,
      (∀ b, prevOf none l1 = some b →
        (setNext h (some b) q : Except (Fault σ) _) = .ok h1 ∧ first1 = first) ∧
      (prevOf none l1 = none → h1 = h ∧ first1 = q) ∧
      Seg h1 first1 l1 q ∧ h1.length = h.length ∧
      (∀ d, d ∉ addrs l1 → h1.read d = h.read d) ∧
      (∀ d n, h.read d = some n → ∃ n2, h1.read d = some n2 ∧ n2.prev = n.prev) := by
  rcases eq_nil_or_snoc l1 with e | ⟨l0, b, z, e⟩
  · subst e
    refine ⟨h, q, ?_, fun _ => ⟨rfl, rfl⟩, rfl, rfl, fun _ _ => rfl, fun d n hn => ⟨n, hn, rfl⟩⟩
    intro b hb; simp at hb
  · subst e
    obtain ⟨hs0, nb, hrb, hdb, hnb⟩ := Seg.snoc.mp hs1
    rw [addrs_append, addrs_cons] at hnd
    have hb_l0 : b ∉ addrs l0 := fun hmem => (List.nodup_append.mp hnd).2.2 hmem (by simp)
    obtain ⟨h1, e1, len1, r1b, f1⟩ := setNext_ok (σ := σ) q hrb
    refine ⟨h1, first, ?_, ?_, ?_, len1, ?_, ?_⟩
    · intro b2 hb2
      rw [prevOf_snoc] at hb2
      have : b = b2 := by simpa using hb2
      subst this; exact ⟨e1, rfl⟩
    · intro hb2; rw [prevOf_snoc] at hb2; exact absurd hb2 (by simp)
    · refine Seg.snoc.mpr ⟨?_, _, r1b, hdb, rfl⟩
      refine Seg.frame_seg hs0 (fun d hd n hn => ⟨n, ?_, rfl, rfl⟩)
      rw [f1 d (fun e => hb_l0 (e ▸ hd))]; exact hn
    · intro d hd
      refine f1 d ?_
      intro e; apply hd; rw [addrs_append, addrs_cons]; simp [e]
    · intro d n hn
      by_cases hdb2 : d = b
      · subst hdb2
        rw [hrb] at hn
        have : nb = n := by simpa using hn
        subst this
        exact ⟨_, r1b, rfl⟩
      · exact ⟨n, by rw [f1 d hdb2]; exact hn, rfl⟩

/-- The second half of `remove`: the successor of the removed node, if there
is one, is linked back to its predecessor `p`; otherwise `last` becomes `p`. -/
theorem unlink_next {h : Heap T} {q : Ptr} {l2 : List (Nat × T)} (p last : Ptr) (r : Ptr)
    (hf2 : Fwd h q l2) (hb2 : Back h r l2) :
    ∃ h2 last2,
      (∀ d, q = some d →
        (setPrev h (some d) p : Except (Fault σ) _) = .ok h2 ∧ last2 = last) ∧
      (q = none → h2 = h ∧ last2 = p) ∧
      Back h2 p l2 ∧ h2.length = h.length ∧
      (∀ d, d ∉ addrs l2 → h2.read d = h.read d) ∧
      (∀ d n, h.read d = some n → ∃ n2, h2.read d = some n2 ∧ n2.next = n.next ∧
        n2.data = n.data) ∧
      (l2 = [] → last2 = p) ∧ (l2 ≠ [] → last2 = last) := by
  have hnd := hf2.nodup
  cases l2 with
  | nil =>
    have hq : q = none := hf2
    subst hq
    refine ⟨h, p, ?_, fun _ => ⟨rfl, rfl⟩, trivial, rfl, fun _ _ => rfl,
      fun d n hn => ⟨n, hn, rfl, rfl⟩, fun _ => rfl, fun hne => absurd rfl hne⟩
    intro d hd; simp at hd
  | cons dw l2 =>
    obtain ⟨d, w⟩ := dw
    obtain ⟨hq, nd, hrd, hdd, hrest⟩ := hf2
    subst hq
    obtain ⟨_, hbrest⟩ := hb2
    rw [addrs_cons] at hnd
    have hd_l2 : d ∉ addrs l2 := (List.nodup_cons.mp hnd).1
    obtain ⟨h2, e2, len2, r2d, f2⟩ := setPrev_ok (σ := σ) p hrd
    refine ⟨h2, last, ?_, ?_, ?_, len2, ?_, ?_, fun e => by simp at e, fun _ => rfl⟩
    · intro d2 hd2
      have : d = d2 := by simpa using hd2
      subst this; exact ⟨e2, rfl⟩
    · intro hd2; exact absurd hd2 (by simp)
    · refine ⟨⟨_, r2d, rfl⟩, ?_⟩
      refine Back.frame_back hbrest (fun a ha n hn => ⟨n, ?_, rfl⟩)
      rw [f2 a (fun e => hd_l2 (e ▸ ha))]; exact hn
    · intro a ha
      refine f2 a ?_
      intro e; apply ha; rw [addrs_cons]; simp [e]
    · intro a n hn
      by_cases had : a = d
      · subst had
        rw [hrd] at hn
        have : nd = n := by simpa using hn
        subst this
        exact ⟨_, r2d, rfl, rfl⟩
      · exact ⟨n, by rw [f2 a had]; exact hn, rfl, rfl⟩

/-- The member `remove` on a well-formed sequence with `index < size()`: it
returns, the node at `index` is deleted, and the sequence is well-formed with
the remaining nodes in their prior order. -/
theorem remove_spec (i : Nat) (s : State T) (ns : List (Nat × T)) (hwf : WF s ns)
    (hi : i < s.size_) :
    ∃ s2, remove i s = .ok s2 ∧ WF s2 (ns.eraseIdx i) ∧
      s2.heap.length = s.heap.length ∧
      (∀ c, (addrs ns)[i]? = some c → s2.heap.read c = none) ∧
      ∀ d, d ∉ addrs ns → s2.heap.read d = s.heap.read d := by
  have hsz := hwf.size
  have hilt : i < ns.length := hsz ▸ hi
  obtain ⟨l1, c, y, l2, hsplit, hl1len, hl1, hl2, hget⟩ := split_at_index ns i hilt
  have herase : ns.eraseIdx i = l1 ++ l2 := by
    rw [List.eraseIdx_eq_take_drop_succ, ← hl1, ← hl2]
  have hf := hwf.fwd
  have hb := hwf.back
  have hnd := hf.nodup
  rw [hsplit] at hf hb hnd
  obtain ⟨m, hs1, hs2⟩ := Seg.append_seg.mp hf
  obtain ⟨hm, nc, hrc, hdc, hrest⟩ := hs2
  subst hm
  obtain ⟨hb1, hb2⟩ := Back.append_back.mp hb
  obtain ⟨⟨nc2, hrc2, hprev⟩, hb3⟩ := hb2
  rw [hrc] at hrc2
  have hnc : nc = nc2 := by simpa using hrc2
  subst hnc
  rw [addrs_append, addrs_cons] at hnd
  have hndp := List.nodup_append.mp hnd
  have hc_l1 : c ∉ addrs l1 := fun hmem => hndp.2.2 hmem (by simp)
  have hc_l2 : c ∉ addrs l2 := (List.nodup_cons.mp hndp.2.1).1
  have hdisj : ∀ d, d ∈ addrs l1 → d ∉ addrs l2 := fun d h1 h2 =>
    hndp.2.2 h1 (List.mem_cons.mpr (Or.inr h2))
  have hadv : (advance s.heap i s.first : Except (Fault (State T)) Ptr) = .ok (some c) := by
    rw [← hl1len]; exact advance_seg hs1
  obtain ⟨h1, first1, eA, eA0, hs1n, len1, frA, prA⟩ :=
    unlink_prev (σ := State T) nc.next hs1 hndp.1
  have r1c : h1.read c = some nc := by rw [frA c hc_l1]; exact hrc
  have hf1 : Fwd h1 nc.next l2 :=
    Fwd.congr_fwd hrest (fun d hd => frA d (fun hd1 => hdisj d hd1 hd))
  have hb1n : Back h1 (some c) l2 := Back.frame_back hb3 (fun d _ n hn => prA d n hn)
  obtain ⟨h2, last2, eB, eB0, hb2n, len2, frB, nxB, hlastnil, hlastcons⟩ :=
    unlink_next (σ := State T) (prevOf none l1) s.last (some c) hf1 hb1n
  have r2c : h2.read c = some nc := by rw [frB c hc_l2]; exact r1c
  obtain ⟨h3, e3, len3, r3c, f3⟩ := free_ok (σ := State T) r2c
  have hrun : remove i s = .ok ⟨h3, first1, last2, s.size_ - 1⟩ := by
    simp only [remove, if_neg (Nat.not_le.mpr hi), hadv, bind_ok, load_ok hrc, hprev]
    cases hp : prevOf none l1 with
    | none =>
      obtain ⟨rfl, rfl⟩ := eA0 hp
      rw [hp] at eB eB0
      simp only [pure_eq_ok, bind_ok, load_ok r1c, hprev, hp]
      cases hq : nc.next with
      | none =>
        obtain ⟨rfl, rfl⟩ := eB0 hq
        simp only [pure_eq_ok, bind_ok, e3]
      | some d =>
        obtain ⟨e2, rfl⟩ := eB d hq
        simp only [e2, pure_eq_ok, bind_ok, e3]
    | some b =>
      obtain ⟨e1, rfl⟩ := eA b hp
      rw [hp] at eB eB0
      simp only [e1, pure_eq_ok, bind_ok, load_ok r1c, hprev, hp]
      cases hq : nc.next with
      | none =>
        obtain ⟨rfl, rfl⟩ := eB0 hq
        simp only [pure_eq_ok, bind_ok, e3]
      | some d =>
        obtain ⟨e2, rfl⟩ := eB d hq
        simp only [e2, pure_eq_ok, bind_ok, e3]
  have hl1_3 : ∀ d ∈ addrs l1, h3.read d = h2.read d := fun d hd =>
    f3 d (fun e => hc_l1 (e ▸ hd))
  have hl2_3 : ∀ d ∈ addrs l2, h3.read d = h2.read d := fun d hd =>
    f3 d (fun e => hc_l2 (e ▸ hd))
  refine ⟨_, hrun, ⟨?_, ?_, ?_, ?_⟩, by simp; omega, ?_, ?_⟩
  · rw [herase]
    refine Seg.append_seg.mpr ⟨nc.next, ?_, ?_⟩
    · refine Seg.frame_seg hs1n (fun d hd n hn => ?_)
      obtain ⟨n2, hn2, hnx, hdt⟩ := nxB d n hn
      exact ⟨n2, by rw [hl1_3 d hd]; exact hn2, hdt, hnx⟩
    · refine Seg.frame_seg hf1 (fun d hd n hn => ?_)
      obtain ⟨n2, hn2, hnx, hdt⟩ := nxB d n hn
      exact ⟨n2, by rw [hl2_3 d hd]; exact hn2, hdt, hnx⟩
  · rw [herase]
    refine Back.append_back.mpr ⟨?_, ?_⟩
    · refine Back.frame_back hb1 (fun d hd n hn => ?_)
      obtain ⟨n2, hn2, hpv⟩ := prA d n hn
      refine ⟨n2, ?_, hpv⟩
      rw [hl1_3 d hd, frB d (hdisj d hd)]; exact hn2
    · exact hb2n.congr_back hl2_3
  · show last2 = _
    rw [herase]
    by_cases hl2e : l2 = []
    · rw [hlastnil hl2e, hl2e, List.append_nil]
      exact prevOf_none_eq_getLast l1
    · rw [hlastcons hl2e, hwf.last]
      conv_lhs => rw [hsplit]
      cases l2 with
      | nil => exact absurd rfl hl2e
      | cons dw l2 =>
        simp [addrs, List.getLast?_append, List.getLast?_cons_cons]
  · show s.size_ - 1 = _
    rw [hsz, List.length_eraseIdx, if_pos hilt]
  · intro c2 hc2
    have : c2 = c := by
      rw [hsplit, addrs_append, addrs_cons,
        List.getElem?_append_right (by simp [addrs, hl1len])] at hc2
      simp [addrs, hl1len] at hc2
      exact hc2.symm
    subst this
    exact r3c
  · intro d hd
    show h3.read d = _
    rw [hsplit, addrs_append, addrs_cons] at hd
    simp only [List.mem_append, List.mem_cons, not_or] at hd
    rw [f3 d hd.2.1, frB d hd.2.2, frA d hd.1]

/-! ## The members `push_back` and `insert_if` -/

theorem prevOf_eq_none {l : List (Nat × T)} (h : prevOf none l = none) : l = [] := by
  rcases eq_nil_or_snoc l with e | ⟨l0, b, z, e⟩
  · exact e
  · rw [e, prevOf_snoc] at h; exact absurd h (by simp)

theorem prevOf_eq_some {l : List (Nat × T)} {b : Nat} (h : prevOf none l = some b) : l ≠ [] := by
  intro e; rw [e] at h; simp at h

/-- The member `push_back` on a well-formed sequence: it returns and the
forward chain gains the fresh node at its end; when the sequence was not empty
the result is well-formed. -/
theorem push_back_spec (v : T) (s : State T) (ns : List (Nat × T)) (hwf : WF s ns) :
    ∃ s2, push_back v s = .ok s2 ∧
      Fwd s2.heap s2.first (ns ++ [(s.heap.length, v)]) ∧
      s2.size_ = s.size_ + 1 ∧
      s2.heap.length = s.heap.length + 1 ∧
      (ns ≠ [] → WF s2 (ns ++ [(s.heap.length, v)])) ∧
      ∀ d, d ∉ addrs ns → d ≠ s.heap.length → s2.heap.read d = s.heap.read d := by
  obtain ⟨h0, ea, len0, r0, f0⟩ := alloc_ok s.heap v
  have hfresh : s.heap.length ∉ addrs ns := hwf.fwd.fresh
  have hne : ∀ d ∈ addrs ns, d ≠ s.heap.length := fun d hd e => hfresh (e ▸ hd)
  have hf0 : Fwd h0 s.first ns := hwf.fwd.congr_fwd (fun d hd => f0 d (hne d hd))
  have hb0 : Back h0 none ns := hwf.back.congr_back (fun d hd => f0 d (hne d hd))
  have hsz := hwf.size
  rcases eq_nil_or_snoc ns with e | ⟨l0, b, z, e⟩
  · subst e
    have hfirst : s.first = none := hwf.fwd
    simp only [push_back, hfirst, ea]
    refine ⟨_, rfl, ⟨rfl, _, r0, rfl, rfl⟩, rfl, len0, fun h => absurd rfl h, ?_⟩
    intro d _ hd
    exact f0 d hd
  · subst e
    have hlast : s.last = some b := by rw [hwf.last]; simp [addrs]
    obtain ⟨a, hfirst⟩ : ∃ a, s.first = some a := by
      have := hwf.first_eq
      cases l0 with
      | nil => exact ⟨_, this⟩
      | cons ax l0 => exact ⟨_, this⟩
    obtain ⟨hs0, nb, hrb, hdb, hnb⟩ := Seg.snoc.mp hf0
    have hnd := hwf.fwd.nodup
    rw [addrs_append, addrs_cons] at hnd hfresh
    have hb_l0 : b ∉ addrs l0 := fun hmem => (List.nodup_append.mp hnd).2.2 hmem (by simp)
    have hbnw : b ≠ s.heap.length := fun e => hfresh (by simp [e])
    obtain ⟨h2, e2, len2, r2b, f2⟩ := setNext_ok (σ := State T) (some s.heap.length) hrb
    have r2nw : h2.read s.heap.length = some ⟨v, none, none⟩ := by
      rw [f2 _ (Ne.symm hbnw)]; exact r0
    obtain ⟨h3, e3, len3, r3nw, f3⟩ := setPrev_ok (σ := State T) (some b) r2nw
    have r3b : h3.read b = some { nb with next := some s.heap.length } := by
      rw [f3 b hbnw]; exact r2b
    have hfr : ∀ d, d ≠ b → d ≠ s.heap.length → h3.read d = h0.read d := by
      intro d hdb2 hdnw; rw [f3 d hdnw, f2 d hdb2]
    have hl0 : ∀ d ∈ addrs l0, d ≠ b ∧ d ≠ s.heap.length := fun d hd =>
      ⟨fun e => hb_l0 (e ▸ hd), fun e => hfresh (List.mem_append.mpr (Or.inl (e ▸ hd)))⟩
    have hrun : push_back v s = .ok ⟨h3, s.first, some s.heap.length, s.size_ + 1⟩ := by
      simp only [push_back]
      rw [hfirst]
      simp only [ea, hlast, e2, bind_ok, load_ok r2b, e3, load_ok r3b]
    have hfwd : Fwd h3 s.first (l0 ++ [(b, z)] ++ [(s.heap.length, v)]) := by
      refine Seg.snoc.mpr ⟨Seg.snoc.mpr ⟨?_, _, r3b, hdb, rfl⟩, _, r3nw, rfl, rfl⟩
      refine Seg.frame_seg hs0 (fun d hd n hn => ⟨n, ?_, rfl, rfl⟩)
      rw [hfr d (hl0 d hd).1 (hl0 d hd).2]; exact hn
    refine ⟨_, hrun, hfwd, rfl, by simp; omega, fun _ => ⟨hfwd, ?_, ?_, ?_⟩, ?_⟩
    · refine Back.append_back.mpr ⟨?_, ?_⟩
      · refine Back.frame_back hb0 (fun d hd n hn => ?_)
        rw [addrs_append] at hd
        rcases List.mem_append.mp hd with hd | hd
        · refine ⟨n, ?_, rfl⟩
          rw [hfr d (hl0 d hd).1 (hl0 d hd).2]; exact hn
        · have hdb2 : d = b := by simpa [addrs] using hd
          subst hdb2
          rw [hrb] at hn
          have : nb = n := by simpa using hn
          subst this
          exact ⟨_, r3b, rfl⟩
      · rw [prevOf_snoc]
        exact ⟨⟨_, r3nw, rfl⟩, trivial⟩
    · show some s.heap.length = _
      simp [addrs]
    · show s.size_ + 1 = _
      rw [hsz]; simp
    · intro d hd hdnw
      show h3.read d = _
      rw [addrs_append, addrs_cons] at hd
      rw [hfr d (fun e => hd (by simp [e])) hdnw, f0 d hdnw]

theorem firstFit_cons (compare : T → T → Bool) (x e : T) (xs : List T) :
    firstFit compare x (e :: xs) =
      if compare x e = true then 0 else firstFit compare x xs + 1 := by
  by_cases h : compare x e = true
  · simp [firstFit, List.takeWhile, h]
  · simp [firstFit, List.takeWhile, h]

theorem firstFit_le (compare : T → T → Bool) (x : T) (xs : List T) :
    firstFit compare x xs ≤ xs.length := by
  induction xs with
  | nil => simp [firstFit]
  | cons e xs ih =>
    rw [firstFit_cons]
    split
    · omega
    · simp only [List.length_cons]; omega

/-- The loop of `insert_if` after it has passed the nodes `l1`, with the nodes
`l2` still ahead: it returns the first-fit index, and the new node stands in
front of the first node of `l2` that the new element goes before (behind all
of `l2` when there is none). -/
theorem insert_if_loop_spec (x : T) (compare : T → T → Bool) (s : State T)
    (ns : List (Nat × T)) (hwf : WF s ns) :
    ∀ (fuel : Nat) (l1 l2 : List (Nat × T)) (cur : Ptr),
      ns = l1 ++ l2 → Seg s.heap s.first l1 cur → Fwd s.heap cur l2 → l2.length < fuel →
      ∃ s2, insert_if_loop x compare s fuel l1.length cur =
          .ok (l1.length + firstFit compare x (vals l2), s2) ∧
        Fwd s2.heap s2.first (l1 ++ (l2.take (firstFit compare x (vals l2)) ++
            (s.heap.length, x) :: l2.drop (firstFit compare x (vals l2)))) ∧
        (ns ≠ [] → WF s2 (l1 ++ (l2.take (firstFit compare x (vals l2)) ++
            (s.heap.length, x) :: l2.drop (firstFit compare x (vals l2))))) ∧
        s2.size_ = s.size_ + 1 ∧
        s2.heap.length = s.heap.length + 1 ∧
        ∀ d, d ∉ addrs ns → d ≠ s.heap.length → s2.heap.read d = s.heap.read d := by
  intro fuel
  induction fuel with
  | zero => intro l1 l2 cur _ _ _ hlt; omega
  | succ fuel ih =>
    intro l1 l2 cur hsplit hs1 hs2 hfuel
    have hsz := hwf.size
    cases l2 with
    | nil =>
      -- the end of the chain: append
      have hcur : cur = none := hs2
      subst hcur
      have hns : ns = l1 := by rw [hsplit, List.append_nil]
      subst hns
      obtain ⟨s2, e, hf2, hsz2, hlen2, hwf2, fr2⟩ := push_back_spec x s ns hwf
      refine ⟨s2, ?_, ?_, ?_, hsz2, hlen2, fr2⟩
      · simp only [insert_if_loop, e, bind_ok, hsz2, vals, List.map_nil, firstFit,
          List.takeWhile_nil, List.length_nil, Nat.add_zero, Nat.add_sub_cancel, hsz]
      · simpa [firstFit, vals] using hf2
      · intro hne; simpa [firstFit, vals] using hwf2 hne
    | cons cy l2 =>
      obtain ⟨c, y⟩ := cy
      have hs2b := hs2
      obtain ⟨hcur, nc, hrc, hdc, hrest⟩ := hs2
      subst hcur
      by_cases hc : compare x y = true
      · -- the new element goes before `c`: splice
        have hk : firstFit compare x (vals ((c, y) :: l2)) = 0 := by
          simp only [vals, List.map_cons, firstFit_cons, hc, if_true]
        rw [hk]
        simp only [List.take_zero, List.drop_zero, List.nil_append, Nat.add_zero]
        obtain ⟨h0, ea, len0, r0, f0⟩ := alloc_ok s.heap x
        have hfresh : s.heap.length ∉ addrs ns := hwf.fwd.fresh
        have hne : ∀ d ∈ addrs ns, d ≠ s.heap.length := fun d hd e => hfresh (e ▸ hd)
        have hf0 : Fwd h0 s.first ns := hwf.fwd.congr_fwd (fun d hd => f0 d (hne d hd))
        have hb0 : Back h0 none ns := hwf.back.congr_back (fun d hd => f0 d (hne d hd))
        rw [hsplit] at hf0 hb0 hfresh
        obtain ⟨h1, h2, h3, h4, nc2, e1, e2, hprev, e3, e4, e5, e50, e6, hf4, hb4, len4, fr4⟩ :=
          splice_before (σ := State T) hf0 hb0 r0 hfresh
        have hlast : s.last = (addrs (l1 ++ (s.heap.length, x) :: (c, y) :: l2)).getLast? := by
          rw [getLast_addrs_insert, ← hsplit]; exact hwf.last
        have hsize : s.size_ + 1 = (l1 ++ (s.heap.length, x) :: (c, y) :: l2).length := by
          rw [hsz, hsplit]
          simp only [List.length_append, List.length_cons]
          omega
        have hfrm : ∀ d, d ∉ addrs ns → d ≠ s.heap.length → h4.read d = s.heap.read d := by
          intro d hd hdnw
          rw [hsplit] at hd
          rw [fr4 d hd hdnw, f0 d hdnw]
        cases hp : prevOf none l1 with
        | none =>
          have hl1 : l1 = [] := prevOf_eq_none hp
          subst hl1
          have h32 : h3 = h2 := e50 hp
          subst h32
          rw [hp] at e3 hprev
          refine ⟨⟨h4, some s.heap.length, s.last, s.size_ + 1⟩, ?_, hf4, fun _ =>
            ⟨hf4, hb4, hlast, hsize⟩, rfl, by simp; omega, hfrm⟩
          simp only [insert_if_loop, load_ok hrc, bind_ok, hdc, hc, if_true, ea, e1, e2, hprev,
            e3, e4, pure_eq_ok, e6, List.length_nil]
        | some b =>
          have hl1 : l1 ≠ [] := prevOf_eq_some hp
          rw [hp] at e3 hprev
          have hh : headPtr l1 (some s.heap.length) = s.first := by
            rw [headPtr_of_ne_nil hl1 (some s.heap.length) (some c)]; exact hs1.head_eq.symm
          rw [hh] at hf4
          refine ⟨⟨h4, s.first, s.last, s.size_ + 1⟩, ?_, hf4, fun _ =>
            ⟨hf4, hb4, hlast, hsize⟩, rfl, by simp; omega, hfrm⟩
          simp only [insert_if_loop, load_ok hrc, bind_ok, hdc, hc, if_true, ea, e1, e2, hprev,
            e3, e4, e5 b hp, pure_eq_ok, e6]
      · -- the new element does not go before `c`: step
        have hk : firstFit compare x (vals ((c, y) :: l2)) = firstFit compare x (vals l2) + 1 := by
          simp only [vals, List.map_cons, firstFit_cons, if_neg hc]
        rw [hk]
        have hs1n : Seg s.heap s.first (l1 ++ [(c, y)]) nc.next :=
          Seg.snoc.mpr ⟨hs1, nc, hrc, hdc, rfl⟩
        obtain ⟨s2, e, hf2, hwf2, hsz2, hlen2, fr2⟩ :=
          ih (l1 ++ [(c, y)]) l2 nc.next (by rw [hsplit]; simp) hs1n hrest
            (by simp only [List.length_cons] at hfuel; omega)
        have hidx : (l1 ++ [(c, y)]).length = l1.length + 1 := by simp
        rw [hidx] at e
        have hlist : l1 ++ [(c, y)] ++ (List.take (firstFit compare x (vals l2)) l2 ++
            (s.heap.length, x) :: List.drop (firstFit compare x (vals l2)) l2) =
            l1 ++ (List.take (firstFit compare x (vals l2) + 1) ((c, y) :: l2) ++
            (s.heap.length, x) :: List.drop (firstFit compare x (vals l2) + 1) ((c, y) :: l2)) := by
          simp
        rw [hlist] at hf2 hwf2
        refine ⟨s2, ?_, hf2, hwf2, hsz2, hlen2, fr2⟩
        simp only [insert_if_loop, load_ok hrc, bind_ok, hdc, hc]
        rw [e]
        simp only [Bool.false_eq_true, if_false, Nat.add_assoc, Nat.add_comm 1]

/-- The member `insert_if` on a well-formed sequence: it returns the first-fit
index `k`, and the fresh node stands at position `k` of the forward chain. -/
theorem insert_if_spec (x : T) (compare : T → T → Bool) (s : State T) (ns : List (Nat × T))
    (hwf : WF s ns) :
    ∃ s2, insert_if x compare s = .ok (firstFit compare x (vals ns), s2) ∧
      Fwd s2.heap s2.first (ns.take (firstFit compare x (vals ns)) ++
          (s.heap.length, x) :: ns.drop (firstFit compare x (vals ns))) ∧
      (ns ≠ [] → WF s2 (ns.take (firstFit compare x (vals ns)) ++
          (s.heap.length, x) :: ns.drop (firstFit compare x (vals ns)))) ∧
      s2.size_ = s.size_ + 1 ∧
      s2.heap.length = s.heap.length + 1 ∧
      ∀ d, d ∉ addrs ns → d ≠ s.heap.length → s2.heap.read d = s.heap.read d := by
  obtain ⟨s2, e, hf2, hwf2, hsz2, hlen2, fr2⟩ :=
    insert_if_loop_spec x compare s ns hwf (s.heap.length + 1) [] ns s.first rfl rfl hwf.fwd
      (Nat.lt_succ_of_le hwf.fwd.length_le)
  refine ⟨s2, ?_, hf2, hwf2, hsz2, hlen2, fr2⟩
  simpa [insert_if] using e

/-! ## First-fit positions and sortedness -/

theorem firstFit_prefix (compare : T → T → Bool) (x : T) (xs : List T) :
    ∀ e ∈ xs.take (firstFit compare x xs), compare x e = false := by
  induction xs with
  | nil => intro e he; simp at he
  | cons a xs ih =>
    intro e he
    rw [firstFit_cons] at he
    by_cases h : compare x a = true
    · simp [h] at he
    · rw [if_neg h, List.take_succ_cons] at he
      rcases List.mem_cons.mp he with rfl | he
      · simpa using h
      · exact ih e he

theorem firstFit_hit (compare : T → T → Bool) (x : T) (xs : List T) :
    ∀ e, xs[firstFit compare x xs]? = some e → compare x e = true := by
  induction xs with
  | nil => intro e he; simp at he
  | cons a xs ih =>
    intro e he
    rw [firstFit_cons] at he
    by_cases h : compare x a = true
    · rw [if_pos h] at he
      have : a = e := by simpa using he
      subst this; exact h
    · rw [if_neg h, List.getElem?_cons_succ] at he
      exact ih e he

theorem firstFit_none (compare : T → T → Bool) (x : T) (xs : List T)
    (hall : ∀ e ∈ xs, compare x e = false) : firstFit compare x xs = xs.length := by
  induction xs with
  | nil => simp [firstFit]
  | cons a xs ih =>
    rw [firstFit_cons, if_neg (by simp [hall a (by simp)]),
      ih (fun e he => hall e (List.mem_cons.mpr (Or.inr he)))]
    simp

/-- Placing `x` at its first-fit position keeps a list sorted, for any
asymmetric comparison. -/
theorem adj_insert_firstFit (compare : T → T → Bool)
    (hasym : ∀ a b, compare a b = true → compare b a = false) (x : T) :
    ∀ (xs : List T), Adj compare xs →
      Adj compare (xs.take (firstFit compare x xs) ++ x :: xs.drop (firstFit compare x xs)) := by
  intro xs
  induction xs with
  | nil => intro _; simp [firstFit, Adj]
  | cons a xs ih =>
    intro hs
    rw [firstFit_cons]
    by_cases h : compare x a = true
    · rw [if_pos h]
      simp only [List.take_zero, List.drop_zero, List.nil_append]
      exact ⟨hasym _ _ h, hs⟩
    · rw [if_neg h, List.take_succ_cons, List.drop_succ_cons, List.cons_append]
      refine Adj.cons_of_head compare (ih (hs.tail compare)) ?_
      intro c hc
      cases xs with
      | nil =>
        have : x = c := by simpa [firstFit] using hc
        subst this; simpa using h
      | cons b xs =>
        rw [firstFit_cons] at hc
        by_cases hb : compare x b = true
        · rw [if_pos hb] at hc
          have : x = c := by simpa using hc
          subst this; simpa using h
        · rw [if_neg hb, List.take_succ_cons] at hc
          have : b = c := by simpa using hc
          subst this; exact hs.1

theorem vals_insert (ns : List (Nat × T)) (k a : Nat) (x : T) :
    vals (ns.take k ++ (a, x) :: ns.drop k) = (vals ns).take k ++ x :: (vals ns).drop k := by
  simp [vals, List.map_take, List.map_drop]

/-! ## Calls that do not throw -/

theorem noRaise_ok {α : Type} (a : α) : NoRaise (Except.ok a : Except (Fault σ) α) := by
  intro s h; cases h

theorem noRaise_invalid {α : Type} :
    NoRaise (Except.error Fault.invalid_access : Except (Fault σ) α) := by
  intro s h; cases h

theorem noRaise_no_fuel {α : Type} :
    NoRaise (Except.error Fault.no_fuel : Except (Fault σ) α) := by
  intro s h; cases h

theorem noRaise_bind {α β : Type} {r : Except (Fault σ) α} {f : α → Except (Fault σ) β}
    (hr : NoRaise r) (hf : ∀ a, NoRaise (f a)) : NoRaise (r >>= f) := by
  cases r with
  | ok a => exact hf a
  | error e =>
    intro s h
    rw [bind_error] at h
    simp only [Except.error.injEq] at h
    subst h
    exact hr s rfl

theorem noRaise_load (h : Heap T) (p : Ptr) : NoRaise (load h p : Except (Fault σ) (Node T)) := by
  unfold load
  split
  · exact noRaise_invalid
  · split
    · exact noRaise_invalid
    · exact noRaise_ok _

theorem noRaise_setNext (h : Heap T) (p v : Ptr) :
    NoRaise (setNext h p v : Except (Fault σ) (Heap T)) := by
  unfold setNext
  split
  · exact noRaise_invalid
  · split
    · exact noRaise_invalid
    · exact noRaise_ok _

theorem noRaise_setPrev (h : Heap T) (p v : Ptr) :
    NoRaise (setPrev h p v : Except (Fault σ) (Heap T)) := by
  unfold setPrev
  split
  · exact noRaise_invalid
  · split
    · exact noRaise_invalid
    · exact noRaise_ok _

theorem noRaise_free (h : Heap T) (p : Ptr) :
    NoRaise (free h p : Except (Fault σ) (Heap T)) := by
  unfold free
  split
  · exact noRaise_ok _
  · split
    · exact noRaise_invalid
    · exact noRaise_ok _

theorem noRaise_advance (h : Heap T) :
    ∀ (i : Nat) (p : Ptr), NoRaise (advance h i p : Except (Fault σ) Ptr) := by
  intro i
  induction i with
  | zero => intro p; exact noRaise_ok _
  | succ i ih =>
    intro p
    simp only [advance]
    exact noRaise_bind (noRaise_load h p) (fun _ => ih _)

theorem noRaise_insert_body (v : T) (i : Nat) (s : State T) (hi : ¬ i > s.size_) :
    NoRaise (insert v i s) := by
  simp only [insert, if_neg hi, alloc]
  split
  · refine noRaise_bind (noRaise_setNext _ _ _) (fun _ => ?_)
    split
    · exact noRaise_bind (noRaise_setPrev _ _ _) (fun _ => noRaise_ok _)
    · exact noRaise_bind (noRaise_ok _) (fun _ => noRaise_ok _)
  · split
    · refine noRaise_bind (noRaise_setPrev _ _ _) (fun _ => ?_)
      split
      · exact noRaise_bind (noRaise_setNext _ _ _) (fun _ => noRaise_ok _)
      · exact noRaise_bind (noRaise_ok _) (fun _ => noRaise_ok _)
    · refine noRaise_bind (noRaise_advance _ _ _) (fun _ => ?_)
      refine noRaise_bind (noRaise_setNext _ _ _) (fun _ => ?_)
      refine noRaise_bind (noRaise_load _ _) (fun _ => ?_)
      refine noRaise_bind (noRaise_setPrev _ _ _) (fun _ => ?_)
      refine noRaise_bind (noRaise_load _ _) (fun _ => ?_)
      split
      · refine noRaise_bind (noRaise_setNext _ _ _) (fun _ => ?_)
        exact noRaise_bind (noRaise_setPrev _ _ _) (fun _ => noRaise_ok _)
      · refine noRaise_bind (noRaise_ok _) (fun _ => ?_)
        exact noRaise_bind (noRaise_setPrev _ _ _) (fun _ => noRaise_ok _)

theorem noRaise_remove_body (i : Nat) (s : State T) (hi : ¬ i ≥ s.size_) :
    NoRaise (remove i s) := by
  simp only [remove, if_neg hi]
  refine noRaise_bind (noRaise_advance _ _ _) (fun _ => ?_)
  refine noRaise_bind (noRaise_load _ _) (fun _ => ?_)
  repeat' first
    | exact noRaise_ok _
    | exact noRaise_setNext _ _ _
    | exact noRaise_setPrev _ _ _
    | exact noRaise_load _ _
    | exact noRaise_free _ _
    | refine noRaise_bind ?_ (fun _ => ?_)
    | split

theorem noRaise_subscript_body (i : Nat) (s : State T) (hi : ¬ i ≥ s.size_) :
    NoRaise (subscript i s) := by
  simp only [subscript, if_neg hi]
  refine noRaise_bind (noRaise_advance _ _ _) (fun _ => ?_)
  exact noRaise_bind (noRaise_load _ _) (fun _ => noRaise_ok _)

/-! ## Well-formed sequences with the same nodes -/

theorem node_eq_of_fields {n m : Node T} (hd : n.data = m.data) (hn : n.next = m.next)
    (hp : n.prev = m.prev) : n = m := by
  cases n; cases m; simp_all

/-- The cells of a linked chain are determined by the chain. -/
theorem chain_reads_eq {h h2 : Heap T} {ns : List (Nat × T)} :
    ∀ {p q r : Ptr}, Seg h p ns q → Back h r ns → Seg h2 p ns q → Back h2 r ns →
      ∀ d ∈ addrs ns, h2.read d = h.read d := by
  induction ns with
  | nil => intro p q r _ _ _ _ d hd; simp [addrs] at hd
  | cons ax ns ih =>
    obtain ⟨a, x⟩ := ax
    intro p q r hs hb hs2 hb2 d hd
    obtain ⟨_, n, hr, hdt, hrest⟩ := hs
    obtain ⟨⟨n', hr', hpv⟩, hbrest⟩ := hb
    obtain ⟨_, m, hm, hdt2, hrest2⟩ := hs2
    obtain ⟨⟨m', hm', hpv2⟩, hbrest2⟩ := hb2
    rw [hr] at hr'
    rw [hm] at hm'
    have e1 : n = n' := by simpa using hr'
    have e2 : m = m' := by simpa using hm'
    subst e1 e2
    have hnext : m.next = n.next := by rw [hrest.head_eq, hrest2.head_eq]
    have hmn : m = n := node_eq_of_fields (hdt2.trans hdt.symm) hnext (hpv2.trans hpv.symm)
    subst hmn
    rw [addrs_cons] at hd
    rcases List.mem_cons.mp hd with rfl | hd
    · rw [hm, hr]
    · exact ih hrest hbrest hrest2 hbrest2 d hd

theorem eraseIdx_insert (a : Nat × T) :
    ∀ (ns : List (Nat × T)) (i : Nat), i ≤ ns.length →
      (ns.take i ++ a :: ns.drop i).eraseIdx i = ns := by
  intro ns
  induction ns with
  | nil =>
    intro i hi
    have : i = 0 := by simpa using hi
    subst this; rfl
  | cons b ns ih =>
    intro i hi
    cases i with
    | zero => rfl
    | succ i =>
      simp only [List.take_succ_cons, List.drop_succ_cons, List.cons_append,
        List.eraseIdx_cons_succ]
      rw [ih i (by simpa using hi)]

theorem eraseIdx_middle (b c : Nat × T) (rest : List (Nat × T)) :
    ∀ (l0 : List (Nat × T)),
      (l0 ++ b :: c :: rest).eraseIdx (l0.length + 1) = l0 ++ b :: rest := by
  intro l0
  induction l0 with
  | nil => rfl
  | cons a l0 ih =>
    simp only [List.cons_append, List.length_cons, List.eraseIdx_cons_succ]
    rw [ih]

theorem vals_eraseIdx (ns : List (Nat × T)) (i : Nat) :
    vals (ns.eraseIdx i) = (vals ns).eraseIdx i := by
  simp [vals, List.eraseIdx_eq_take_drop_succ, List.map_take, List.map_drop]

theorem ex135_wf : WF ex135 [(0, 1), (1, 3), (2, 5)] :=
  ⟨⟨rfl, _, rfl, rfl, rfl, _, rfl, rfl, rfl, _, rfl, rfl, rfl⟩,
    ⟨⟨_, rfl, rfl⟩, ⟨_, rfl, rfl⟩, ⟨_, rfl, rfl⟩, trivial⟩, rfl, rfl⟩

/-! ## Sequences of ties -/

/-- When no left element goes before a right element, `merge` links the whole
right chain in front of the left chain. -/
theorem mergeList_ties {α : Type} (lt : α → α → Bool) :
    ∀ (r l : List α), (∀ a ∈ l, ∀ b ∈ r, lt a b = false) → mergeList lt l r = r ++ l := by
  intro r
  induction r with
  | nil => intro l _; rw [mergeList_nil_right]; rfl
  | cons b r ih =>
    intro l hties
    cases l with
    | nil => simp [mergeList]
    | cons a l =>
      have hab : lt a b = false := hties a (by simp) b (by simp)
      simp only [mergeList, hab, Bool.false_eq_true, if_false, List.cons_append]
      rw [ih (a :: l) (fun x hx y hy => hties x hx y (List.mem_cons.mpr (Or.inr hy)))]

theorem sortList_ties {α : Type} (lt : α → α → Bool) :
    ∀ (fuel : Nat) (l : List α), l.length ≤ fuel → (∀ a ∈ l, ∀ b ∈ l, lt a b = false) →
      sortList lt fuel l = l.reverse := by
  intro fuel
  induction fuel with
  | zero =>
    intro l hl _
    have : l = [] := List.length_eq_zero.mp (by omega)
    subst this; rfl
  | succ fuel ih =>
    intro l hl hties
    simp only [sortList]
    split
    · rename_i h1
      match l, h1 with
      | [], _ => rfl
      | [_], _ => rfl
      | _ :: _ :: _, h1 => simp at h1
    · rename_i h1
      have htake : ∀ a ∈ List.take ((l.length - 1) / 2 + 1) l, a ∈ l :=
        fun a ha => List.mem_of_mem_take ha
      have hdrop : ∀ a ∈ List.drop ((l.length - 1) / 2 + 1) l, a ∈ l :=
        fun a ha => List.mem_of_mem_drop ha
      rw [ih _ (by rw [List.length_take]; omega)
          (fun a ha b hb => hties a (htake a ha) b (htake b hb)),
        ih _ (by rw [List.length_drop]; omega)
          (fun a ha b hb => hties a (hdrop a ha) b (hdrop b hb)),
        mergeList_ties lt _ _ (fun a ha b hb =>
          hties a (htake a (List.mem_reverse.mp ha)) b (hdrop b (List.mem_reverse.mp hb))),
        ← List.reverse_append, List.take_append_drop]

/-! ## The member `clear` -/

/-- The loop of `clear` on a finite chain deletes its nodes and no other cell
and ends with `first` null. -/
theorem clear_loop_spec :
    ∀ (fuel : Nat) (h : Heap T) (ns : List (Nat × T)) (p : Ptr),
      Fwd h p ns → ns.length < fuel →
      ∃ h2, (clear_loop fuel h p : Except (Fault σ) _) = .ok (h2, none) ∧
        h2.length = h.length ∧
        (∀ a ∈ addrs ns, h2.read a = none) ∧
        ∀ a, a ∉ addrs ns → h2.read a = h.read a := by
  intro fuel
  induction fuel with
  | zero => intro h ns p _ hlt; omega
  | succ fuel ih =>
    intro h ns p hf hlt
    cases ns with
    | nil =>
      have : p = none := hf
      subst this
      exact ⟨h, by simp [clear_loop], rfl, fun a ha => by simp [addrs] at ha, fun _ _ => rfl⟩
    | cons ax ns =>
      obtain ⟨a, x⟩ := ax
      have hnd := hf.nodup
      obtain ⟨hp, n, hr, _, hrest⟩ := hf
      subst hp
      rw [addrs_cons] at hnd
      have ha_ns : a ∉ addrs ns := (List.nodup_cons.mp hnd).1
      obtain ⟨h1, e1, len1, r1, f1⟩ := free_ok (σ := σ) hr
      have hf1 : Fwd h1 n.next ns :=
        Fwd.congr_fwd hrest (fun d hd => f1 d (fun e => ha_ns (e ▸ hd)))
      obtain ⟨h2, e2, len2, hdel, hfr⟩ :=
        ih h1 ns n.next hf1 (by simp only [List.length_cons] at hlt; omega)
      refine ⟨h2, ?_, by omega, ?_, ?_⟩
      · simp only [clear_loop, load_ok hr, bind_ok, e1, e2]
      · intro d hd
        rw [addrs_cons] at hd
        rcases List.mem_cons.mp hd with rfl | hd
        · rw [hfr d ha_ns]; exact r1
        · exact hdel d hd
      · intro d hd
        rw [addrs_cons] at hd
        simp only [List.mem_cons, not_or] at hd
        rw [hfr d hd.2, f1 d hd.1]

theorem clear_empty (h : Heap T) : clear (List_ h) = .ok (List_ h) := by
  simp [clear, clear_loop, List_]

/-! ## Traversal with the iterators -/

theorem read_forward_loop_spec {h : Heap T} :
    ∀ (fuel : Nat) (ns : List (Nat × T)) (p : Ptr), Fwd h p ns → ns.length < fuel →
      read_forward_loop h { current := none } fuel { current := p } = .ok (vals ns) := by
  intro fuel
  induction fuel with
  | zero => intro ns p _ hlt; omega
  | succ fuel ih =>
    intro ns p hf hlt
    cases ns with
    | nil =>
      have : p = none := hf
      subst this
      simp [read_forward_loop, Iterator.eq, vals]
    | cons ax ns =>
      obtain ⟨a, x⟩ := ax
      obtain ⟨hp, n, hr, hd, hrest⟩ := hf
      subst hp
      simp only [read_forward_loop, Iterator.eq, Iterator.deref, Iterator.incr, load_ok hr,
        bind_ok, hd]
      rw [ih ns n.next hrest (by simp only [List.length_cons] at hlt; omega)]
      simp [vals]

theorem read_reverse_loop_spec {h : Heap T} :
    ∀ (fuel : Nat) (l : List (Nat × T)),
      (∀ a x, (a, x) ∈ l → ∃ n, h.read a = some n ∧ n.data = x) → Back h none l →
      l.length < fuel →
      read_reverse_loop h { current := none } fuel { current := prevOf none l } =
        .ok (vals l).reverse := by
  intro fuel
  induction fuel with
  | zero => intro l _ _ hlt; omega
  | succ fuel ih =>
    intro l hdata hb hlt
    rcases eq_nil_or_snoc l with e | ⟨l0, b, z, e⟩
    · subst e
      simp [read_reverse_loop, ReverseIterator.eq, vals]
    · subst e
      obtain ⟨hb0, hb1⟩ := Back.append_back.mp hb
      obtain ⟨⟨n, hr, hpv⟩, _⟩ := hb1
      obtain ⟨n2, hr2, hd⟩ := hdata b z (by simp)
      rw [hr] at hr2
      have : n = n2 := by simpa using hr2
      subst this
      rw [prevOf_snoc]
      simp only [read_reverse_loop, ReverseIterator.eq, ReverseIterator.deref,
        ReverseIterator.incr, load_ok hr, bind_ok, hd, hpv]
      rw [ih l0 (fun a x hax => hdata a x (List.mem_append.mpr (Or.inl hax))) hb0
        (by simp only [List.length_append, List.length_cons, List.length_nil] at hlt; omega)]
      simp [vals]

/-! ## Well-formedness after `merge_sort` and `clear` -/

/-- The public `merge_sort` on a sequence with a finite forward chain whose
head has no predecessor leaves the chain linked in both directions, with
`last` at its end. -/
theorem merge_sort_links (compare : T → T → Bool) (s : State T) (ns : List (Nat × T))
    (hf : Fwd s.heap s.first ns)
    (hhead : ∀ a n, s.first = some a → s.heap.read a = some n → n.prev = none) :
    ∃ s2 ns2, merge_sort compare s = .ok s2 ∧ ns2.Perm ns ∧ Fwd s2.heap s2.first ns2 ∧
      Back s2.heap none ns2 ∧ s2.last = (addrs ns2).getLast? ∧ s2.size_ = s.size_ := by
  obtain ⟨s2, e, hf2, _, hb2, hsame, hlast, hsz, _⟩ := merge_sort_spec compare s ns hf
  refine ⟨s2, _, e, sortList_perm _ _ _, hf2, ?_, hlast, hsz⟩
  by_cases hlen : 2 ≤ ns.length
  · exact hb2 hlen
  · have hshort : ns.length ≤ 1 := by omega
    obtain ⟨hh, hfst⟩ := hsame hshort
    rw [sortList_short _ _ hshort, hh]
    match ns, hf, hshort with
    | [], _, _ => trivial
    | [(a, x)], hf, _ =>
      obtain ⟨hp, n, hr, _, _⟩ := hf
      exact ⟨⟨n, hr, hhead a n hp hr⟩, trivial⟩
    | _ :: _ :: _, _, hs => simp at hs

theorem WF.head_prev {s : State T} {ns : List (Nat × T)} (hwf : WF s ns) :
    ∀ a n, s.first = some a → s.heap.read a = some n → n.prev = none := by
  intro a n hfst hr
  have hf := hwf.fwd
  have hb := hwf.back
  cases ns with
  | nil =>
    have : s.first = none := hf
    rw [this] at hfst; cases hfst
  | cons ax ns =>
    obtain ⟨hp, _⟩ := hf
    obtain ⟨⟨n2, hr2, hpv⟩, _⟩ := hb
    rw [hp] at hfst
    have : ax.1 = a := by simpa using hfst
    subst this
    rw [hr] at hr2
    have : n = n2 := by simpa using hr2
    subst this
    exact hpv

theorem ex312_wf_links :
    ∀ a n, ex312.first = some a → ex312.heap.read a = some n → n.prev = none := by
  intro a n ha hr
  have h0 : a = 0 := by
    have : some 0 = some a := ha
    simpa using this.symm
  subst h0
  have : some (⟨3, some 1, none⟩ : Node Nat) = some n := hr
  have hn : (⟨3, some 1, none⟩ : Node Nat) = n := by simpa using this
  rw [← hn]

theorem wf_empty (h : Heap T) : WF (List_ h) [] :=
  ⟨rfl, trivial, rfl, rfl⟩

/-! ## What a returning call does to `size_`, and calls that never throw -/

theorem onReturn_ok {α : Type} {P : α → Prop} {a : α} (h : P a) :
    OnReturn P (Except.ok a : Except (Fault σ) α) := by
  intro b hb
  cases hb
  exact h

theorem onReturn_error {α : Type} {P : α → Prop} (e : Fault σ) :
    OnReturn P (Except.error e : Except (Fault σ) α) := by
  intro b hb
  cases hb

theorem onReturn_true {α : Type} (r : Except (Fault σ) α) : OnReturn (fun _ => True) r :=
  fun _ _ => trivial

theorem onReturn_bind {α β : Type} {P : β → Prop} {Q : α → Prop} {r : Except (Fault σ) α}
    {f : α → Except (Fault σ) β} (hr : OnReturn Q r) (hf : ∀ a, Q a → OnReturn P (f a)) :
    OnReturn P (r >>= f) := by
  cases r with
  | ok a => exact hf a (hr a rfl)
  | error e => exact onReturn_error e

theorem push_back_size (v : T) (s : State T) :
    OnReturn (fun s2 => s2.size_ = s.size_ + 1) (push_back v s) := by
  simp only [push_back, alloc]
  repeat' first
    | exact onReturn_ok rfl
    | refine onReturn_bind (onReturn_true _) (fun _ _ => ?_)
    | split

theorem insert_size (v : T) (i : Nat) (s : State T) :
    OnReturn (fun s2 => s2.size_ = s.size_ + 1) (insert v i s) := by
  simp only [insert, alloc]
  repeat' first
    | exact onReturn_ok rfl
    | exact onReturn_error _
    | refine onReturn_bind (onReturn_true _) (fun _ _ => ?_)
    | split

theorem remove_size (i : Nat) (s : State T) :
    OnReturn (fun s2 => s2.size_ + 1 = s.size_) (remove i s) := by
  simp only [remove]
  split
  · exact onReturn_error _
  · rename_i hi
    have hpos : s.size_ - 1 + 1 = s.size_ := by omega
    repeat' first
      | exact onReturn_ok hpos
      | refine onReturn_bind (onReturn_true _) (fun _ _ => ?_)
      | split

theorem insert_if_loop_size (x : T) (compare : T → T → Bool) (s : State T) :
    ∀ (fuel idx : Nat) (cur : Ptr),
      OnReturn (fun r => r.2.size_ = s.size_ + 1) (insert_if_loop x compare s fuel idx cur) := by
  intro fuel
  induction fuel with
  | zero => intro idx cur; exact onReturn_error _
  | succ fuel ih =>
    intro idx cur
    simp only [insert_if_loop, alloc]
    split
    · exact onReturn_bind (push_back_size x s) (fun s1 h1 => onReturn_ok h1)
    · refine onReturn_bind (onReturn_true _) (fun _ _ => ?_)
      split
      · repeat' first
          | exact onReturn_ok rfl
          | refine onReturn_bind (onReturn_true _) (fun _ _ => ?_)
          | split
      · exact ih _ _

theorem noRaise_push_back (v : T) (s : State T) : NoRaise (push_back v s) := by
  simp only [push_back, alloc]
  repeat' first
    | exact noRaise_ok _
    | exact noRaise_setNext _ _ _
    | exact noRaise_setPrev _ _ _
    | exact noRaise_load _ _
    | refine noRaise_bind ?_ (fun _ => ?_)
    | split

theorem noRaise_insert_if_loop (x : T) (compare : T → T → Bool) (s : State T) :
    ∀ (fuel idx : Nat) (cur : Ptr), NoRaise (insert_if_loop x compare s fuel idx cur) := by
  intro fuel
  induction fuel with
  | zero => intro idx cur; exact noRaise_no_fuel
  | succ fuel ih =>
    intro idx cur
    simp only [insert_if_loop, alloc]
    repeat' first
      | exact noRaise_ok _
      | exact noRaise_push_back _ _
      | exact noRaise_setNext _ _ _
      | exact noRaise_setPrev _ _ _
      | exact noRaise_load _ _
      | exact ih _ _
      | refine noRaise_bind ?_ (fun _ => ?_)
      | split

theorem noRaise_clear_loop :
    ∀ (fuel : Nat) (h : Heap T) (p : Ptr),
      NoRaise (clear_loop fuel h p : Except (Fault σ) (Heap T × Ptr)) := by
  intro fuel
  induction fuel with
  | zero => intro h p; exact noRaise_no_fuel
  | succ fuel ih =>
    intro h p
    simp only [clear_loop]
    repeat' first
      | exact noRaise_ok _
      | exact noRaise_free _ _
      | exact noRaise_load _ _
      | exact ih _ _
      | refine noRaise_bind ?_ (fun _ => ?_)
      | split

theorem noRaise_find_last :
    ∀ (fuel : Nat) (h : Heap T) (p : Ptr),
      NoRaise (find_last fuel h p : Except (Fault σ) Ptr) := by
  intro fuel
  induction fuel with
  | zero => intro h p; exact noRaise_no_fuel
  | succ fuel ih =>
    intro h p
    simp only [find_last]
    repeat' first
      | exact noRaise_ok _
      | exact noRaise_load _ _
      | exact ih _ _
      | refine noRaise_bind ?_ (fun _ => ?_)
      | split

theorem noRaise_get_middle_loop :
    ∀ (fuel : Nat) (h : Heap T) (slow fast : Ptr),
      NoRaise (get_middle_loop fuel h slow fast : Except (Fault σ) Ptr) := by
  intro fuel
  induction fuel with
  | zero => intro h slow fast; exact noRaise_no_fuel
  | succ fuel ih =>
    intro h slow fast
    simp only [get_middle_loop]
    repeat' first
      | exact noRaise_ok _
      | exact noRaise_load _ _
      | exact ih _ _ _
      | refine noRaise_bind ?_ (fun _ => ?_)
      | split

theorem noRaise_get_middle (fuel : Nat) (h : Heap T) (p : Ptr) :
    NoRaise (get_middle fuel h p : Except (Fault σ) Ptr) := by
  simp only [get_middle]
  repeat' first
    | exact noRaise_ok _
    | exact noRaise_load _ _
    | exact noRaise_get_middle_loop _ _ _ _
    | refine noRaise_bind ?_ (fun _ => ?_)
    | split

theorem noRaise_merge (compare : T → T → Bool) :
    ∀ (fuel : Nat) (h : Heap T) (l r : Ptr),
      NoRaise (merge compare fuel h l r : Except (Fault σ) (Heap T × Ptr)) := by
  intro fuel
  induction fuel with
  | zero => intro h l r; exact noRaise_no_fuel
  | succ fuel ih =>
    intro h l r
    simp only [merge]
    repeat' first
      | exact noRaise_ok _
      | exact noRaise_load _ _
      | exact noRaise_setNext _ _ _
      | exact noRaise_setPrev _ _ _
      | exact ih _ _ _
      | refine noRaise_bind ?_ (fun _ => ?_)
      | split

theorem noRaise_merge_sort_rec (compare : T → T → Bool) :
    ∀ (fuel : Nat) (h : Heap T) (p : Ptr),
      NoRaise (merge_sort_rec compare fuel h p : Except (Fault σ) (Heap T × Ptr)) := by
  intro fuel
  induction fuel with
  | zero => intro h p; exact noRaise_no_fuel
  | succ fuel ih =>
    intro h p
    simp only [merge_sort_rec]
    repeat' first
      | exact noRaise_ok _
      | exact noRaise_load _ _
      | exact noRaise_setNext _ _ _
      | exact noRaise_get_middle _ _ _
      | exact noRaise_merge _ _ _ _ _
      | exact ih _ _
      | refine noRaise_bind ?_ (fun _ => ?_)
      | split

theorem noRaise_merge_sort (compare : T → T → Bool) (s : State T) :
    NoRaise (merge_sort compare s) := by
  simp only [merge_sort]
  repeat' first
    | exact noRaise_ok _
    | exact noRaise_merge_sort_rec _ _ _ _
    | exact noRaise_find_last _ _ _
    | refine noRaise_bind ?_ (fun _ => ?_)

theorem noRaise_clear (s : State T) : NoRaise (clear s) := by
  simp only [clear]
  repeat' first
    | exact noRaise_ok _
    | exact noRaise_clear_loop _ _ _
    | refine noRaise_bind ?_ (fun _ => ?_)

theorem insert_raise {v : T} {i : Nat} {s s2 : State T}
    (h : insert v i s = .error (.out_of_range s2)) : s2 = s := by
  by_cases hi : i > s.size_
  · simp only [insert, if_pos hi, Except.error.injEq, Fault.out_of_range.injEq] at h
    exact h.symm
  · exact absurd h (noRaise_insert_body v i s hi s2)

theorem remove_raise {i : Nat} {s s2 : State T}
    (h : remove i s = .error (.out_of_range s2)) : s2 = s := by
  by_cases hi : i ≥ s.size_
  · simp only [remove, if_pos hi, Except.error.injEq, Fault.out_of_range.injEq] at h
    exact h.symm
  · exact absurd h (noRaise_remove_body i s hi s2)

theorem subscript_raise {i : Nat} {s s2 : State T}
    (h : subscript i s = .error (.out_of_range s2)) : s2 = s := by
  by_cases hi : i ≥ s.size_
  · simp only [subscript, if_pos hi, Except.error.injEq, Fault.out_of_range.injEq] at h
    exact h.symm
  · exact absurd h (noRaise_subscript_body i s hi s2)

theorem op_call_raise (op : Op T) (s s2 : State T)
    (h : op.call s = .error (.out_of_range s2)) : s2 = s := by
  cases op with
  | push_back v => exact absurd h (noRaise_push_back v s s2)
  | insert v i => exact insert_raise h
  | insert_if v c =>
    refine absurd h (noRaise_bind (noRaise_insert_if_loop v c s _ _ _) (fun _ => ?_) s2)
    exact noRaise_ok _
  | remove i => exact remove_raise h

theorem op_call_size (op : Op T) (s s2 : State T) (h : op.call s = .ok s2) :
    (op.isInsertion = true → s2.size_ = s.size_ + 1) ∧
    (op.isInsertion = false → s2.size_ + 1 = s.size_) := by
  cases op with
  | push_back v => exact ⟨fun _ => push_back_size v s s2 h, fun hf => by cases hf⟩
  | insert v i => exact ⟨fun _ => insert_size v i s s2 h, fun hf => by cases hf⟩
  | insert_if v c =>
    refine ⟨fun _ => ?_, fun hf => by cases hf⟩
    have : OnReturn (fun s2 => s2.size_ = s.size_ + 1) ((Op.insert_if v c).call s) :=
      onReturn_bind (insert_if_loop_size v c s _ _ _) (fun r hr => onReturn_ok hr)
    exact this s2 h
  | remove i => exact ⟨fun hf => (by cases hf), fun _ => remove_size i s s2 h⟩

/-- Along a run of calls, `size_` moves with the count of returned insertion
calls minus the count of returned `remove` calls. -/
theorem runCalls_size :
    ∀ (ops : List (Op T)) (s s2 : State T) (ins rem : Nat),
      runCalls ops s = some (s2, ins, rem) → s2.size_ + rem = s.size_ + ins := by
  intro ops
  induction ops with
  | nil =>
    intro s s2 ins rem h
    simp only [runCalls, Option.some.injEq, Prod.mk.injEq] at h
    obtain ⟨rfl, rfl, rfl⟩ := h
    rfl
  | cons op ops ih =>
    intro s s2 ins rem h
    simp only [runCalls] at h
    cases hcall : op.call s with
    | ok s1 =>
      rw [hcall] at h
      simp only at h
      obtain ⟨hins, hrem⟩ := op_call_size op s s1 hcall
      cases hrun : runCalls ops s1 with
      | none => rw [hrun] at h; simp at h
      | some res =>
        obtain ⟨s3, ins1, rem1⟩ := res
        rw [hrun] at h
        have hrec := ih s1 s3 ins1 rem1 hrun
        simp only at h
        cases hop : op.isInsertion with
        | true =>
          rw [hop] at h
          simp only [if_true, Option.some.injEq, Prod.mk.injEq] at h
          obtain ⟨rfl, rfl, rfl⟩ := h
          have := hins hop
          omega
        | false =>
          rw [hop] at h
          simp only [Bool.false_eq_true, if_false, Option.some.injEq, Prod.mk.injEq] at h
          obtain ⟨rfl, rfl, rfl⟩ := h
          have := hrem hop
          omega
    | error e =>
      rw [hcall] at h
      cases e with
      | out_of_range s1 =>
        simp only at h
        have := op_call_raise op s s1 hcall
        subst this
        exact ih s1 s2 ins rem h
      | invalid_access => simp at h
      | no_fuel => simp at h

theorem WF.null_iff {s : State T} {ns : List (Nat × T)} (hwf : WF s ns) :
    s.first = none ↔ s.last = none := by
  rw [hwf.first_eq, hwf.last]
  cases ns with
  | nil => simp [headPtr, addrs]
  | cons ax ns =>
    simp only [headPtr, addrs, List.map_cons]
    constructor
    · intro h; cases h
    · intro h
      have := List.getLast?_eq_none_iff.mp h
      cases this

theorem merge_sort_wf (compare : T → T → Bool) (s : State T) (ns : List (Nat × T))
    (hwf : WF s ns) : ∃ s2 ns2, merge_sort compare s = .ok s2 ∧ WF s2 ns2 := by
  obtain ⟨s2, ns2, e, hperm, hf2, hb2, hlast, hsz⟩ :=
    merge_sort_links compare s ns hwf.fwd hwf.head_prev
  exact ⟨s2, ns2, e, hf2, hb2, hlast, by rw [hsz, hwf.size, hperm.length_eq]⟩

/-! ## Claims -/

/-- C1 (the code departs from the claim): from the default-constructed
sequence, the first `push_back` leaves `last` null, so the second `push_back`
dereferences a null pointer instead of appending. -/
theorem push_back_twice_invalid (h : Heap T) (v1 v2 : T) :
    (push_back v1 (List_ h) >>= push_back v2) = .error .invalid_access := by
  simp [push_back, List_, alloc, setNext]

/-- C2: on every sequence whose forward chain from `first` is finite, and for
every strict ordering predicate, `merge_sort` returns and leaves a forward
chain in which no adjacent pair `(a, b)` has `compare b a`. -/
theorem merge_sort_sorted (compare : T → T → Bool) (hso : StrictOrder compare)
    (s : State T) (ns : List (Nat × T)) (hf : Fwd s.heap s.first ns) :
    ∃ s2 ns2, merge_sort compare s = .ok s2 ∧ Fwd s2.heap s2.first ns2 ∧
      SortedBy compare (vals ns2) := by
  obtain ⟨s2, e, hf2, _⟩ := merge_sort_spec compare s ns hf
  refine ⟨s2, _, e, hf2, (adj_byVal_sortedBy compare _).mp ?_⟩
  exact sortList_adj (byVal compare) (fun a b => hso.asymm a.2 b.2) _ ns
    (Nat.le_succ_of_le hf.length_le)

theorem ltNat_strict : StrictOrder ltNat :=
  ⟨fun a => by simp [ltNat], fun a b c => by simp only [ltNat, decide_eq_true_eq]; omega⟩

theorem ex312_fwd : Fwd ex312.heap ex312.first [(0, 3), (1, 1), (2, 2)] :=
  ⟨rfl, _, rfl, rfl, rfl, _, rfl, rfl, rfl, _, rfl, rfl, rfl⟩

theorem merge_sort_sorted_witness :
    StrictOrder ltNat ∧ Fwd ex312.heap ex312.first [(0, 3), (1, 1), (2, 2)] ∧
      ∃ s2 ns2, merge_sort ltNat ex312 = .ok s2 ∧ Fwd s2.heap s2.first ns2 ∧
        SortedBy ltNat (vals ns2) :=
  ⟨ltNat_strict, ex312_fwd, merge_sort_sorted ltNat ltNat_strict ex312 _ ex312_fwd⟩

theorem ltKey_weak : StrictWeakOrder ltKey :=
  { irrefl := fun a => by simp [ltKey]
    trans := fun a b c => by simp only [ltKey, decide_eq_true_eq]; omega
    negtrans := fun a b c => by simp only [ltKey, decide_eq_false_iff_not]; omega }

theorem exTie_fwd : Fwd exTie.heap exTie.first [(0, (1, 10)), (1, (1, 20))] :=
  ⟨rfl, _, rfl, rfl, rfl, _, rfl, rfl, rfl⟩

/-- C3 (as stated, fails): under the strict ordering `ltKey` the values
`(1, 10)` and `(1, 20)` are equal-ranked and `(1, 10)` stands first; after
`merge_sort` the node holding `(1, 20)` stands first, and `(1, 10)` no longer
stands before `(1, 20)`. -/
theorem merge_sort_unstable_example :
    StrictOrder ltKey ∧ Fwd exTie.heap exTie.first [(0, (1, 10)), (1, (1, 20))] ∧
      ltKey (1, 10) (1, 20) = false ∧ ltKey (1, 20) (1, 10) = false ∧
      ∃ s2, merge_sort ltKey exTie = .ok s2 ∧
        Fwd s2.heap s2.first [(1, (1, 20)), (0, (1, 10))] ∧
        ¬ [((0 : Nat), ((1 : Nat), (10 : Nat))), (1, (1, 20))].Sublist
            [(1, (1, 20)), (0, (1, 10))] :=
  ⟨ltKey_weak.toStrictOrder, exTie_fwd, rfl, rfl, _, rfl,
    ⟨rfl, _, rfl, rfl, rfl, _, rfl, rfl, rfl⟩, by decide⟩

/-- C3 (amended): `merge_sort` is not stable but reverses ties.  For every
strict weak ordering and every sequence whose forward chain is finite,
`merge_sort` returns, and two equal-ranked nodes `x`, `y` with `x` before `y`
before the sort stand with `y` before `x` after it.  In the merge step, when
`compare(left, right)` is false (so on every tie) the head of the right chain
is taken first. -/
theorem merge_sort_ties_reversed (compare : T → T → Bool) (hwo : StrictWeakOrder compare)
    (s : State T) (ns : List (Nat × T)) (hf : Fwd s.heap s.first ns) :
    (∃ s2 ns2, merge_sort compare s = .ok s2 ∧ Fwd s2.heap s2.first ns2 ∧
      ∀ x y, [x, y].Sublist ns → compare x.2 y.2 = false → compare y.2 x.2 = false →
        [y, x].Sublist ns2) ∧
    (∀ (h : Heap T) (a b : Nat) (x y : T) (as bs : List (Nat × T)),
      Fwd h (some a) ((a, x) :: as) → Fwd h (some b) ((b, y) :: bs) →
      (∀ d ∈ addrs ((a, x) :: as), d ∉ addrs ((b, y) :: bs)) →
      BackInt h ((a, x) :: as) → BackInt h ((b, y) :: bs) →
      compare x y = false →
      ∃ h2, (merge compare (h.length + 1) h (some a) (some b) :
        Except (Fault (State T)) (Heap T × Ptr)) = .ok (h2, some b)) := by
  constructor
  · obtain ⟨s2, e, hf2, _⟩ := merge_sort_spec compare s ns hf
    refine ⟨s2, _, e, hf2, ?_⟩
    intro x y hsub hxy hyx
    exact sortList_ties_reversed (byVal compare) (fun a b => hwo.toStrictOrder.asymm a.2 b.2)
      (fun a b c => hwo.trans a.2 b.2 c.2) (fun a b c => hwo.negtrans a.2 b.2 c.2) _ ns
      (Nat.le_succ_of_le hf.length_le) x y hsub hxy hyx
  · intro h a b x y as bs hfa hfb hdisj hba hbb hxy
    have hlen := Fwd.length_add_le hfa hfb hdisj
    obtain ⟨h2, r, e, hf2, _⟩ :=
      merge_spec (σ := State T) compare (h.length + 1) h (some a) (some b) _ _ hfa hfb hdisj
        hba hbb (by omega)
    have hr : r = some b := by
      simp only [mergeList, byVal, hxy] at hf2
      exact hf2.1
    subst hr
    exact ⟨h2, e⟩

theorem merge_sort_ties_reversed_witness :
    StrictWeakOrder ltKey ∧ Fwd exTie.heap exTie.first [(0, (1, 10)), (1, (1, 20))] ∧
      ((∃ s2 ns2, merge_sort ltKey exTie = .ok s2 ∧ Fwd s2.heap s2.first ns2 ∧
        ∀ x y, [x, y].Sublist [(0, (1, 10)), (1, (1, 20))] →
          ltKey x.2 y.2 = false → ltKey y.2 x.2 = false → [y, x].Sublist ns2) ∧
      (∀ (h : Heap (Nat × Nat)) (a b : Nat) (x y : Nat × Nat) (as bs : List (Nat × Nat × Nat)),
        Fwd h (some a) ((a, x) :: as) → Fwd h (some b) ((b, y) :: bs) →
        (∀ d ∈ addrs ((a, x) :: as), d ∉ addrs ((b, y) :: bs)) →
        BackInt h ((a, x) :: as) → BackInt h ((b, y) :: bs) →
        ltKey x y = false →
        ∃ h2, (merge ltKey (h.length + 1) h (some a) (some b) :
          Except (Fault (State (Nat × Nat))) (Heap (Nat × Nat) × Ptr)) = .ok (h2, some b))) :=
  ⟨ltKey_weak, exTie_fwd, merge_sort_ties_reversed ltKey ltKey_weak exTie _ exTie_fwd⟩

/-- C4: on every sequence whose forward chain from `first` is finite, and for
every predicate, `merge_sort` returns, the nodes of the forward chain
afterwards (addresses and values) are a permutation of those before, no cell
is allocated, and `size()` is unchanged. -/
theorem merge_sort_perm (compare : T → T → Bool) (s : State T) (ns : List (Nat × T))
    (hf : Fwd s.heap s.first ns) :
    ∃ s2 ns2, merge_sort compare s = .ok s2 ∧ Fwd s2.heap s2.first ns2 ∧
      ns2.Perm ns ∧ (vals ns2).Perm (vals ns) ∧
      s2.heap.length = s.heap.length ∧ size s2 = size s := by
  obtain ⟨s2, e, hf2, _, _, _, _, hsz, hlen, _⟩ := merge_sort_spec compare s ns hf
  exact ⟨s2, _, e, hf2, sortList_perm _ _ _, (sortList_perm _ _ _).map _, hlen, hsz⟩

theorem merge_sort_perm_witness :
    Fwd ex312.heap ex312.first [(0, 3), (1, 1), (2, 2)] ∧
      ∃ s2 ns2, merge_sort ltNat ex312 = .ok s2 ∧ Fwd s2.heap s2.first ns2 ∧
        ns2.Perm [(0, 3), (1, 1), (2, 2)] ∧ (vals ns2).Perm (vals [(0, 3), (1, 1), (2, 2)]) ∧
        s2.heap.length = ex312.heap.length ∧ size s2 = size ex312 :=
  ⟨ex312_fwd, merge_sort_perm ltNat ex312 _ ex312_fwd⟩

/-- C5: on every well-formed sequence, `insert_if` returns the first-fit index
`k` (the length of the longest prefix whose elements `e` all have
`compare x e = false`), the values become the first `k` values, then `x`, then
the rest, and `size()` grows by one; no value before `k` has `compare x e`,
the value formerly at `k` (if any) has it, and when no value has it `x` is
appended and `k` is the old size. -/
theorem insert_if_first_fit (x : T) (compare : T → T → Bool) (s : State T)
    (ns : List (Nat × T)) (hwf : WF s ns) :
    ∃ s2 ns2, insert_if x compare s = .ok (firstFit compare x (vals ns), s2) ∧
      Fwd s2.heap s2.first ns2 ∧
      vals ns2 = (vals ns).take (firstFit compare x (vals ns)) ++
        x :: (vals ns).drop (firstFit compare x (vals ns)) ∧
      size s2 = size s + 1 ∧
      (∀ e ∈ (vals ns).take (firstFit compare x (vals ns)), compare x e = false) ∧
      (∀ e, (vals ns)[firstFit compare x (vals ns)]? = some e → compare x e = true) ∧
      ((∀ e ∈ vals ns, compare x e = false) →
        firstFit compare x (vals ns) = size s ∧ vals ns2 = vals ns ++ [x]) := by
  obtain ⟨s2, e, hf2, _, hsz2, _⟩ := insert_if_spec x compare s ns hwf
  refine ⟨s2, _, e, hf2, vals_insert _ _ _ _, hsz2, firstFit_prefix compare x _,
    firstFit_hit compare x _, ?_⟩
  intro hall
  have hk := firstFit_none compare x (vals ns) hall
  have hlen : (vals ns).length = ns.length := by simp [vals]
  refine ⟨?_, ?_⟩
  · rw [hk, hlen]; exact hwf.size.symm
  · rw [vals_insert, hk, List.take_length, List.drop_length]

theorem insert_if_first_fit_witness :
    WF ex135 [(0, 1), (1, 3), (2, 5)] ∧
      ∃ s2 ns2, insert_if 4 ltNat ex135 = .ok (2, s2) ∧ Fwd s2.heap s2.first ns2 ∧
        vals ns2 = [1, 3, 4, 5] ∧ size s2 = 4 := by
  obtain ⟨s2, ns2, e, hf, hv, hs, _⟩ := insert_if_first_fit 4 ltNat ex135 _ ex135_wf
  exact ⟨ex135_wf, s2, ns2, e, hf, hv, hs⟩

/-- C6: for every strict ordering predicate and every well-formed sequence
that is sorted under it, `insert_if` returns and leaves a forward chain that
is sorted under it. -/
theorem insert_if_sorted (x : T) (compare : T → T → Bool) (hso : StrictOrder compare)
    (s : State T) (ns : List (Nat × T)) (hwf : WF s ns)
    (hsorted : SortedBy compare (vals ns)) :
    ∃ k s2 ns2, insert_if x compare s = .ok (k, s2) ∧ Fwd s2.heap s2.first ns2 ∧
      SortedBy compare (vals ns2) := by
  obtain ⟨s2, e, hf2, _⟩ := insert_if_spec x compare s ns hwf
  refine ⟨_, s2, _, e, hf2, ?_⟩
  rw [vals_insert]
  exact adj_insert_firstFit compare hso.asymm x _ hsorted

theorem insert_if_sorted_witness :
    StrictOrder ltNat ∧ WF ex135 [(0, 1), (1, 3), (2, 5)] ∧
      SortedBy ltNat (vals [(0, 1), (1, 3), (2, 5)]) ∧
      ∃ k s2 ns2, insert_if 4 ltNat ex135 = .ok (k, s2) ∧ Fwd s2.heap s2.first ns2 ∧
        SortedBy ltNat (vals ns2) :=
  ⟨ltNat_strict, ex135_wf, ⟨rfl, rfl, trivial⟩,
    insert_if_sorted 4 ltNat ltNat_strict ex135 _ ex135_wf ⟨rfl, rfl, trivial⟩⟩

/-- C7: on every well-formed sequence and for every index `i <= size()`,
`insert` returns, `size()` grows by one, and the sequence is well-formed with
the new node at position `i`: the values are the first `i` values, then `v`,
then the rest; with `i = size()` the value is appended, and on the empty
sequence the new node is both head and tail of a sequence of size 1. -/
theorem insert_at_index (v : T) (i : Nat) (s : State T) (ns : List (Nat × T))
    (hwf : WF s ns) (hi : i ≤ size s) :
    ∃ s2, insert v i s = .ok s2 ∧ size s2 = size s + 1 ∧
      WF s2 (ns.take i ++ (s.heap.length, v) :: ns.drop i) ∧
      vals (ns.take i ++ (s.heap.length, v) :: ns.drop i) =
        (vals ns).take i ++ v :: (vals ns).drop i ∧
      (i = size s → vals (ns.take i ++ (s.heap.length, v) :: ns.drop i) = vals ns ++ [v]) ∧
      (ns = [] → size s2 = 1 ∧ s2.first = some s.heap.length ∧
        s2.last = some s.heap.length) := by
  obtain ⟨s2, e, hwf2, _, _⟩ := insert_spec v i s ns hwf hi
  have hsz : size s2 = size s + 1 := by
    show s2.size_ = s.size_ + 1
    rw [hwf2.size, hwf.size]
    simp only [List.length_append, List.length_cons, List.length_take, List.length_drop]
    have : i ≤ ns.length := hwf.size ▸ hi
    omega
  refine ⟨s2, e, hsz, hwf2, vals_insert _ _ _ _, ?_, ?_⟩
  · intro hie
    have hlen : (vals ns).length = ns.length := by simp [vals]
    have hil : i = (vals ns).length := by rw [hlen, hie]; exact hwf.size
    rw [vals_insert, hil, List.take_length, List.drop_length]
  · intro hnil
    subst hnil
    have hf := hwf2.first_eq
    have hl := hwf2.last
    have hs := hwf2.size
    simp only [List.take_nil, List.drop_nil, List.nil_append] at hf hl hs
    exact ⟨hs, hf, hl⟩

theorem insert_at_index_witness :
    WF ex135 [(0, 1), (1, 3), (2, 5)] ∧ 1 ≤ size ex135 ∧
      ∃ s2, insert 2 1 ex135 = .ok s2 ∧ size s2 = 4 ∧
        WF s2 [(0, 1), (3, 2), (1, 3), (2, 5)] := by
  obtain ⟨s2, e, hs, hwf2, _⟩ := insert_at_index 2 1 ex135 _ ex135_wf (by decide)
  exact ⟨ex135_wf, by decide, s2, e, hs, hwf2⟩

/-- C8: on every well-formed sequence and for every index `i < size()`,
`remove` returns, `size()` shrinks by one, the node at `i` is deleted, and the
sequence is well-formed with the other nodes in their prior order (so `first`
and `last` are the ends of what remains); a predecessor `b` and a successor
`d` of the removed node are linked to each other in both directions. -/
theorem remove_at_index (i : Nat) (s : State T) (ns : List (Nat × T))
    (hwf : WF s ns) (hi : i < size s) :
    ∃ s2, remove i s = .ok s2 ∧ size s2 + 1 = size s ∧
      WF s2 (ns.eraseIdx i) ∧
      vals (ns.eraseIdx i) = (vals ns).eraseIdx i ∧
      (∀ c, (addrs ns)[i]? = some c → s2.heap.read c = none) ∧
      (∀ l0 b z c y d w l2, ns = l0 ++ (b, z) :: (c, y) :: (d, w) :: l2 → i = l0.length + 1 →
        (∃ nb, s2.heap.read b = some nb ∧ nb.next = some d) ∧
        (∃ nd, s2.heap.read d = some nd ∧ nd.prev = some b)) := by
  obtain ⟨s2, e, hwf2, _, hdel, _⟩ := remove_spec i s ns hwf hi
  have hilt : i < ns.length := hwf.size ▸ hi
  have hsz : size s2 + 1 = size s := by
    show s2.size_ + 1 = s.size_
    rw [hwf2.size, hwf.size, List.length_eraseIdx, if_pos hilt]
    omega
  refine ⟨s2, e, hsz, hwf2, vals_eraseIdx ns i, hdel, ?_⟩
  intro l0 b z c y d w l2 hns hil
  have hf := hwf2.fwd
  have hb := hwf2.back
  rw [hns, hil, eraseIdx_middle] at hf hb
  constructor
  · obtain ⟨m, _, hs2⟩ := Seg.append_seg.mp hf
    obtain ⟨_, nb, hrb, _, hrest⟩ := hs2
    exact ⟨nb, hrb, hrest.1⟩
  · have hl : l0 ++ (b, z) :: (d, w) :: l2 = (l0 ++ [(b, z)]) ++ (d, w) :: l2 := by simp
    rw [hl] at hb
    obtain ⟨_, hb2⟩ := Back.append_back.mp hb
    rw [prevOf_snoc] at hb2
    exact hb2.1

theorem remove_at_index_witness :
    WF ex135 [(0, 1), (1, 3), (2, 5)] ∧ 1 < size ex135 ∧
      ∃ s2, remove 1 ex135 = .ok s2 ∧ size s2 + 1 = 3 ∧ WF s2 [(0, 1), (2, 5)] ∧
        (∃ nb, s2.heap.read 0 = some nb ∧ nb.next = some 2) ∧
        (∃ nd, s2.heap.read 2 = some nd ∧ nd.prev = some 0) := by
  obtain ⟨s2, e, hs, hwf2, _, _, hnb⟩ := remove_at_index 1 ex135 _ ex135_wf (by decide)
  exact ⟨ex135_wf, by decide, s2, e, hs, hwf2, hnb [] 0 1 1 3 2 5 [] rfl rfl⟩

/-- C9: in every state, `insert` throws `out_of_range` exactly when
`index > size()`, and `remove` and `operator[]` exactly when
`index >= size()`; the state at the throw is the state before the call. -/
theorem bounds_errors (v : T) (i : Nat) (s : State T) :
    (∀ s2, insert v i s = .error (.out_of_range s2) ↔ (i > size s ∧ s2 = s)) ∧
    (∀ s2, remove i s = .error (.out_of_range s2) ↔ (i ≥ size s ∧ s2 = s)) ∧
    (∀ s2, subscript i s = .error (.out_of_range s2) ↔ (i ≥ size s ∧ s2 = s)) := by
  refine ⟨fun s2 => ?_, fun s2 => ?_, fun s2 => ?_⟩
  · by_cases hi : i > s.size_
    · simp only [insert, if_pos hi, Except.error.injEq, Fault.out_of_range.injEq, size]
      exact ⟨fun h => ⟨hi, h.symm⟩, fun h => h.2.symm⟩
    · constructor
      · intro h; exact absurd h (noRaise_insert_body v i s hi s2)
      · intro h; exact absurd h.1 hi
  · by_cases hi : i ≥ s.size_
    · simp only [remove, if_pos hi, Except.error.injEq, Fault.out_of_range.injEq, size]
      exact ⟨fun h => ⟨hi, h.symm⟩, fun h => h.2.symm⟩
    · constructor
      · intro h; exact absurd h (noRaise_remove_body i s hi s2)
      · intro h; exact absurd h.1 hi
  · by_cases hi : i ≥ s.size_
    · simp only [subscript, if_pos hi, Except.error.injEq, Fault.out_of_range.injEq, size]
      exact ⟨fun h => ⟨hi, h.symm⟩, fun h => h.2.symm⟩
    · constructor
      · intro h; exact absurd h (noRaise_subscript_body i s hi s2)
      · intro h; exact absurd h.1 hi

/-- C10: on every well-formed sequence and for every index `i <= size()`,
`insert(v, i)` followed by `remove(i)` returns and restores `size()`, the
value `operator[]` gives at every position, `first`, `last`, and every cell of
the heap. -/
theorem insert_remove_roundtrip (v : T) (i : Nat) (s : State T) (ns : List (Nat × T))
    (hwf : WF s ns) (hi : i ≤ size s) :
    ∃ s1 s2, insert v i s = .ok s1 ∧ remove i s1 = .ok s2 ∧
      size s2 = size s ∧
      (∀ j, j < size s → ∃ x, subscript j s = .ok x ∧ subscript j s2 = .ok x) ∧
      s2.first = s.first ∧ s2.last = s.last ∧ WF s2 ns ∧
      ∀ d, s2.heap.read d = s.heap.read d := by
  have hil : i ≤ ns.length := hwf.size ▸ hi
  obtain ⟨s1, e1, hwf1, hlen1, fr1⟩ := insert_spec v i s ns hwf hi
  have hsz1 : i < s1.size_ := by
    rw [hwf1.size]
    simp only [List.length_append, List.length_cons, List.length_take, List.length_drop]
    omega
  obtain ⟨s2, e2, hwf2, hlen2, hdel, fr2⟩ := remove_spec i s1 _ hwf1 hsz1
  rw [eraseIdx_insert _ ns i hil] at hwf2
  have hsz : s2.size_ = s.size_ := by rw [hwf2.size, hwf.size]
  refine ⟨s1, s2, e1, e2, hsz, ?_, ?_, ?_, hwf2, ?_⟩
  · intro j hj
    have hj2 : j < (vals ns).length := by
      have : j < ns.length := hwf.size ▸ hj
      simpa [vals] using this
    exact ⟨(vals ns)[j], subscript_spec j s ns hwf _ (List.getElem?_eq_getElem hj2),
      subscript_spec j s2 ns hwf2 _ (List.getElem?_eq_getElem hj2)⟩
  · rw [hwf2.first_eq, hwf.first_eq]
  · rw [hwf2.last, hwf.last]
  · intro d
    by_cases hd : d ∈ addrs ns
    · have hfe : s2.first = s.first := by rw [hwf2.first_eq, hwf.first_eq]
      have hf2 := hwf2.fwd
      rw [hfe] at hf2
      exact chain_reads_eq hwf.fwd hwf.back hf2 hwf2.back d hd
    · by_cases hdn : d = s.heap.length
      · subst hdn
        rw [read_ge (Nat.le_refl _)]
        refine hdel _ ?_
        simp only [addrs, List.map_append, List.map_cons, List.map_take]
        rw [List.getElem?_append_right (by simp)]
        simp [List.length_take, Nat.min_eq_left hil]
      · rw [fr2 d ?_, fr1 d hd hdn]
        intro hmem
        simp only [addrs, List.map_append, List.map_cons, List.mem_append, List.mem_cons] at hmem
        rcases hmem with h1 | h1 | h1
        · exact hd (List.mem_map.mpr (by
            obtain ⟨a, ha, hae⟩ := List.mem_map.mp h1
            exact ⟨a, List.mem_of_mem_take ha, hae⟩))
        · exact hdn h1
        · exact hd (List.mem_map.mpr (by
            obtain ⟨a, ha, hae⟩ := List.mem_map.mp h1
            exact ⟨a, List.mem_of_mem_drop ha, hae⟩))

theorem insert_remove_roundtrip_witness :
    WF ex135 [(0, 1), (1, 3), (2, 5)] ∧ 1 ≤ size ex135 ∧
      ∃ s1 s2, insert 2 1 ex135 = .ok s1 ∧ remove 1 s1 = .ok s2 ∧
        size s2 = size ex135 ∧
        (∀ j, j < size ex135 → ∃ x, subscript j ex135 = .ok x ∧ subscript j s2 = .ok x) ∧
        s2.first = ex135.first ∧ s2.last = ex135.last ∧ WF s2 [(0, 1), (1, 3), (2, 5)] ∧
        ∀ d, s2.heap.read d = ex135.heap.read d :=
  ⟨ex135_wf, by decide, insert_remove_roundtrip 2 1 ex135 _ ex135_wf (by decide)⟩

/-- C16: for the forward and for the reverse iterator, `operator++` throws
`out_of_range` exactly when `current` is null, which is when the iterator
equals `end()` (`rend()`), and the iterator at the throw is unchanged; on a
live node it returns and moves to the node's `next` (forward) or `prev`
(reverse). -/
theorem iterator_advance (h : Heap T) (s : State T) :
    (∀ it it2 : Iterator,
      it.incr h = .error (.out_of_range it2) ↔ (it.current = none ∧ it2 = it)) ∧
    (∀ it : Iterator, it.eq (end_ s) = true ↔ it.current = none) ∧
    (∀ (it : Iterator) (a : Nat) (n : Node T), it.current = some a → h.read a = some n →
      it.incr h = .ok { current := n.next }) ∧
    (∀ it it2 : ReverseIterator,
      it.incr h = .error (.out_of_range it2) ↔ (it.current = none ∧ it2 = it)) ∧
    (∀ it : ReverseIterator, it.eq (rend s) = true ↔ it.current = none) ∧
    (∀ (it : ReverseIterator) (a : Nat) (n : Node T), it.current = some a →
      h.read a = some n → it.incr h = .ok { current := n.prev }) := by
  refine ⟨?_, ?_, ?_, ?_, ?_, ?_⟩
  · intro it it2
    cases hc : it.current with
    | none =>
      simp only [Iterator.incr, hc, Except.error.injEq, Fault.out_of_range.injEq, true_and]
      exact eq_comm
    | some a =>
      simp only [Iterator.incr, hc]
      constructor
      · intro hh
        exact absurd hh (noRaise_bind (noRaise_load h (some a)) (fun _ => noRaise_ok _) it2)
      · rintro ⟨hh, _⟩; cases hh
  · intro it
    simp [Iterator.eq, end_]
  · intro it a n hc hr
    simp only [Iterator.incr, hc, load_ok hr, bind_ok]
  · intro it it2
    cases hc : it.current with
    | none =>
      simp only [ReverseIterator.incr, hc, Except.error.injEq, Fault.out_of_range.injEq,
        true_and]
      exact eq_comm
    | some a =>
      simp only [ReverseIterator.incr, hc]
      constructor
      · intro hh
        exact absurd hh (noRaise_bind (noRaise_load h (some a)) (fun _ => noRaise_ok _) it2)
      · rintro ⟨hh, _⟩; cases hh
  · intro it
    simp [ReverseIterator.eq, rend]
  · intro it a n hc hr
    simp only [ReverseIterator.incr, hc, load_ok hr, bind_ok]

/-- C17: on every state whose forward chain from `first` is finite, `clear`
returns and leaves `first` null, `last` null and `size()` 0, the
default-constructed state; the nodes of the chain are deleted and no other
cell changes; `clear` on the result changes nothing, and `clear` on an
already-empty sequence changes nothing. -/
theorem clear_resets (s : State T) (ns : List (Nat × T)) (hf : Fwd s.heap s.first ns) :
    ∃ s2, clear s = .ok s2 ∧ s2.first = none ∧ s2.last = none ∧ size s2 = 0 ∧
      s2 = List_ s2.heap ∧
      (∀ a ∈ addrs ns, s2.heap.read a = none) ∧
      (∀ a, a ∉ addrs ns → s2.heap.read a = s.heap.read a) ∧
      clear s2 = .ok s2 ∧
      (s = List_ s.heap → s2 = s) := by
  obtain ⟨h2, e, _, hdel, hfr⟩ :=
    clear_loop_spec (σ := State T) (s.heap.length + 1) s.heap ns s.first hf
      (Nat.lt_succ_of_le hf.length_le)
  refine ⟨List_ h2, ?_, rfl, rfl, rfl, rfl, hdel, hfr, clear_empty h2, ?_⟩
  · simp only [clear, e, bind_ok, List_]
  · intro hs
    have h1 := clear_empty s.heap
    rw [← hs] at h1
    have h3 : clear s = .ok (List_ h2) := by simp only [clear, e, bind_ok, List_]
    rw [h1] at h3
    exact (Except.ok.inj h3).symm

theorem clear_resets_witness :
    Fwd ex312.heap ex312.first [(0, 3), (1, 1), (2, 2)] ∧
      ∃ s2, clear ex312 = .ok s2 ∧ s2.first = none ∧ s2.last = none ∧ size s2 = 0 ∧
        s2 = List_ s2.heap ∧
        (∀ a ∈ addrs [((0 : Nat), (3 : Nat)), (1, 1), (2, 2)], s2.heap.read a = none) ∧
        (∀ a, a ∉ addrs [((0 : Nat), (3 : Nat)), (1, 1), (2, 2)] →
          s2.heap.read a = ex312.heap.read a) ∧
        clear s2 = .ok s2 ∧
        (ex312 = List_ ex312.heap → s2 = ex312) :=
  ⟨ex312_fwd, clear_resets ex312 _ ex312_fwd⟩

/-- C19: on every sequence whose forward chain is finite, and for every
predicate that is false on every pair of its values, `merge_sort` returns and
the forward chain afterwards is the reverse of the chain before. -/
theorem merge_sort_all_ties (compare : T → T → Bool) (s : State T) (ns : List (Nat × T))
    (hf : Fwd s.heap s.first ns)
    (hties : ∀ x ∈ vals ns, ∀ y ∈ vals ns, compare x y = false) :
    ∃ s2, merge_sort compare s = .ok s2 ∧ Fwd s2.heap s2.first ns.reverse ∧
      vals ns.reverse = (vals ns).reverse := by
  obtain ⟨s2, e, hf2, _⟩ := merge_sort_spec compare s ns hf
  have hrev : sortList (byVal compare) (s.heap.length + 1) ns = ns.reverse := by
    refine sortList_ties (byVal compare) _ ns (Nat.le_succ_of_le hf.length_le) ?_
    intro a ha b hb
    exact hties a.2 (List.mem_map_of_mem _ ha) b.2 (List.mem_map_of_mem _ hb)
  rw [hrev] at hf2
  exact ⟨s2, e, hf2, by simp [vals]⟩

theorem merge_sort_all_ties_witness :
    Fwd exTie.heap exTie.first [(0, (1, 10)), (1, (1, 20))] ∧
      (∀ x ∈ vals [((0 : Nat), ((1 : Nat), (10 : Nat))), (1, (1, 20))],
        ∀ y ∈ vals [((0 : Nat), ((1 : Nat), (10 : Nat))), (1, (1, 20))], ltKey x y = false) ∧
      ∃ s2, merge_sort ltKey exTie = .ok s2 ∧
        Fwd s2.heap s2.first [((0 : Nat), ((1 : Nat), (10 : Nat))), (1, (1, 20))].reverse ∧
        vals [((0 : Nat), ((1 : Nat), (10 : Nat))), (1, (1, 20))].reverse =
          (vals [((0 : Nat), ((1 : Nat), (10 : Nat))), (1, (1, 20))]).reverse :=
  ⟨exTie_fwd, by decide, merge_sort_all_ties ltKey exTie _ exTie_fwd (by decide)⟩

/-- C20: on every chain of `n >= 1` nodes, `get_middle` returns the node at
position `ceil(n/2) - 1`; cutting the chain behind it leaves a first half of
`ceil(n/2)` nodes and a second half of `floor(n/2)` nodes; for `n >= 2` both
halves are non-empty and shorter than `n`, and the private `merge_sort`
returns whenever its fuel is at least `n`. -/
theorem get_middle_split (compare : T → T → Bool) (h : Heap T) (p : Ptr)
    (ns : List (Nat × T)) (hf : Fwd h p ns) (hne : ns ≠ []) :
    ∃ c nc, (get_middle (h.length + 1) h p : Except (Fault (State T)) Ptr) = .ok (some c) ∧
      (addrs ns)[(ns.length + 1) / 2 - 1]? = some c ∧ h.read c = some nc ∧
      (∀ h1, (setNext h (some c) none : Except (Fault (State T)) (Heap T)) = .ok h1 →
        Fwd h1 p (ns.take ((ns.length + 1) / 2)) ∧
        Fwd h1 nc.next (ns.drop ((ns.length + 1) / 2))) ∧
      (ns.take ((ns.length + 1) / 2)).length = (ns.length + 1) / 2 ∧
      (ns.drop ((ns.length + 1) / 2)).length = ns.length / 2 ∧
      (2 ≤ ns.length → 0 < (ns.length + 1) / 2 ∧ (ns.length + 1) / 2 < ns.length ∧
        0 < ns.length / 2 ∧ ns.length / 2 < ns.length) ∧
      (∀ fuel, ns.length ≤ fuel → ∃ h2 r,
        (merge_sort_rec compare (fuel + 1) h p : Except (Fault (State T)) (Heap T × Ptr)) =
          .ok (h2, r)) := by
  have hpos : 0 < ns.length := List.length_pos.mpr hne
  have hk1 : (ns.length + 1) / 2 - 1 = (ns.length - 1) / 2 := by omega
  have hk2 : (ns.length + 1) / 2 = (ns.length - 1) / 2 + 1 := by omega
  obtain ⟨l1, c, y, l2, hsplit, hl1len, hl1, hl2, hget⟩ :=
    split_at_index ns ((ns.length - 1) / 2) (by omega)
  have hmid : (addrs ns)[(ns.length - 1) / 2]? = some c := by
    simp [addrs, hget]
  have hf0 := hf
  rw [hsplit] at hf0
  obtain ⟨m, _, hs2⟩ := Seg.append_seg.mp hf0
  obtain ⟨_, nc, hrc, _, _⟩ := hs2
  have htake : ns.take ((ns.length - 1) / 2 + 1) = l1 ++ [(c, y)] := by
    rw [List.take_succ, hget, ← hl1]
    rfl
  refine ⟨c, nc, ?_, ?_, hrc, ?_, ?_, ?_, ?_, ?_⟩
  · rw [get_middle_spec hf hne (h.length + 1) (Nat.le_succ_of_le hf.length_le), hmid]
  · rw [hk1]; exact hmid
  · intro h1 e1
    obtain ⟨h1b, e1b, _, r1c, fr1⟩ := setNext_ok (σ := State T) none hrc
    rw [e1b] at e1
    have : h1b = h1 := Except.ok.inj e1
    subst this
    rw [hk2, htake, ← hl2]
    exact Fwd.cut hf0 hrc r1c fr1
  · rw [List.length_take]; omega
  · rw [List.length_drop]; omega
  · intro h2; omega
  · intro fuel hfuel
    obtain ⟨h2, r, e, _⟩ := merge_sort_rec_spec (σ := State T) compare fuel h p ns hf hfuel
    exact ⟨h2, r, e⟩

theorem get_middle_split_witness :
    Fwd ex312.heap ex312.first [(0, 3), (1, 1), (2, 2)] ∧
      [((0 : Nat), (3 : Nat)), (1, 1), (2, 2)] ≠ [] ∧
      ∃ c nc, (get_middle (ex312.heap.length + 1) ex312.heap ex312.first :
          Except (Fault (State Nat)) Ptr) = .ok (some c) ∧
        c = 1 ∧ ex312.heap.read c = some nc := by
  obtain ⟨c, nc, e, hc, hr, _⟩ :=
    get_middle_split ltNat ex312.heap ex312.first _ ex312_fwd (by simp)
  exact ⟨ex312_fwd, by simp, c, nc, e, by simpa [addrs] using hc.symm, hr⟩

/-- C11 (the code departs from the claim): on the default-constructed
sequence, which is well-formed, `push_back` returns with the new node as head
and `size()` 1, but `last` stays null: the new node is not the tail, and
`rbegin()` equals `rend()`. -/
theorem push_back_empty_no_tail (h : Heap T) (v : T) :
    WF (List_ h) [] ∧
      ∃ s2, push_back v (List_ h) = .ok s2 ∧ s2.first = some h.length ∧ s2.last = none ∧
        size s2 = 1 ∧ rbegin s2 = rend s2 :=
  ⟨wf_empty h, _, rfl, rfl, rfl, rfl, rfl⟩

/-- C12: on every sequence whose forward chain from `first` is finite and
whose head has no predecessor, whatever `last` holds, `merge_sort` returns and
leaves the head without predecessor, `node.next.prev == node` along the chain
and `last` at the end of the chain; forward traversal reads the values of the
chain and reverse traversal reads them in reverse. -/
theorem merge_sort_backlinks (compare : T → T → Bool) (s : State T) (ns : List (Nat × T))
    (hf : Fwd s.heap s.first ns)
    (hhead : ∀ a n, s.first = some a → s.heap.read a = some n → n.prev = none) :
    ∃ s2 ns2, merge_sort compare s = .ok s2 ∧ Fwd s2.heap s2.first ns2 ∧
      Back s2.heap none ns2 ∧ s2.last = (addrs ns2).getLast? ∧
      read_forward s2 = .ok (vals ns2) ∧ read_reverse s2 = .ok (vals ns2).reverse := by
  obtain ⟨s2, ns2, e, _, hf2, hb2, hlast, _⟩ := merge_sort_links compare s ns hf hhead
  refine ⟨s2, ns2, e, hf2, hb2, hlast, ?_, ?_⟩
  · exact read_forward_loop_spec _ ns2 s2.first hf2 (Nat.lt_succ_of_le hf2.length_le)
  · have := read_reverse_loop_spec (s2.heap.length + 1) ns2 (fun a x hax => Seg.data hf2 a x hax)
      hb2 (Nat.lt_succ_of_le hf2.length_le)
    rw [prevOf_none_eq_getLast, ← hlast] at this
    exact this

theorem merge_sort_backlinks_witness :
    Fwd ex312.heap ex312.first [(0, 3), (1, 1), (2, 2)] ∧
      (∀ a n, ex312.first = some a → ex312.heap.read a = some n → n.prev = none) ∧
      (∃ s2 ns2, merge_sort ltNat ex312 = .ok s2 ∧ Fwd s2.heap s2.first ns2 ∧
        Back s2.heap none ns2 ∧ s2.last = (addrs ns2).getLast? ∧
        read_forward s2 = .ok (vals ns2) ∧ read_reverse s2 = .ok (vals ns2).reverse) ∧
      ∃ s2, merge_sort ltNat ex312 = .ok s2 ∧ read_forward s2 = .ok [1, 2, 3] ∧
        read_reverse s2 = .ok [3, 2, 1] :=
  ⟨ex312_fwd, ex312_wf_links, merge_sort_backlinks ltNat ex312 _ ex312_fwd ex312_wf_links,
    _, rfl, rfl, rfl⟩

/-- C13 (the code departs from the claim): after `push_back(1)` and
`insert(2, 1)` on the default-constructed sequence both calls have returned
and `size()` is 2, but the forward chain from `first` has the single node
holding 1. -/
theorem size_counter_drifts :
    ∃ s2, (push_back 1 (List_ ([] : Heap Nat)) >>= insert 2 1) = .ok s2 ∧ size s2 = 2 ∧
      Fwd s2.heap s2.first [(0, 1)] ∧
      ∀ ns, Fwd s2.heap s2.first ns → ns.length ≠ size s2 := by
  refine ⟨_, rfl, rfl, ⟨rfl, _, rfl, rfl, rfl⟩, ?_⟩
  intro ns hns
  have hone : Fwd (⟨[some ⟨1, none, none⟩, some ⟨2, none, none⟩], some 0, some 1, 2⟩ :
      State Nat).heap (some 0) [(0, 1)] := ⟨rfl, _, rfl, rfl, rfl⟩
  have := Fwd.unique hns hone
  subst this
  decide

/-- C14 (the code departs from the claim): after `push_back(1)`, `insert(2, 1)`
and `remove(0)` on the default-constructed sequence all three calls have
returned, `first` and `last` are both null, and `size()` is 1. -/
theorem empty_links_nonzero_size :
    ∃ s3, (push_back 1 (List_ ([] : Heap Nat)) >>= insert 2 1 >>= remove 0) = .ok s3 ∧
      s3.first = none ∧ s3.last = none ∧ size s3 = 1 :=
  ⟨_, rfl, rfl, rfl, rfl⟩

/-- C15: after any run of `push_back`, `insert`, `insert_if` and `remove` calls
on the default-constructed sequence, `size()` is the number of insertion calls
that returned minus the number of `remove` calls that returned; a call that
throws `out_of_range` leaves `size()` as it was. -/
theorem size_accounting (ops : List (Op T)) (h : Heap T) (s : State T) (ins rem : Nat)
    (hrun : runCalls ops (List_ h) = some (s, ins, rem)) :
    size s + rem = ins ∧ size s = ins - rem ∧
      ∀ (op : Op T) (s1 s2 : State T),
        op.call s1 = .error (.out_of_range s2) → size s2 = size s1 := by
  have hsz := runCalls_size ops (List_ h) s ins rem hrun
  have h0 : (List_ h).size_ = 0 := rfl
  rw [h0] at hsz
  refine ⟨by simpa [size] using hsz, by simp only [size]; omega, ?_⟩
  intro op s1 s2 hraise
  rw [op_call_raise op s1 s2 hraise]

theorem size_accounting_witness :
    ∃ s, runCalls [Op.insert 3 0, Op.push_back 1, Op.remove 5, Op.insert_if 2 ltNat,
        Op.remove 0] (List_ ([] : Heap Nat)) = some (s, 3, 1) ∧
      size s + 1 = 3 ∧ size s = 3 - 1 :=
  ⟨_, rfl,
    (size_accounting [Op.insert 3 0, Op.push_back 1, Op.remove 5, Op.insert_if 2 ltNat,
      Op.remove 0] ([] : Heap Nat) _ 3 1 rfl).1,
    (size_accounting [Op.insert 3 0, Op.push_back 1, Op.remove 5, Op.insert_if 2 ltNat,
      Op.remove 0] ([] : Heap Nat) _ 3 1 rfl).2.1⟩

/-- C18: a well-formed sequence has `first` null exactly when `last` is null,
and from every well-formed state the result is again well-formed after
`insert` with `index <= size()`, `remove` with `index < size()`, `merge_sort`,
`clear`, and every call that throws `out_of_range` (only `insert`, `remove`
and `operator[]` can); `push_back` and `insert_if` keep well-formedness
whenever the sequence is not empty. -/
theorem wf_preserved (s : State T) (ns : List (Nat × T)) (hwf : WF s ns) :
    (s.first = none ↔ s.last = none) ∧
    (∀ v i, i ≤ size s → ∃ s2 ns2, insert v i s = .ok s2 ∧ WF s2 ns2) ∧
    (∀ i, i < size s → ∃ s2 ns2, remove i s = .ok s2 ∧ WF s2 ns2) ∧
    (∀ compare, ∃ s2 ns2, merge_sort compare s = .ok s2 ∧ WF s2 ns2) ∧
    (∃ s2, clear s = .ok s2 ∧ WF s2 []) ∧
    (∀ v i s2, insert v i s = .error (.out_of_range s2) → WF s2 ns) ∧
    (∀ i s2, remove i s = .error (.out_of_range s2) → WF s2 ns) ∧
    (∀ i s2, subscript i s = .error (.out_of_range s2) → WF s2 ns) ∧
    (∀ v, NoRaise (push_back v s)) ∧
    (∀ v compare, NoRaise (insert_if v compare s)) ∧
    (∀ compare, NoRaise (merge_sort compare s)) ∧
    NoRaise (clear s) ∧
    (ns ≠ [] → ∀ v, ∃ s2 ns2, push_back v s = .ok s2 ∧ WF s2 ns2) ∧
    (ns ≠ [] → ∀ v compare, ∃ k s2 ns2, insert_if v compare s = .ok (k, s2) ∧ WF s2 ns2) := by
  refine ⟨hwf.null_iff, ?_, ?_, ?_, ?_, ?_, ?_, ?_, ?_, ?_, ?_, ?_, ?_, ?_⟩
  · intro v i hi
    obtain ⟨s2, e, hwf2, _⟩ := insert_spec v i s ns hwf hi
    exact ⟨s2, _, e, hwf2⟩
  · intro i hi
    obtain ⟨s2, e, hwf2, _⟩ := remove_spec i s ns hwf hi
    exact ⟨s2, _, e, hwf2⟩
  · intro compare
    exact merge_sort_wf compare s ns hwf
  · obtain ⟨h2, e, _⟩ :=
      clear_loop_spec (σ := State T) (s.heap.length + 1) s.heap ns s.first hwf.fwd
        (Nat.lt_succ_of_le hwf.fwd.length_le)
    exact ⟨List_ h2, by simp only [clear, e, bind_ok, List_], wf_empty h2⟩
  · intro v i s2 h
    rw [insert_raise h]; exact hwf
  · intro i s2 h
    rw [remove_raise h]; exact hwf
  · intro i s2 h
    rw [subscript_raise h]; exact hwf
  · intro v
    exact noRaise_push_back v s
  · intro v compare
    exact noRaise_insert_if_loop v compare s _ _ _
  · intro compare
    exact noRaise_merge_sort compare s
  · exact noRaise_clear s
  · intro hne v
    obtain ⟨s2, e, _, _, _, hwf2, _⟩ := push_back_spec v s ns hwf
    exact ⟨s2, _, e, hwf2 hne⟩
  · intro hne v compare
    obtain ⟨s2, e, _, hwf2, _⟩ := insert_if_spec v compare s ns hwf
    exact ⟨_, s2, _, e, hwf2 hne⟩

theorem wf_preserved_witness :
    WF ex135 [(0, 1), (1, 3), (2, 5)] ∧
      (∃ s2 ns2, insert 2 1 ex135 = .ok s2 ∧ WF s2 ns2) ∧
      (∃ s2 ns2, remove 1 ex135 = .ok s2 ∧ WF s2 ns2) ∧
      (∃ s2 ns2, merge_sort ltNat ex135 = .ok s2 ∧ WF s2 ns2) ∧
      (∃ s2, clear ex135 = .ok s2 ∧ WF s2 []) ∧
      (∃ s2 ns2, push_back 7 ex135 = .ok s2 ∧ WF s2 ns2) ∧
      (∃ k s2 ns2, insert_if 4 ltNat ex135 = .ok (k, s2) ∧ WF s2 ns2) := by
  obtain ⟨_, h1, h2, h3, h4, _, _, _, _, _, _, _, h5, h6⟩ := wf_preserved ex135 _ ex135_wf
  exact ⟨ex135_wf, h1 2 1 (by decide), h2 1 (by decide), h3 ltNat, h4, h5 (by simp) 7,
    h6 (by simp) 4 ltNat⟩

end CppList
